import Mathlib

/-!
# meminfo plugin: a shallow embedding of `include/plugin.hpp`

The plugin discovers metrics in a key/value text source (`init`), samples the
tracked line positions on every tick (`parse`), derives `MemUsed` and
`SwapUsed`, and stores one series per position. Its constructor reads the
sampling interval, `start` and `stop` launch and join the sampling thread,
`exec` is the loop of that thread, and `get_all_values` reads a series back.

Conventions of the embedding

* a `std::string` is a `List Char`; the text source is the list of its lines
  (what `std::getline` yields, in order);
* `std::int64_t` values are `Int`; arithmetic that can overflow is wrapped
  with `wrap64`;
* `std::regex` patterns are values of `Re`; `regex_match` is a backtracking
  matcher that lists the ways a pattern can consume a prefix of the input in
  priority order (greedy quantifiers, left alternative first) and takes the
  first one that consumes all of it;
* an exception is an `Except.error`, and so is undefined behaviour of the
  bulk read (`UB`);
* the wall clock is a sequence of readings, one per call of
  `system_clock::now()`; a loop that may run for ever takes a bound on the
  number of its tests and returns `none` when the bound is reached.
-/

namespace MemInfo

/-- A string of the program. -/
abbrev Str := List Char

/-! ## Regular expressions (the fragment of ECMAScript the plugin uses) -/

/-- A character class: `.`, a bracket expression `[...]` given by its ranges,
or a negated one `[^...]`. A literal character `c` is `[c]`. -/
inductive Cls where
  | any
  | pos (rs : List (Char × Char))
  | neg (rs : List (Char × Char))

/-- Membership of a character in a list of inclusive ranges. -/
def inRanges (rs : List (Char × Char)) (c : Char) : Bool :=
  rs.any fun r => decide (r.1 ≤ c) && decide (c ≤ r.2)

/-- Whether a class accepts a character; `.` accepts everything but the line
terminators `\n` and `\r`. -/
def Cls.test : Cls → Char → Bool
  | .any, c => !(c == '\n') && !(c == '\r')
  | .pos rs, c => inRanges rs c
  | .neg rs, c => !(inRanges rs c)

/-- Regular expressions: `group` is a capturing parenthesis, numbered by the
position of its opening parenthesis as in `std::regex`. -/
inductive Re where
  | eps
  | chr (k : Cls)
  | seq (a b : Re)
  | alt (a b : Re)
  | opt (a : Re)
  | star (a : Re)
  | plus (a : Re)
  | group (a : Re)

/-- Number of capturing groups of a pattern. -/
def Re.ngroups : Re → Nat
  | .eps => 0
  | .chr _ => 0
  | .seq a b => a.ngroups + b.ngroups
  | .alt a b => a.ngroups + b.ngroups
  | .opt a => a.ngroups
  | .star a => a.ngroups
  | .plus a => a.ngroups
  | .group a => a.ngroups + 1

/-- The captures recorded so far: group number and matched text, most recent
first. -/
abbrev Caps := List (Nat × Str)

/-- A partial match: the input still to be consumed and the captures. -/
abbrev MState := Str × Caps

/-- Greedy iteration of a matcher `f`: as many rounds as possible first, each
round consuming at least one character, then fewer. `fuel` bounds the number
of rounds and is the length of the input where the iteration starts. -/
def starLoop (f : Str → Caps → List MState) : Nat → Str → Caps → List MState
  | 0, s, c => [(s, c)]
  | fuel + 1, s, c =>
    (((f s c).filter fun x => decide (x.1.length < s.length)).flatMap
        fun x => starLoop f fuel x.1 x.2) ++ [(s, c)]

/-- All the ways pattern `r` can consume a prefix of `s`, in the order a
backtracking matcher tries them. `base` is the number of the next capturing
group. -/
def Re.ms : Re → Nat → Str → Caps → List MState
  | .eps, _, s, c => [(s, c)]
  | .chr k, _, s, c =>
    match s with
    | [] => []
    | x :: xs => if k.test x then [(xs, c)] else []
  | .seq a b, base, s, c =>
    (a.ms base s c).flatMap fun x => b.ms (base + a.ngroups) x.1 x.2
  | .alt a b, base, s, c => a.ms base s c ++ b.ms (base + a.ngroups) s c
  | .opt a, base, s, c => a.ms base s c ++ [(s, c)]
  | .star a, base, s, c => starLoop (a.ms base) s.length s c
  | .plus a, base, s, c =>
    (a.ms base s c).flatMap fun x => starLoop (a.ms base) x.1.length x.1 x.2
  | .group a, base, s, c =>
    (a.ms (base + 1) s c).map fun x =>
      (x.1, (base, s.take (s.length - x.1.length)) :: x.2)

/-- The pattern of a literal string. -/
def Re.str : Str → Re
  | [] => .eps
  | x :: xs => .seq (.chr (.pos [(x, x)])) (Re.str xs)

/-- An alternation `a|b|...` of a non-empty list of patterns. -/
def Re.alts : Re → List Re → Re
  | a, [] => a
  | a, b :: bs => .alt a (Re.alts b bs)

/-- What `std::regex_match` does: the first way of matching that consumes the
whole input, if any, with its captures. -/
def regex_match (s : Str) (r : Re) : Option Caps :=
  ((r.ms 1 s []).find? fun x => x.1.isEmpty).map fun x => x.2

/-- The text of `match[i].str()`: the capture of group `i`, empty when the
group did not take part in the match or when the match failed. -/
def sub (m : Option Caps) (i : Nat) : Str :=
  match m with
  | none => []
  | some c => (c.lookup i).getD []

/-- The pattern `[^a-zA-Z0-9]`. -/
def notAlnum : Cls := .neg [('a', 'z'), ('A', 'Z'), ('0', '9')]

/-- The pattern `[0-9]`. -/
def digit : Cls := .pos [('0', '9')]

/-- The pattern `[kKmMgGtT]`. -/
def scaleLetter : Cls :=
  .pos [('k', 'k'), ('K', 'K'), ('m', 'm'), ('M', 'M'), ('g', 'g'), ('G', 'G'),
    ('t', 't'), ('T', 'T')]

/-- The pattern `[bB]`. -/
def byteLetter : Cls := .pos [('b', 'b'), ('B', 'B')]

/-- The member `regex_parse`:
`.*:[^a-zA-Z0-9]*([0-9]+).?([kKmMgGtT][bB])?.*` -/
def regex_parse : Re :=
  .seq (.star (.chr .any)) <| .seq (.chr (.pos [(':', ':')])) <|
  .seq (.star (.chr notAlnum)) <| .seq (.group (.plus (.chr digit))) <|
  .seq (.opt (.chr .any)) <|
  .seq (.opt (.group (.seq (.chr scaleLetter) (.chr byteLetter)))) <|
  .star (.chr .any)

/-- The tail `init` appends to the caller's filter:
`:[^a-zA-Z0-9]*([0-9]+).?([kKmMgGtT][bB])?[^a-zA-Z0-9]*` -/
def customTail : Re :=
  .seq (.chr (.pos [(':', ':')])) <|
  .seq (.star (.chr notAlnum)) <| .seq (.group (.plus (.chr digit))) <|
  .seq (.opt (.chr .any)) <|
  .seq (.opt (.group (.seq (.chr scaleLetter) (.chr byteLetter)))) <|
  .star (.chr notAlnum)

/-- The seven names of the fixed fallback pattern, in its order. -/
def wellKnownNames : List Str :=
  ["MemTotal".toList, "MemFree".toList, "SwapTotal".toList, "SwapFree".toList,
   "SwapCached".toList, "Cached".toList, "Buffers".toList]

/-- The tail of the fallback pattern:
`:[^a-zA-Z0-9]*([0-9]+).?[kKmMgGtT]?([bB])?[^a-zA-Z0-9]*` -/
def fallbackTail : Re :=
  .seq (.chr (.pos [(':', ':')])) <|
  .seq (.star (.chr notAlnum)) <| .seq (.group (.plus (.chr digit))) <|
  .seq (.opt (.chr .any)) <| .seq (.opt (.chr scaleLetter)) <|
  .seq (.opt (.group (.chr byteLetter))) <|
  .star (.chr notAlnum)

/-- The fallback pattern of `init`:
`(MemTotal|MemFree|SwapTotal|SwapFree|SwapCached|Cached|Buffers)` followed by
`fallbackTail`. -/
def regex_fallback : Re :=
  .seq (.group (Re.alts (Re.str "MemTotal".toList)
    [Re.str "MemFree".toList, Re.str "SwapTotal".toList, Re.str "SwapFree".toList,
     Re.str "SwapCached".toList, Re.str "Cached".toList, Re.str "Buffers".toList]))
    fallbackTail

/-! ## Machine integers and `std::stoll` -/

/-- The exceptions the sampling path can raise. -/
inductive Err where
  | invalid_argument
  | out_of_range
  deriving DecidableEq, Repr

/-- Two's-complement wrap-around of a mathematical integer into
`std::int64_t`. -/
def wrap64 (x : Int) : Int := (x + 2 ^ 63) % 2 ^ 64 - 2 ^ 63

/-- The C function `isspace` in the "C" locale. -/
def isspace (c : Char) : Bool :=
  c == ' ' || c == '\t' || c == '\n' || c == '\x0b' || c == '\x0c' || c == '\r'

/-- The C function `isdigit`. -/
def isdigit (c : Char) : Bool := decide ('0' ≤ c) && decide (c ≤ '9')

/-- Value of a decimal digit string, most significant digit first. -/
def decimal (ds : Str) : Nat :=
  ds.foldl (fun acc d => 10 * acc + (d.toNat - '0'.toNat)) 0

/-- The library call `std::stoll(str)` (base 10): leading white space, an
optional sign, then the longest run of digits. No digit at all raises
`invalid_argument`; a value outside `std::int64_t` raises `out_of_range`. -/
def stoll (s : Str) : Except Err Int :=
  let s1 := s.dropWhile isspace
  let signed : Bool × Str :=
    match s1 with
    | '-' :: t => (true, t)
    | '+' :: t => (false, t)
    | _ => (false, s1)
  let ds := signed.2.takeWhile isdigit
  if ds.isEmpty then .error .invalid_argument
  else
    let v : Int := if signed.1 then -(decimal ds : Int) else (decimal ds : Int)
    if v < -(2 ^ 63) ∨ 2 ^ 63 - 1 < v then .error .out_of_range else .ok v

/-! ## The plugin state -/

/-- The member `values_by_id_`, a `std::map` from position to series, as an
association list. -/
abbrev Data := List (Int × List Int)

/-- The call `data.find(k)`: the series stored under key `k`, if any. -/
def find (data : Data) (k : Int) : Option (List Int) := data.lookup k

/-- The call `it->second.push_back(v)` for the entry with key `k`. -/
def push_back (data : Data) (k : Int) (v : Int) : Data :=
  data.map fun e => if e.1 = k then (e.1, e.2 ++ [v]) else e

/-- The call `values_by_id_.emplace(k, {})`: a new empty series under `k`
unless the key is present. -/
def emplace (data : Data) (k : Int) : Data :=
  match find data k with
  | some _ => data
  | none => data ++ [(k, [])]

/-- The struct `meminfo_t`. -/
structure meminfo_t where
  line_nr : Int
  name : Str
  unit : Str
  deriving DecidableEq, Repr

/-- The fields of `meminfo_plugin` that discovery and sampling use: the series
store, the shared timestamps and the nine role positions (`-1` when
unassigned). -/
structure meminfo_plugin where
  values_by_id_ : Data
  times_ : List Int
  mem_total_pos : Int
  mem_free_pos : Int
  buffers_pos : Int
  cached_pos : Int
  swap_total_pos : Int
  swap_free_pos : Int
  swap_cached_pos : Int
  mem_used_pos : Int
  swap_used_pos : Int
  deriving DecidableEq, Repr

/-- The local raw-value registers of one `parse` call. -/
structure Regs where
  mem_total : Int
  mem_free : Int
  buffers : Int
  cached : Int
  swap_total : Int
  swap_free : Int
  swap_cached : Int
  deriving DecidableEq, Repr

/-- The registers as `parse` initialises them: all `-1`. -/
def Regs.init : Regs := ⟨-1, -1, -1, -1, -1, -1, -1⟩

/-! ## Sampling: `parse` -/

/-- One `value *= 1024` on a `std::int64_t`. -/
def mul1024 (v : Int) : Int := wrap64 (v * 1024)

/-- The unit normalisation inside `parse`: the `if` on the captured unit and
the `switch` with its fall-through cases. -/
def normalize (value : Int) (unit : Str) : Int :=
  match unit with
  | [u0, u1] =>
    if u1.toLower = 'b' then
      if u0.toLower = 't' then mul1024 (mul1024 (mul1024 (mul1024 value)))
      else if u0.toLower = 'g' then mul1024 (mul1024 (mul1024 value))
      else if u0.toLower = 'm' then mul1024 (mul1024 value)
      else if u0.toLower = 'k' then mul1024 value
      else value
    else value
  | _ => value

/-- What `parse` extracts from a tracked line: `regex_match` with
`regex_parse` (its result is not tested), `std::stoll` of capture 1, and the
normalisation by capture 2. -/
def lineValue (line : Str) : Except Err Int :=
  let m := regex_match line regex_parse
  match stoll (sub m 1) with
  | .error e => .error e
  | .ok value => .ok (normalize value (sub m 2))

/-- The seven `if (..._pos == line_nr)` assignments of `parse`, each to its
own local variable. -/
def stash (st : meminfo_plugin) (line_nr value : Int) (r : Regs) : Regs :=
  { mem_total := if st.mem_total_pos = line_nr then value else r.mem_total
    mem_free := if st.mem_free_pos = line_nr then value else r.mem_free
    buffers := if st.buffers_pos = line_nr then value else r.buffers
    cached := if st.cached_pos = line_nr then value else r.cached
    swap_total := if st.swap_total_pos = line_nr then value else r.swap_total
    swap_free := if st.swap_free_pos = line_nr then value else r.swap_free
    swap_cached := if st.swap_cached_pos = line_nr then value else r.swap_cached }

/-- The `while (std::getline(...))` loop of `parse`, from line number
`line_nr` on. -/
def scanLines (st : meminfo_plugin) : List Str → Int → Data → Regs → Except Err (Data × Regs)
  | [], _, data, regs => .ok (data, regs)
  | line :: rest, line_nr, data, regs =>
    match find data line_nr with
    | some _ =>
      match lineValue line with
      | .error e => .error e
      | .ok value =>
        scanLines st rest (line_nr + 1) (push_back data line_nr value)
          (stash st line_nr value regs)
    | none => scanLines st rest (line_nr + 1) data regs

/-- The value the `MemUsed` block pushes. -/
def memUsedValue (r : Regs) : Int :=
  if 0 ≤ r.mem_total ∧ 0 ≤ r.mem_free ∧ 0 ≤ r.buffers ∧ 0 ≤ r.cached then
    wrap64 (wrap64 (wrap64 (r.mem_total - r.mem_free) - r.buffers) - r.cached)
  else 0

/-- The value the `SwapUsed` block pushes. -/
def swapUsedValue (r : Regs) : Int :=
  if 0 ≤ r.swap_total ∧ 0 ≤ r.swap_free ∧ 0 ≤ r.swap_cached then
    wrap64 (wrap64 (r.swap_total - r.swap_free) - r.swap_cached)
  else 0

/-- The `MemUsed` block of `parse`. -/
def memUsedBlock (st : meminfo_plugin) (r : Regs) (data : Data) : Data :=
  match find data st.mem_used_pos with
  | some _ => push_back data st.mem_used_pos (memUsedValue r)
  | none => data

/-- The `SwapUsed` block of `parse`. -/
def swapUsedBlock (st : meminfo_plugin) (r : Regs) (data : Data) : Data :=
  match find data st.swap_used_pos with
  | some _ => push_back data st.swap_used_pos (swapUsedValue r)
  | none => data

/-- The method `parse(data)` on the source `lines`. -/
def parse (st : meminfo_plugin) (lines : List Str) (data : Data) : Except Err Data :=
  match scanLines st lines 0 data Regs.init with
  | .error e => .error e
  | .ok (d, r) => .ok (swapUsedBlock st r (memUsedBlock st r d))

/-- One iteration of the loop of `exec` up to the timestamp: `parse` on the
series store, then `times_.push_back(now)`. -/
def tick (st : meminfo_plugin) (lines : List Str) (now : Int) : Except Err meminfo_plugin :=
  match parse st lines st.values_by_id_ with
  | .error e => .error e
  | .ok d => .ok { st with values_by_id_ := d, times_ := st.times_ ++ [now] }

/-- A run of ticks, one source content and one timestamp per tick. -/
def ticks (st : meminfo_plugin) : List (List Str × Int) → Except Err meminfo_plugin
  | [] => .ok st
  | (lines, now) :: rest =>
    match tick st lines now with
    | .error e => .error e
    | .ok st1 => ticks st1 rest

/-! ## Discovery: `init` -/

/-- The pattern `[a-zA-Z0-9_]`. -/
def wordChar : Cls := .pos [('a', 'z'), ('A', 'Z'), ('0', '9'), ('_', '_')]

/-- The pattern `regex_custom_str` of `init`: the search patterns joined by
`|` inside one capturing group, `[a-zA-Z0-9_]+` when there is none. The
search patterns are taken parsed: each is a complete pattern of its own, so
that the parentheses `init` adds close around all of it. -/
def regex_custom (search : List Re) : Re :=
  match search with
  | [] => .group (.plus (.chr wordChar))
  | s :: ss => .group (Re.alts s ss)

/-- The pattern `regex_str` of `init`: `regex_custom` followed by
`customTail`. -/
def regex_str (search : List Re) : Re := .seq (regex_custom search) customTail

/-- The two `regex_match` calls on one line: the caller's pattern first, the
fallback pattern when it fails. -/
def matchLine (regex : Re) (line : Str) : Option Caps :=
  match regex_match line regex with
  | some c => some c
  | none => regex_match line regex_fallback

/-- The `while (std::getline(...))` loop of `init`. -/
def initLoop (regex : Re) : List Str → Int → List meminfo_t → List meminfo_t × Int
  | [], line_nr, results => (results, line_nr)
  | line :: rest, line_nr, results =>
    match matchLine regex line with
    | some c =>
      initLoop regex rest (line_nr + 1)
        (results ++ [⟨line_nr, sub (some c) 1, sub (some c) 3⟩])
    | none => initLoop regex rest (line_nr + 1) results

/-- The method `init(search)` on the source `lines`. -/
def init (search : List Re) (lines : List Str) : List meminfo_t :=
  let scanned := initLoop (regex_str search) lines 0 []
  let results := scanned.1
  let line_nr := scanned.2
  let results :=
    if (regex_match "MemUsed".toList (regex_custom search)).isSome then
      results ++ [⟨line_nr, "MemUsed".toList, "B".toList⟩]
    else results
  let line_nr := line_nr + 1
  let results :=
    if (regex_match "SwapUsed".toList (regex_custom search)).isSome then
      results ++ [⟨line_nr, "SwapUsed".toList, "B".toList⟩]
    else results
  results

/-! ## Registration: `get_metric_properties` -/

/-- What `get_metric_properties` reports for a metric: name, description and
unit (every metric is an absolute point value of integer type). -/
structure metric_property where
  name : Str
  description : Str
  unit : Str
  deriving DecidableEq, Repr

/-- The method `get_metric_properties(pattern)` on the source `lines`: every
identity of `init({pattern})` whose position is not yet a key of
`values_by_id_` is reported and gets an empty series. -/
def get_metric_properties (st : meminfo_plugin) (pattern : Re) (lines : List Str) :
    List metric_property × meminfo_plugin :=
  (init [pattern] lines).foldl
    (fun acc m =>
      match find acc.2.values_by_id_ m.line_nr with
      | none =>
        (acc.1 ++ [⟨m.name, [], m.unit⟩],
          { acc.2 with values_by_id_ := emplace acc.2.values_by_id_ m.line_nr })
      | some _ => acc)
    ([], st)

/-! ## Registration: `add_metric` -/

/-- Conversion of a `std::int64_t` to `int` (32 bits, two's complement), as in
the assignments `..._pos = id_obj.line_nr`. -/
def wrap32 (x : Int) : Int := (x + 2 ^ 31) % 2 ^ 32 - 2 ^ 31

/-- The method `add_metric(id_obj)`: nine `if`s in sequence, each comparing
the name with one role name and storing the position. -/
def add_metric (st : meminfo_plugin) (id_obj : meminfo_t) : meminfo_plugin :=
  let st := if id_obj.name = "MemTotal".toList then
    { st with mem_total_pos := wrap32 id_obj.line_nr } else st
  let st := if id_obj.name = "MemFree".toList then
    { st with mem_free_pos := wrap32 id_obj.line_nr } else st
  let st := if id_obj.name = "Buffers".toList then
    { st with buffers_pos := wrap32 id_obj.line_nr } else st
  let st := if id_obj.name = "Cached".toList then
    { st with cached_pos := wrap32 id_obj.line_nr } else st
  let st := if id_obj.name = "SwapTotal".toList then
    { st with swap_total_pos := wrap32 id_obj.line_nr } else st
  let st := if id_obj.name = "SwapFree".toList then
    { st with swap_free_pos := wrap32 id_obj.line_nr } else st
  let st := if id_obj.name = "SwapCached".toList then
    { st with swap_cached_pos := wrap32 id_obj.line_nr } else st
  let st := if id_obj.name = "MemUsed".toList then
    { st with mem_used_pos := wrap32 id_obj.line_nr } else st
  let st := if id_obj.name = "SwapUsed".toList then
    { st with swap_used_pos := wrap32 id_obj.line_nr } else st
  st

/-! ## Bulk read: `get_all_values` -/

/-- Undefined behaviour the bulk read can run into: dereferencing the
iterator `end()` and indexing a vector past its last element. -/
inductive UB where
  | deref_end
  | index_out_of_range
  deriving DecidableEq, Repr

/-- The loop `for (int i = 0; i < values.size(); ++i) c.write(times_[i],
values[i])` from index `i` on; `out` is what the cursor received so far. The
loop ends when `i` reaches `values.size()`; `times_[i]` is not checked. -/
def writeLoop (times values : List Int) :
    Nat → Nat → List (Int × Int) → Except UB (List (Int × Int))
  | 0, _, out => .ok out
  | fuel + 1, i, out =>
    match values[i]? with
    | none => .ok out
    | some v =>
      match times[i]? with
      | none => .error .index_out_of_range
      | some t => writeLoop times values fuel (i + 1) (out ++ [(t, v)])

/-- The method `get_all_values(id_obj, c)`: the pairs written to the cursor,
in order. -/
def get_all_values (st : meminfo_plugin) (id_obj : meminfo_t) :
    Except UB (List (Int × Int)) :=
  match find st.values_by_id_ id_obj.line_nr with
  | none => .error .deref_end
  | some values => writeLoop st.times_ values (values.length + 1) 0 []

/-! ## Configuration: the constructor -/

/-- The pattern `([0-9]+)([mun]?s)` of the constructor. -/
def regex_interval : Re :=
  .seq (.group (.plus (.chr digit)))
    (.group (.seq (.opt (.chr (.pos [('m', 'm'), ('u', 'u'), ('n', 'n')])))
      (.chr (.pos [('s', 's')]))))

/-- The library call `std::stol(str)`; `long` has 64 bits on the platforms
of the plugin, so it is `std::stoll`. -/
def stol (s : Str) : Except Err Int := stoll s

/-- The constructor `meminfo_plugin()`, as far as `intervall_` goes:
`interval_str` is the configuration string, the result the interval in
nanoseconds. `uninit` is the value of the member before any assignment, which
the `default` case of the `switch` leaves in place. The conversions of
`std::chrono::seconds`, `milliseconds` and `microseconds` to nanoseconds
multiply in `std::int64_t`. -/
def ctor (uninit : Int) (interval_str : Str) : Except Err Int :=
  match regex_match interval_str regex_interval with
  | some c =>
    let time := sub (some c) 1
    let unit := sub (some c) 2
    match unit.head? with
    | some 's' =>
      match stol time with
      | .error e => .error e
      | .ok n => .ok (wrap64 (n * 1000000000))
    | some 'm' =>
      match stol time with
      | .error e => .error e
      | .ok n => .ok (wrap64 (n * 1000000))
    | some 'u' =>
      match stol time with
      | .error e => .error e
      | .ok n => .ok (wrap64 (n * 1000))
    | some 'n' =>
      match stol time with
      | .error e => .error e
      | .ok n => .ok n
    | _ => .ok uninit
  | none => .ok 10000000

/-! ## Lifecycle: `start` and `stop` -/

/-- The lifecycle state: the flag `running`, the deadline
`last_measurement_`, and the number of background threads that were launched
and not yet joined. -/
structure Lifecycle where
  running : Bool
  last_measurement_ : Int
  threads : Nat
  deriving DecidableEq, Repr

/-- The method `start()` called at wall-clock time `now`. -/
def start (now : Int) (l : Lifecycle) : Lifecycle :=
  if l.running then l
  else { running := true, last_measurement_ := now, threads := l.threads + 1 }

/-- The method `stop()`: it returns when `thread_.join()` has returned. -/
def stop (l : Lifecycle) : Lifecycle :=
  if !l.running then l
  else { l with running := false, threads := l.threads - 1 }

/-- A lifecycle call of the host. -/
inductive Call where
  | start (now : Int)
  | stop
  deriving DecidableEq, Repr

/-- The state after a sequence of lifecycle calls. -/
def Lifecycle.run (l : Lifecycle) : List Call → Lifecycle
  | [] => l
  | .start now :: rest => Lifecycle.run (start now l) rest
  | .stop :: rest => Lifecycle.run (stop l) rest

/-- The state of a plugin object after construction at wall-clock time
`now`: not running, no thread. -/
def Lifecycle.initial (now : Int) : Lifecycle :=
  { running := false, last_measurement_ := now, threads := 0 }

/-! ## Scheduling: the loop of `exec` -/

/-- The loop `while (last_measurement_ < system_clock::now())
last_measurement_ += intervall_`. `clock i` is what the `i`-th reading of the
clock returns; the result is the deadline the loop leaves and the number of
the next reading, `none` when the loop is still running after `fuel`
tests. -/
def advance (intervall_ : Int) (clock : Nat → Int) : Nat → Nat → Int → Option (Int × Nat)
  | 0, _, _ => none
  | fuel + 1, i, last =>
    if last < clock i then advance intervall_ clock fuel (i + 1) (wrap64 (last + intervall_))
    else some (last, i + 1)

/-- One iteration of the loop of `exec`: `parse`, the timestamp `stamp`, the
advance of the deadline; the result is the plugin state and the deadline the
thread then sleeps until. An exception is an `error`; `ok none` is an advance
loop that is still running after `fuel` tests. -/
def exec_iteration (st : meminfo_plugin) (intervall_ last_measurement_ : Int)
    (lines : List Str) (stamp : Int) (clock : Nat → Int) (fuel : Nat) :
    Except Err (Option (meminfo_plugin × Int)) :=
  match tick st lines stamp with
  | .error e => .error e
  | .ok st1 =>
    .ok ((advance intervall_ clock fuel 0 last_measurement_).map fun r => (st1, r.1))

/-! ## Vocabulary of the statements -/

/-- Equality of results is decidable when it is on both sides. -/
instance instDecidableEqExcept {ε α : Type} [DecidableEq ε] [DecidableEq α] :
    DecidableEq (Except ε α)
  | .ok a, .ok b =>
    if h : a = b then isTrue (by rw [h]) else isFalse (fun e => h (by cases e; rfl))
  | .error a, .error b =>
    if h : a = b then isTrue (by rw [h]) else isFalse (fun e => h (by cases e; rfl))
  | .ok _, .error _ => isFalse (fun e => by cases e)
  | .error _, .ok _ => isFalse (fun e => by cases e)

/-- The range of `std::int64_t`. -/
def inInt64 (x : Int) : Prop := -(2 ^ 63) ≤ x ∧ x < 2 ^ 63

instance instDecidableInInt64 (x : Int) : Decidable (inInt64 x) := by
  unfold inInt64; infer_instance

/-- The line of the source at position `k` (0-based), if there is one. -/
def lineAt (lines : List Str) (k : Int) : Option Str :=
  if 0 ≤ k then lines[k.toNat]? else none

/-- What the line scan of one tick appends to the series of a tracked
position `k`: the value of line `k` when the source has that line. -/
def lineSample (lines : List Str) (k : Int) : List Int :=
  match lineAt lines k with
  | some line =>
    match lineValue line with
    | .ok v => [v]
    | .error _ => []
  | none => []

/-- The value read for a role during one tick: the role position `k` is a
tracked key, the source has a line at `k`, and that line parses to the
value. -/
def readAt (data : Data) (lines : List Str) (k : Int) : Option Int :=
  match find data k, lineAt lines k with
  | some _, some line =>
    match lineValue line with
    | .ok v => some v
    | .error _ => none
  | _, _ => none

/-- A role input is absent for a tick: its position is unassigned, is not a
tracked key, or the source has no line there. -/
def absent (data : Data) (lines : List Str) (k : Int) : Prop :=
  k = -1 ∨ find data k = none ∨ lineAt lines k = none

/-- Whether `parse` can extract a value from the line. -/
def parses (line : Str) : Bool :=
  match lineValue line with
  | .ok _ => true
  | .error _ => false

/-- Position `k` gets exactly one value from a tick on `lines`: it is
either a line of the source that parses and is neither derived position, or
it is no line of the source and is exactly one of the used-memory and
used-swap positions. -/
def coveredAt (st : meminfo_plugin) (lines : List Str) (k : Int) : Prop :=
  match lineAt lines k with
  | some line => parses line = true ∧ k ≠ st.mem_used_pos ∧ k ≠ st.swap_used_pos
  | none =>
    (k = st.mem_used_pos ∧ k ≠ st.swap_used_pos) ∨
    (k ≠ st.mem_used_pos ∧ k = st.swap_used_pos)

instance instDecidableCoveredAt (st : meminfo_plugin) (lines : List Str) (k : Int) :
    Decidable (coveredAt st lines k) := by
  unfold coveredAt
  cases lineAt lines k <;> simp only [] <;> infer_instance

/-- The source of a tick gives every tracked position exactly one value. -/
def coveredOnce (st : meminfo_plugin) (lines : List Str) : Prop :=
  ∀ e ∈ st.values_by_id_, coveredAt st lines e.1

instance instDecidableCoveredOnce (st : meminfo_plugin) (lines : List Str) :
    Decidable (coveredOnce st lines) := by
  unfold coveredOnce
  infer_instance

/-- What a matcher may do to its state: consume a prefix of the input and
push captures numbered from `lo` up to, but not including, `hi`. -/
def Step (lo hi : Nat) (s : Str) (c : Caps) (x : MState) : Prop :=
  (∃ p, s = p ++ x.1) ∧ ∃ l : Caps, x.2 = l ++ c ∧ ∀ e ∈ l, lo ≤ e.1 ∧ e.1 < hi

/-- The identities of the matched lines of a source whose first line has
number `start`: one per line that `matchLine` accepts, with the number of
that line. -/
def lineIds (regex : Re) : List Str → Int → List meminfo_t
  | [], _ => []
  | line :: rest, start =>
    (match matchLine regex line with
      | some c => [⟨start, sub (some c) 1, sub (some c) 3⟩]
      | none => []) ++ lineIds regex rest (start + 1)

/-- The nine role names `add_metric` knows. -/
def roleNames : List Str :=
  ["MemTotal".toList, "MemFree".toList, "Buffers".toList, "Cached".toList,
   "SwapTotal".toList, "SwapFree".toList, "SwapCached".toList, "MemUsed".toList,
   "SwapUsed".toList]

/-- The range of `int`. -/
def inInt32 (x : Int) : Prop := -(2 ^ 31) ≤ x ∧ x < 2 ^ 31

instance instDecidableInInt32 (x : Int) : Decidable (inInt32 x) := by
  unfold inInt32; infer_instance

/-- One round of the loop of `get_metric_properties`: the descriptors so far
and the plugin state, after the identity `m`. -/
def registerStep (acc : List metric_property × meminfo_plugin) (m : meminfo_t) :
    List metric_property × meminfo_plugin :=
  match find acc.2.values_by_id_ m.line_nr with
  | none =>
    (acc.1 ++ [⟨m.name, [], m.unit⟩],
      { acc.2 with values_by_id_ := emplace acc.2.values_by_id_ m.line_nr })
  | some _ => acc

/-! # Theorems -/

/-! ## The series store and the line scan -/

theorem find_push_back (d : Data) (k v j : Int) :
    find (push_back d k v) j =
      if j = k then (find d j).map (fun xs => xs ++ [v]) else find d j := by
  induction d with
  | nil => simp [find, push_back]
  | cons e es ih =>
    obtain ⟨a, b⟩ := e
    simp only [find, push_back, List.map_cons] at ih ⊢
    by_cases hak : a = k
    · subst hak
      by_cases hja : j = a
      · subst hja; simp [List.lookup_cons]
      · have : (j == a) = false := by simpa using hja
        simp only [if_true, List.lookup_cons, this, hja, if_false]
        simpa [hja] using ih
    · simp only [hak, if_false, List.lookup_cons]
      by_cases hja : j = a
      · subst hja
        simp [hak]
      · have : (j == a) = false := by simpa using hja
        simp only [this]
        exact ih

theorem lineAt_cons_zero (l : Str) (rest : List Str) : lineAt (l :: rest) 0 = some l := by
  simp [lineAt]

theorem lineAt_cons_pos (l : Str) (rest : List Str) (j : Int) (h : 0 < j) :
    lineAt (l :: rest) j = lineAt rest (j - 1) := by
  unfold lineAt
  have h1 : 0 ≤ j := by omega
  have h2 : 0 ≤ j - 1 := by omega
  obtain ⟨n, rfl⟩ : ∃ n : Nat, j = n + 1 := ⟨(j - 1).toNat, by omega⟩ 
  simp only [h1, h2, if_true]
  have e1 : ((n : Int) + 1).toNat = n + 1 := by omega
  have e2 : ((n : Int) + 1 - 1).toNat = n := by omega
  rw [e1, e2]
  simp

theorem lineAt_neg (L : List Str) (j : Int) (h : j < 0) : lineAt L j = none := by
  unfold lineAt
  have : ¬ 0 ≤ j := by omega
  simp [this]


theorem lineAt_nil (j : Int) : lineAt [] j = none := by
  unfold lineAt; split <;> simp

theorem lineSample_nil (j : Int) : lineSample [] j = [] := by
  simp [lineSample, lineAt_nil]

theorem lineSample_neg (L : List Str) (j : Int) (h : j < 0) : lineSample L j = [] := by
  simp [lineSample, lineAt_neg L j h]

theorem lineSample_cons_pos (l : Str) (rest : List Str) (j : Int) (h : 0 < j) :
    lineSample (l :: rest) j = lineSample rest (j - 1) := by
  simp [lineSample, lineAt_cons_pos l rest j h]

theorem scan_find (st : meminfo_plugin) (L : List Str) :
    ∀ (s : Int) (d : Data) (r : Regs) (d' : Data) (r' : Regs),
      scanLines st L s d r = .ok (d', r') →
      ∀ j, find d' j = (find d j).map (fun xs => xs ++ lineSample L (j - s)) := by
  induction L with
  | nil =>
    intro s d r d' r' h j
    simp only [scanLines, Except.ok.injEq, Prod.mk.injEq] at h
    obtain ⟨rfl, rfl⟩ := h
    simp [lineSample_nil]
  | cons l rest ih =>
    intro s d r d' r' h j
    unfold scanLines at h
    have hshift : j ≠ s → lineSample rest (j - (s + 1)) = lineSample (l :: rest) (j - s) := by
      intro hne
      rcases lt_or_gt_of_ne hne with hlt | hgt
      · rw [lineSample_neg _ _ (by omega), lineSample_neg _ _ (by omega)]
      · rw [lineSample_cons_pos l rest (j - s) (by omega)]
        congr 1; omega
    cases hf : find d s with
    | none =>
      simp only [hf] at h
      rw [ih _ _ _ _ _ h j]
      by_cases hjs : j = s
      · subst hjs; simp [hf]
      · rw [hshift hjs]
    | some xs =>
      simp only [hf] at h
      cases hv : lineValue l with
      | error e => simp [hv] at h
      | ok v =>
        simp only [hv] at h
        rw [ih _ _ _ _ _ h j, find_push_back]
        by_cases hjs : j = s
        · subst hjs
          have e0 : j - (j + 1) = -1 := by omega
          have e1 : lineSample rest (-1) = [] := lineSample_neg _ _ (by omega)
          have e2 : lineSample (l :: rest) 0 = [v] := by
            simp [lineSample, lineAt_cons_zero, hv]
          simp [e0, e1, e2, hf]
        · simp only [hjs, if_false]
          rw [hshift hjs]

theorem scan_regs (st : meminfo_plugin) (g : Regs → Int) (p : Int)
    (H : ∀ ln v r, g (stash st ln v r) = if p = ln then v else g r) (L : List Str) :
    ∀ (s : Int) (d : Data) (r : Regs) (d' : Data) (r' : Regs),
      scanLines st L s d r = .ok (d', r') →
      g r' = match find d p, lineAt L (p - s) with
        | some _, some line =>
          (match lineValue line with
            | .ok v => v
            | .error _ => g r)
        | _, _ => g r := by
  induction L with
  | nil =>
    intro s d r d' r' h
    simp only [scanLines, Except.ok.injEq, Prod.mk.injEq] at h
    obtain ⟨rfl, rfl⟩ := h
    simp only [lineAt_nil]
    split <;> simp_all
  | cons l rest ih =>
    intro s d r d' r' h
    unfold scanLines at h
    have hshift : p ≠ s → lineAt rest (p - (s + 1)) = lineAt (l :: rest) (p - s) := by
      intro hne
      rcases lt_or_gt_of_ne hne with hlt | hgt
      · rw [lineAt_neg _ _ (by omega), lineAt_neg _ _ (by omega)]
      · rw [lineAt_cons_pos l rest (p - s) (by omega)]
        congr 1; omega
    cases hf : find d s with
    | none =>
      simp only [hf] at h
      rw [ih _ _ _ _ _ h]
      by_cases hps : p = s
      · subst hps; simp [hf]
      · rw [hshift hps]
    | some xs =>
      simp only [hf] at h
      cases hv : lineValue l with
      | error e => simp [hv] at h
      | ok v =>
        simp only [hv] at h
        rw [ih _ _ _ _ _ h, find_push_back, H]
        by_cases hps : p = s
        · subst hps
          have e0 : p - (p + 1) = -1 := by omega
          have e1 : lineAt rest (-1) = none := lineAt_neg _ _ (by omega)
          have e2 : lineAt (l :: rest) 0 = some l := lineAt_cons_zero l rest
          simp [e0, e1, e2, hf, hv]
        · simp only [hps, if_false]
          rw [hshift hps]

theorem scan_ok (st : meminfo_plugin) (L : List Str) :
    ∀ (s : Int) (d : Data) (r : Regs),
      (∀ j line, (find d j).isSome → lineAt L (j - s) = some line →
        ∃ v, lineValue line = .ok v) →
      ∃ d' r', scanLines st L s d r = .ok (d', r') := by
  induction L with
  | nil => intro s d r _; exact ⟨d, r, rfl⟩
  | cons l rest ih =>
    intro s d r hp
    unfold scanLines
    have hrest : ∀ (d1 : Data), (∀ j, (find d1 j).isSome = (find d j).isSome) →
        ∀ j line, (find d1 j).isSome → lineAt rest (j - (s + 1)) = some line →
        ∃ v, lineValue line = .ok v := by
      intro d1 hd1 j line hj hl
      have hjs : s < j := by
        by_contra hcon
        rw [lineAt_neg _ _ (by omega)] at hl
        cases hl
      apply hp j line (by rw [← hd1]; exact hj)
      rw [lineAt_cons_pos l rest (j - s) (by omega), ← hl]
      congr 1; omega
    cases hf : find d s with
    | none => exact ih _ _ _ (hrest d (fun _ => rfl))
    | some xs =>
      obtain ⟨v, hv⟩ := hp s l (by simp [hf]) (by simp [lineAt_cons_zero])
      simp only [hv]
      apply ih
      apply hrest
      intro j
      rw [find_push_back]
      split <;> simp


theorem wrap64_id (x : Int) (h : inInt64 x) : wrap64 x = x := by
  unfold inInt64 at h
  unfold wrap64
  omega

theorem wrap64_range (x : Int) : inInt64 (wrap64 x) := by
  unfold inInt64 wrap64
  omega

theorem stoll_range (s : Str) (v : Int) (h : stoll s = .ok v) : inInt64 v := by
  unfold stoll at h
  simp only at h
  split_ifs at h
  all_goals
    simp only [Except.ok.injEq] at h
    subst h
    unfold inInt64
    omega

theorem normalize_range (v : Int) (u : Str) (h : inInt64 v) : inInt64 (normalize v u) := by
  unfold normalize
  split
  · simp only [mul1024]
    split_ifs <;> first | exact h | exact wrap64_range _
  · exact h

theorem lineValue_range (line : Str) (v : Int) (h : lineValue line = .ok v) : inInt64 v := by
  unfold lineValue at h
  simp only at h
  split at h
  · cases h
  · rename_i value hv
    simp only [Except.ok.injEq] at h
    subst h
    exact normalize_range _ _ (stoll_range _ _ hv)

theorem readAt_range (data : Data) (lines : List Str) (k v : Int)
    (h : readAt data lines k = some v) : inInt64 v := by
  unfold readAt at h
  split at h
  · rename_i line _ _
    cases hv : lineValue line with
    | error e => simp [hv] at h
    | ok w =>
      simp only [hv, Option.some.injEq] at h
      subst h
      exact lineValue_range _ _ hv
  · cases h

theorem stash_mem_total (st : meminfo_plugin) (ln v : Int) (r : Regs) :
    (stash st ln v r).mem_total = if st.mem_total_pos = ln then v else r.mem_total := rfl

theorem stash_mem_free (st : meminfo_plugin) (ln v : Int) (r : Regs) :
    (stash st ln v r).mem_free = if st.mem_free_pos = ln then v else r.mem_free := rfl

theorem stash_buffers (st : meminfo_plugin) (ln v : Int) (r : Regs) :
    (stash st ln v r).buffers = if st.buffers_pos = ln then v else r.buffers := rfl

theorem stash_cached (st : meminfo_plugin) (ln v : Int) (r : Regs) :
    (stash st ln v r).cached = if st.cached_pos = ln then v else r.cached := rfl

theorem stash_swap_total (st : meminfo_plugin) (ln v : Int) (r : Regs) :
    (stash st ln v r).swap_total = if st.swap_total_pos = ln then v else r.swap_total := rfl

theorem stash_swap_free (st : meminfo_plugin) (ln v : Int) (r : Regs) :
    (stash st ln v r).swap_free = if st.swap_free_pos = ln then v else r.swap_free := rfl

theorem stash_swap_cached (st : meminfo_plugin) (ln v : Int) (r : Regs) :
    (stash st ln v r).swap_cached = if st.swap_cached_pos = ln then v else r.swap_cached := rfl

/-- After a completed scan from line 0, a register holds the value read for
its role, and `-1` when nothing was read. -/
theorem scan_reg_readAt (st : meminfo_plugin) (g : Regs → Int) (p : Int)
    (H : ∀ ln v r, g (stash st ln v r) = if p = ln then v else g r)
    (hg : g Regs.init = -1)
    (lines : List Str) (data d : Data) (r : Regs)
    (h : scanLines st lines 0 data Regs.init = .ok (d, r)) :
    g r = (readAt data lines p).getD (-1) := by
  rw [scan_regs st g p H lines 0 data Regs.init d r h, hg, sub_zero]
  unfold readAt
  split
  · rename_i line _ _
    cases lineValue line <;> simp
  · rfl

/-! ## Unit normalisation -/

theorem toLower_upper (c : Char) (h : c.toNat ≥ 65 ∧ c.toNat ≤ 90) :
    ∃ n : Nat, 65 ≤ n ∧ n ≤ 90 ∧ c = Char.ofNat n :=
  ⟨c.toNat, h.1, h.2, (Char.ofNat_toNat c).symm⟩

theorem toLower_cases (c : Char) :
    (c.toLower = 'b' ↔ c = 'b' ∨ c = 'B') ∧ (c.toLower = 'k' ↔ c = 'k' ∨ c = 'K') ∧
    (c.toLower = 'm' ↔ c = 'm' ∨ c = 'M') ∧ (c.toLower = 'g' ↔ c = 'g' ∨ c = 'G') ∧
    (c.toLower = 't' ↔ c = 't' ∨ c = 'T') := by
  by_cases h : c.toNat ≥ 65 ∧ c.toNat ≤ 90
  · obtain ⟨n, h1, h2, rfl⟩ := toLower_upper c h
    interval_cases n <;> decide
  · have hl : c.toLower = c := by unfold Char.toLower; simp only [h, if_false]
    rw [hl]
    refine ⟨?_, ?_, ?_, ?_, ?_⟩ <;>
    · constructor
      · intro e; exact Or.inl e
      · rintro (e | e)
        · exact e
        · exfalso; apply h; subst e; decide

/-- C1: the unit normalisation inside `parse`. The value is unchanged when
the unit is empty, when it is not two characters ending in `b`/`B`, and when
its first character is none of `k`, `m`, `g`, `t`; it is multiplied by
`1024`, `1024^2`, `1024^3`, `1024^4` for a two-character unit ending in
`b`/`B` that starts with `k`, `m`, `g`, `t` in either case, as long as the
product fits `std::int64_t`. -/
theorem normalize_unit (v : Int) (u : Str) :
    (u = [] → normalize v u = v) ∧
    ((¬ ∃ a b, u = [a, b] ∧ (b = 'b' ∨ b = 'B')) → normalize v u = v) ∧
    (∀ a b, u = [a, b] → a ∉ ['k', 'K', 'm', 'M', 'g', 'G', 't', 'T'] →
      normalize v u = v) ∧
    (∀ a b, u = [a, b] → (b = 'b' ∨ b = 'B') →
      ((a = 'k' ∨ a = 'K') → inInt64 (v * 1024) → normalize v u = v * 1024) ∧
      ((a = 'm' ∨ a = 'M') → inInt64 (v * 1024 ^ 2) → normalize v u = v * 1024 ^ 2) ∧
      ((a = 'g' ∨ a = 'G') → inInt64 (v * 1024 ^ 3) → normalize v u = v * 1024 ^ 3) ∧
      ((a = 't' ∨ a = 'T') → inInt64 (v * 1024 ^ 4) → normalize v u = v * 1024 ^ 4)) := by
  refine ⟨?_, ?_, ?_, ?_⟩
  · rintro rfl; rfl
  · intro h
    unfold normalize
    split
    · rename_i u0 u1
      have hb := (toLower_cases u1).1
      by_cases h1 : u1.toLower = 'b'
      · exact absurd ⟨u0, u1, rfl, hb.1 h1⟩ h
      · simp only [h1, if_false]
    · rfl
  · rintro a b rfl ha
    simp only [List.mem_cons, List.mem_singleton, List.not_mem_nil, or_false, not_or] at ha
    obtain ⟨hk, hK, hm, hM, hg, hG, ht, hT⟩ := ha
    have hc := toLower_cases a
    have e1 : ¬ a.toLower = 'k' := fun e => (hc.2.1.1 e).elim hk hK
    have e2 : ¬ a.toLower = 'm' := fun e => (hc.2.2.1.1 e).elim hm hM
    have e3 : ¬ a.toLower = 'g' := fun e => (hc.2.2.2.1.1 e).elim hg hG
    have e4 : ¬ a.toLower = 't' := fun e => (hc.2.2.2.2.1 e).elim ht hT
    simp only [normalize, e1, e2, e3, e4, if_false, ite_self]
  · rintro a b rfl hb
    have hb1 : b.toLower = 'b' := (toLower_cases b).1.2 hb
    refine ⟨?_, ?_, ?_, ?_⟩
    · intro ha hr
      have h1 : a.toLower = 'k' := (toLower_cases a).2.1.2 ha
      have hr1 := wrap64_id _ hr
      simp only [normalize, hb1, h1, if_true, mul1024]
      simpa using hr1
    · intro ha hr
      have h1 : a.toLower = 'm' := (toLower_cases a).2.2.1.2 ha
      unfold inInt64 at hr
      have hr1 := wrap64_id (v * 1024) (by unfold inInt64; omega)
      have hr2 := wrap64_id (v * 1024 * 1024) (by unfold inInt64; omega)
      simp only [normalize, hb1, h1, if_true, mul1024, hr1, hr2]
      simp
      ring
    · intro ha hr
      have h1 : a.toLower = 'g' := (toLower_cases a).2.2.2.1.2 ha
      unfold inInt64 at hr
      have hr1 := wrap64_id (v * 1024) (by unfold inInt64; omega)
      have hr2 := wrap64_id (v * 1024 * 1024) (by unfold inInt64; omega)
      have hr3 := wrap64_id (v * 1024 * 1024 * 1024) (by unfold inInt64; omega)
      simp only [normalize, hb1, h1, if_true, mul1024, hr1, hr2, hr3]
      simp
      ring
    · intro ha hr
      have h1 : a.toLower = 't' := (toLower_cases a).2.2.2.2.2 ha
      unfold inInt64 at hr
      have hr1 := wrap64_id (v * 1024) (by unfold inInt64; omega)
      have hr2 := wrap64_id (v * 1024 * 1024) (by unfold inInt64; omega)
      have hr3 := wrap64_id (v * 1024 * 1024 * 1024) (by unfold inInt64; omega)
      have hr4 := wrap64_id (v * 1024 * 1024 * 1024 * 1024) (by unfold inInt64; omega)
      simp only [normalize, hb1, h1, if_true, mul1024, hr1, hr2, hr3, hr4]
      ring

theorem normalize_unit_witness :
    normalize 5 "kB".toList = 5120 ∧ normalize 5 "MB".toList = 5242880 ∧
    normalize 5 "".toList = 5 ∧ normalize 5 "xx".toList = 5 :=
  ⟨((normalize_unit 5 "kB".toList).2.2.2 'k' 'B' rfl (Or.inr rfl)).1 (Or.inl rfl) (by decide),
   ((normalize_unit 5 "MB".toList).2.2.2 'M' 'B' rfl (Or.inr rfl)).2.1 (Or.inr rfl) (by decide),
   (normalize_unit 5 "".toList).1 rfl,
   (normalize_unit 5 "xx".toList).2.2.1 'x' 'x' rfl (by decide)⟩

/-! ## Derived metrics -/

theorem scan_keys (st : meminfo_plugin) (lines : List Str) (data d : Data) (r : Regs)
    (h : scanLines st lines 0 data Regs.init = .ok (d, r)) (k : Int) :
    (find d k).isSome = (find data k).isSome := by
  rw [scan_find st lines 0 data Regs.init d r h k]
  cases find data k <;> rfl

theorem parse_inv (st : meminfo_plugin) (lines : List Str) (data data' : Data)
    (h : parse st lines data = .ok data') :
    ∃ d r, scanLines st lines 0 data Regs.init = .ok (d, r) ∧
      data' = swapUsedBlock st r (memUsedBlock st r d) := by
  unfold parse at h
  split at h
  · cases h
  · rename_i d r hs
    simp only [Except.ok.injEq] at h
    exact ⟨d, r, hs, h.symm⟩

theorem memUsedBlock_tracked (st : meminfo_plugin) (r : Regs) (d : Data)
    (h : (find d st.mem_used_pos).isSome) :
    memUsedBlock st r d = push_back d st.mem_used_pos (memUsedValue r) := by
  unfold memUsedBlock
  cases hf : find d st.mem_used_pos with
  | none => simp [hf] at h
  | some xs => rfl

theorem swapUsedBlock_tracked (st : meminfo_plugin) (r : Regs) (d : Data)
    (h : (find d st.swap_used_pos).isSome) :
    swapUsedBlock st r d = push_back d st.swap_used_pos (swapUsedValue r) := by
  unfold swapUsedBlock
  cases hf : find d st.swap_used_pos with
  | none => simp [hf] at h
  | some xs => rfl

theorem memUsedBlock_keys (st : meminfo_plugin) (r : Regs) (d : Data) (k : Int) :
    (find (memUsedBlock st r d) k).isSome = (find d k).isSome := by
  unfold memUsedBlock
  split
  · rw [find_push_back]
    split <;> simp
  · rfl

/-- C2: when the used-memory position is tracked and the four raw roles were
all read in the tick with non-negative values whose difference fits
`std::int64_t`, the `MemUsed` block of `parse` appends exactly
`total - free - buffers - cache` to the used-memory series, and the only
step after it is the `SwapUsed` block. -/
theorem parse_mem_used (st : meminfo_plugin) (lines : List Str) (data data' : Data)
    (total free buffers cache : Int)
    (hrun : parse st lines data = .ok data')
    (hkey : (find data st.mem_used_pos).isSome)
    (ht : readAt data lines st.mem_total_pos = some total)
    (hf : readAt data lines st.mem_free_pos = some free)
    (hb : readAt data lines st.buffers_pos = some buffers)
    (hc : readAt data lines st.cached_pos = some cache)
    (h0 : 0 ≤ total ∧ 0 ≤ free ∧ 0 ≤ buffers ∧ 0 ≤ cache)
    (hrange : -(2 ^ 63) ≤ total - free - buffers - cache) :
    ∃ d r, scanLines st lines 0 data Regs.init = .ok (d, r) ∧
      memUsedBlock st r d =
        push_back d st.mem_used_pos (total - free - buffers - cache) ∧
      find (memUsedBlock st r d) st.mem_used_pos =
        (find d st.mem_used_pos).map (fun xs => xs ++ [total - free - buffers - cache]) ∧
      data' = swapUsedBlock st r (memUsedBlock st r d) := by
  obtain ⟨d, r, hs, hd⟩ := parse_inv st lines data data' hrun
  have e1 := scan_reg_readAt st Regs.mem_total st.mem_total_pos (stash_mem_total st) rfl
    lines data d r hs
  have e2 := scan_reg_readAt st Regs.mem_free st.mem_free_pos (stash_mem_free st) rfl
    lines data d r hs
  have e3 := scan_reg_readAt st Regs.buffers st.buffers_pos (stash_buffers st) rfl
    lines data d r hs
  have e4 := scan_reg_readAt st Regs.cached st.cached_pos (stash_cached st) rfl
    lines data d r hs
  rw [ht, Option.getD_some] at e1
  rw [hf, Option.getD_some] at e2
  rw [hb, Option.getD_some] at e3
  rw [hc, Option.getD_some] at e4
  have r1 := readAt_range _ _ _ _ ht
  have r2 := readAt_range _ _ _ _ hf
  have r3 := readAt_range _ _ _ _ hb
  have r4 := readAt_range _ _ _ _ hc
  unfold inInt64 at r1 r2 r3 r4
  have hv : memUsedValue r = total - free - buffers - cache := by
    unfold memUsedValue
    rw [e1, e2, e3, e4, if_pos h0]
    rw [wrap64_id (total - free) (by unfold inInt64; omega),
      wrap64_id (total - free - buffers) (by unfold inInt64; omega),
      wrap64_id (total - free - buffers - cache) (by unfold inInt64; omega)]
  have hk : (find d st.mem_used_pos).isSome := by
    rw [scan_keys st lines data d r hs]; exact hkey
  have hm := memUsedBlock_tracked st r d hk
  rw [hv] at hm
  refine ⟨d, r, hs, hm, ?_, hd⟩
  rw [hm, find_push_back, if_pos rfl]

/-- C3: when the used-memory position is tracked and one of its four inputs
is absent for the tick, the `MemUsed` block of `parse` appends exactly `0`. -/
theorem parse_mem_used_fallback (st : meminfo_plugin) (lines : List Str) (data data' : Data)
    (hrun : parse st lines data = .ok data')
    (hkey : (find data st.mem_used_pos).isSome)
    (habs : absent data lines st.mem_total_pos ∨ absent data lines st.mem_free_pos ∨
      absent data lines st.buffers_pos ∨ absent data lines st.cached_pos) :
    ∃ d r, scanLines st lines 0 data Regs.init = .ok (d, r) ∧
      memUsedBlock st r d = push_back d st.mem_used_pos 0 ∧
      find (memUsedBlock st r d) st.mem_used_pos =
        (find d st.mem_used_pos).map (fun xs => xs ++ [0]) ∧
      data' = swapUsedBlock st r (memUsedBlock st r d) := by
  obtain ⟨d, r, hs, hd⟩ := parse_inv st lines data data' hrun
  have e1 := scan_reg_readAt st Regs.mem_total st.mem_total_pos (stash_mem_total st) rfl
    lines data d r hs
  have e2 := scan_reg_readAt st Regs.mem_free st.mem_free_pos (stash_mem_free st) rfl
    lines data d r hs
  have e3 := scan_reg_readAt st Regs.buffers st.buffers_pos (stash_buffers st) rfl
    lines data d r hs
  have e4 := scan_reg_readAt st Regs.cached st.cached_pos (stash_cached st) rfl
    lines data d r hs
  have habs' : ∀ k, absent data lines k → readAt data lines k = none := by
    intro k hk
    unfold readAt
    rcases hk with h | h | h
    · subst h
      rw [lineAt_neg _ _ (by omega)]
      split <;> simp_all
    · rw [h]
    · rw [h]
      split <;> simp_all
  have hv : memUsedValue r = 0 := by
    unfold memUsedValue
    rw [e1, e2, e3, e4]
    rcases habs with h | h | h | h <;> rw [habs' _ h] <;> simp
  have hk : (find d st.mem_used_pos).isSome := by
    rw [scan_keys st lines data d r hs]; exact hkey
  have hm := memUsedBlock_tracked st r d hk
  rw [hv] at hm
  refine ⟨d, r, hs, hm, ?_, hd⟩
  rw [hm, find_push_back, if_pos rfl]

/-- C4: when the used-swap position is tracked, the last step of `parse`
appends one value to the used-swap series: `swap_total - swap_free -
swap_cached` when the three swap roles were read in the tick with
non-negative values (and the difference fits `std::int64_t`), `0`
otherwise. -/
theorem parse_swap_used (st : meminfo_plugin) (lines : List Str) (data data' : Data)
    (hrun : parse st lines data = .ok data')
    (hkey : (find data st.swap_used_pos).isSome) :
    ∃ d r v, scanLines st lines 0 data Regs.init = .ok (d, r) ∧
      data' = push_back (memUsedBlock st r d) st.swap_used_pos v ∧
      find data' st.swap_used_pos =
        (find (memUsedBlock st r d) st.swap_used_pos).map (fun xs => xs ++ [v]) ∧
      (∀ t f c, readAt data lines st.swap_total_pos = some t →
        readAt data lines st.swap_free_pos = some f →
        readAt data lines st.swap_cached_pos = some c →
        0 ≤ t ∧ 0 ≤ f ∧ 0 ≤ c → -(2 ^ 63) ≤ t - f - c → v = t - f - c) ∧
      ((¬ ∃ t f c, readAt data lines st.swap_total_pos = some t ∧
        readAt data lines st.swap_free_pos = some f ∧
        readAt data lines st.swap_cached_pos = some c ∧
        0 ≤ t ∧ 0 ≤ f ∧ 0 ≤ c) → v = 0) := by
  obtain ⟨d, r, hs, hd⟩ := parse_inv st lines data data' hrun
  have e1 := scan_reg_readAt st Regs.swap_total st.swap_total_pos (stash_swap_total st) rfl
    lines data d r hs
  have e2 := scan_reg_readAt st Regs.swap_free st.swap_free_pos (stash_swap_free st) rfl
    lines data d r hs
  have e3 := scan_reg_readAt st Regs.swap_cached st.swap_cached_pos (stash_swap_cached st) rfl
    lines data d r hs
  have hk : (find (memUsedBlock st r d) st.swap_used_pos).isSome := by
    rw [memUsedBlock_keys, scan_keys st lines data d r hs]; exact hkey
  have hm := swapUsedBlock_tracked st r _ hk
  rw [hm] at hd
  refine ⟨d, r, swapUsedValue r, hs, hd, ?_, ?_, ?_⟩
  · rw [hd, find_push_back, if_pos rfl]
  · intro t f c ht hf hc h0 hrange
    rw [ht, Option.getD_some] at e1
    rw [hf, Option.getD_some] at e2
    rw [hc, Option.getD_some] at e3
    have r1 := readAt_range _ _ _ _ ht
    have r2 := readAt_range _ _ _ _ hf
    have r3 := readAt_range _ _ _ _ hc
    unfold inInt64 at r1 r2 r3
    unfold swapUsedValue
    rw [e1, e2, e3, if_pos h0]
    rw [wrap64_id (t - f) (by unfold inInt64; omega),
      wrap64_id (t - f - c) (by unfold inInt64; omega)]
  · intro hno
    unfold swapUsedValue
    rw [e1, e2, e3]
    rw [if_neg]
    rintro ⟨h1, h2, h3⟩
    apply hno
    cases ht : readAt data lines st.swap_total_pos with
    | none => simp [ht] at h1
    | some t =>
      cases hf : readAt data lines st.swap_free_pos with
      | none => simp [hf] at h2
      | some f =>
        cases hc : readAt data lines st.swap_cached_pos with
        | none => simp [hc] at h3
        | some c =>
          simp only [ht, hf, hc, Option.getD_some] at h1 h2 h3
          exact ⟨t, f, c, rfl, rfl, rfl, h1, h2, h3⟩

theorem find_memUsedBlock (st : meminfo_plugin) (r : Regs) (d : Data) (k : Int) :
    find (memUsedBlock st r d) k =
      if k = st.mem_used_pos then (find d k).map (fun xs => xs ++ [memUsedValue r])
      else find d k := by
  unfold memUsedBlock
  split
  · rw [find_push_back]
  · rename_i hn
    split
    · rename_i hk; subst hk; rw [hn]; rfl
    · rfl

theorem find_swapUsedBlock (st : meminfo_plugin) (r : Regs) (d : Data) (k : Int) :
    find (swapUsedBlock st r d) k =
      if k = st.swap_used_pos then (find d k).map (fun xs => xs ++ [swapUsedValue r])
      else find d k := by
  unfold swapUsedBlock
  split
  · rw [find_push_back]
  · rename_i hn
    split
    · rename_i hk; subst hk; rw [hn]; rfl
    · rfl

/-- The effect of one completed `parse` on every series: the value of the
line at that position, then the derived values when the position is the
used-memory or the used-swap position. -/
theorem parse_find (st : meminfo_plugin) (lines : List Str) (data data' : Data)
    (hrun : parse st lines data = .ok data') :
    ∃ d r, scanLines st lines 0 data Regs.init = .ok (d, r) ∧ ∀ k,
      find data' k = (find data k).map (fun xs =>
        xs ++ lineSample lines k
          ++ (if k = st.mem_used_pos then [memUsedValue r] else [])
          ++ (if k = st.swap_used_pos then [swapUsedValue r] else [])) := by
  obtain ⟨d, r, hs, hd⟩ := parse_inv st lines data data' hrun
  refine ⟨d, r, hs, fun k => ?_⟩
  rw [hd, find_swapUsedBlock, find_memUsedBlock, scan_find st lines 0 data Regs.init d r hs k,
    sub_zero]
  cases find data k with
  | none => split <;> split <;> rfl
  | some xs => split <;> split <;> simp

/-- C6: a tracked position `p` whose line parses gets, from the line scan of
the tick, exactly the normalised number of line `p` of the source. -/
theorem parse_position (st : meminfo_plugin) (lines : List Str) (data data' : Data)
    (p : Int) (old : List Int) (line : Str) (v : Int)
    (hrun : parse st lines data = .ok data')
    (hkey : find data p = some old)
    (hline : lineAt lines p = some line)
    (hv : lineValue line = .ok v) :
    ∃ d r, scanLines st lines 0 data Regs.init = .ok (d, r) ∧
      find d p = some (old ++ [v]) ∧
      data' = swapUsedBlock st r (memUsedBlock st r d) ∧
      (p ≠ st.mem_used_pos → p ≠ st.swap_used_pos →
        find data' p = some (old ++ [v])) := by
  obtain ⟨d, r, hs, hd⟩ := parse_inv st lines data data' hrun
  have hl : lineSample lines p = [v] := by simp [lineSample, hline, hv]
  have hd1 : find d p = some (old ++ [v]) := by
    rw [scan_find st lines 0 data Regs.init d r hs p, sub_zero, hkey, hl]; rfl
  refine ⟨d, r, hs, hd1, hd, fun h1 h2 => ?_⟩
  rw [hd, find_swapUsedBlock, if_neg h2, find_memUsedBlock, if_neg h1, hd1]

/-! ## Series lengths -/

theorem find_mem (d : Data) (k : Int) (xs : List Int) (h : find d k = some xs) :
    (k, xs) ∈ d := by
  induction d with
  | nil => simp [find] at h
  | cons e es ih =>
    obtain ⟨a, b⟩ := e
    simp only [find, List.lookup_cons] at h ih
    by_cases hka : k = a
    · subst hka
      simp only [beq_self_eq_true, Option.some.injEq] at h
      subst h
      exact List.mem_cons_self _ _
    · have : (k == a) = false := by simpa using hka
      simp only [this] at h
      exact List.mem_cons_of_mem _ (ih h)

/-- One tick under `coveredOnce`: it completes, and every tracked series and
the timestamps grow by exactly one element. -/
theorem tick_step (st : meminfo_plugin) (lines : List Str) (now : Int)
    (hcov : coveredOnce st lines) :
    ∃ st1, tick st lines now = .ok st1 ∧ st1.times_ = st.times_ ++ [now] ∧
      st1.mem_used_pos = st.mem_used_pos ∧ st1.swap_used_pos = st.swap_used_pos ∧
      ∀ k, (find st.values_by_id_ k = none ∧ find st1.values_by_id_ k = none) ∨
        ∃ xs v, find st.values_by_id_ k = some xs ∧
          find st1.values_by_id_ k = some (xs ++ [v]) := by
  have hok : ∃ d r, scanLines st lines 0 st.values_by_id_ Regs.init = .ok (d, r) := by
    apply scan_ok
    intro j line hj hl
    rw [sub_zero] at hl
    cases hf : find st.values_by_id_ j with
    | none => simp [hf] at hj
    | some xs =>
      have hc := hcov _ (find_mem _ _ _ hf)
      simp only [coveredAt, hl] at hc
      have hp := hc.1
      unfold parses at hp
      cases hv : lineValue line with
      | error e => simp [hv] at hp
      | ok v => exact ⟨v, rfl⟩
  obtain ⟨d, r, hs⟩ := hok
  have hparse : parse st lines st.values_by_id_ =
      .ok (swapUsedBlock st r (memUsedBlock st r d)) := by
    unfold parse; rw [hs]
  obtain ⟨d2, r2, hs2, hfind⟩ := parse_find st lines _ _ hparse
  rw [hs] at hs2
  simp only [Except.ok.injEq, Prod.mk.injEq] at hs2
  obtain ⟨rfl, rfl⟩ := hs2
  refine ⟨{ st with values_by_id_ := swapUsedBlock st r (memUsedBlock st r d),
                    times_ := st.times_ ++ [now] }, ?_, rfl, rfl, rfl, fun k => ?_⟩
  · unfold tick; rw [hparse]
  · simp only
    rw [hfind k]
    cases hf : find st.values_by_id_ k with
    | none => exact Or.inl ⟨rfl, rfl⟩
    | some xs =>
      right
      have hc := hcov _ (find_mem _ _ _ hf)
      simp only [coveredAt] at hc
      cases hl : lineAt lines k with
      | some line =>
        simp only [hl] at hc
        obtain ⟨hp, h1, h2⟩ := hc
        unfold parses at hp
        cases hv : lineValue line with
        | error e => simp [hv] at hp
        | ok v =>
          refine ⟨xs, v, rfl, ?_⟩
          simp [lineSample, hl, hv, h1, h2]
      | none =>
        simp only [hl] at hc
        have hls : lineSample lines k = [] := by simp [lineSample, hl]
        rw [hls]
        rcases hc with ⟨h1, h2⟩ | ⟨h1, h2⟩
        · refine ⟨xs, memUsedValue r, rfl, ?_⟩
          rw [if_pos h1, if_neg h2]; simp
        · refine ⟨xs, swapUsedValue r, rfl, ?_⟩
          rw [if_neg h1, if_pos h2]; simp

theorem mem_find_isSome (d : Data) (e : Int × List Int) (h : e ∈ d) :
    (find d e.1).isSome := by
  induction d with
  | nil => cases h
  | cons a as ih =>
    obtain ⟨a1, a2⟩ := a
    simp only [find, List.lookup_cons] at ih ⊢
    by_cases hka : e.1 = a1
    · simp [hka]
    · have : (e.1 == a1) = false := by simpa using hka
      simp only [this]
      rcases List.mem_cons.1 h with h1 | h1
      · exact absurd (by rw [h1]) hka
      · exact ih h1

theorem coveredOnce_step (st st1 : meminfo_plugin) (lines : List Str)
    (hm : st1.mem_used_pos = st.mem_used_pos)
    (hw : st1.swap_used_pos = st.swap_used_pos)
    (hk : ∀ k, (find st1.values_by_id_ k).isSome = (find st.values_by_id_ k).isSome)
    (h : coveredOnce st lines) : coveredOnce st1 lines := by
  intro e he
  have h1 := mem_find_isSome _ _ he
  rw [hk] at h1
  cases hf : find st.values_by_id_ e.1 with
  | none => simp [hf] at h1
  | some xs =>
    have := h _ (find_mem _ _ _ hf)
    simpa only [coveredAt, hm, hw] using this

theorem ticks_lengths (run : List (List Str × Int)) :
    ∀ (st : meminfo_plugin) (m : Nat), st.times_.length = m →
      (∀ k xs, find st.values_by_id_ k = some xs → xs.length = m) →
      (∀ src ∈ run, coveredOnce st src.1) →
      ∃ st', ticks st run = .ok st' ∧ st'.times_.length = m + run.length ∧
        (∀ k, (find st'.values_by_id_ k).isSome = (find st.values_by_id_ k).isSome) ∧
        ∀ k xs, find st'.values_by_id_ k = some xs → xs.length = m + run.length := by
  induction run with
  | nil =>
    intro st m ht hv _
    exact ⟨st, rfl, by simpa using ht, fun _ => rfl, by simpa using hv⟩
  | cons src rest ih =>
    intro st m ht hv hcov
    obtain ⟨lines, now⟩ := src
    obtain ⟨st1, hs1, ht1, hm1, hw1, hf1⟩ :=
      tick_step st lines now (hcov (lines, now) (List.mem_cons_self _ _))
    have hkeys : ∀ k, (find st1.values_by_id_ k).isSome = (find st.values_by_id_ k).isSome := by
      intro k
      rcases hf1 k with ⟨a, b⟩ | ⟨xs, v, a, b⟩ <;> simp [a, b]
    obtain ⟨st', hs', ht', hk', hv'⟩ := ih st1 (m + 1) (by rw [ht1]; simp [ht])
      (by
        intro k ys hys
        rcases hf1 k with ⟨a, b⟩ | ⟨xs, v, a, b⟩
        · rw [b] at hys; cases hys
        · rw [b] at hys
          simp only [Option.some.injEq] at hys
          subst hys
          simp [hv k xs a])
      (fun s hsrc => coveredOnce_step st st1 s.1 hm1 hw1 hkeys
        (hcov s (List.mem_cons_of_mem _ hsrc)))
    refine ⟨st', ?_, ?_, ?_, ?_⟩
    · simp only [ticks, hs1]; exact hs'
    · rw [ht']; simp; omega
    · intro k; rw [hk', hkeys]
    · intro k xs hx; rw [hv' k xs hx]; simp; omega

/-- C5 (as amended): from empty series, a run of ticks whose sources each
give every tracked position exactly one value completes, and afterwards
every tracked series has as many elements as there were ticks, which is also
the number of timestamps. -/
theorem ticks_series_length (st : meminfo_plugin) (run : List (List Str × Int))
    (ht : st.times_ = [])
    (hv : ∀ e ∈ st.values_by_id_, e.2 = [])
    (hcov : ∀ src ∈ run, coveredOnce st src.1) :
    ∃ st', ticks st run = .ok st' ∧ st'.times_.length = run.length ∧
      ∀ k, (find st.values_by_id_ k).isSome →
        ∃ xs, find st'.values_by_id_ k = some xs ∧ xs.length = run.length ∧
          xs.length = st'.times_.length := by
  obtain ⟨st', hs, htl, hk, hl⟩ := ticks_lengths run st 0 (by rw [ht]; rfl)
    (by
      intro k xs hx
      have := hv _ (find_mem _ _ _ hx)
      simp only at this
      rw [this]; rfl)
    hcov
  refine ⟨st', hs, by simpa using htl, fun k hkk => ?_⟩
  rw [← hk] at hkk
  cases hf : find st'.values_by_id_ k with
  | none => simp [hf] at hkk
  | some xs =>
    have := hl k xs hf
    exact ⟨xs, rfl, by simpa using this, by rw [this, htl]⟩

theorem ticks_series_length_witness :
    ∃ st', ticks ⟨[(0, []), (1, []), (2, []), (3, [])], [], 0, -1, -1, -1, -1, -1, -1, 2, 3⟩
        [(["MemTotal: 16 kB".toList, "MemFree: 4 kB".toList], 10),
         (["MemTotal: 16 kB".toList, "MemFree: 5 kB".toList], 20)] = .ok st' ∧
      st'.times_.length = 2 ∧
      ∀ k, (find [(0, []), (1, []), (2, []), (3, [])] k).isSome →
        ∃ xs, find st'.values_by_id_ k = some xs ∧ xs.length = 2 ∧
          xs.length = st'.times_.length :=
  ticks_series_length ⟨[(0, []), (1, []), (2, []), (3, [])], [], 0, -1, -1, -1, -1, -1, -1, 2, 3⟩
    [(["MemTotal: 16 kB".toList, "MemFree: 4 kB".toList], 10),
     (["MemTotal: 16 kB".toList, "MemFree: 5 kB".toList], 20)]
    rfl (by decide) (by decide)

/-- C5 (as stated) fails: two positions are tracked, the source of the tick
has one line; after the completed tick there is one timestamp and the series
of position 1 is still empty. -/
theorem ticks_series_length_counterexample :
    ticks ⟨[(0, []), (1, [])], [], 0, 1, -1, -1, -1, -1, -1, -1, -1⟩
        [(["MemTotal: 16 kB".toList], 10)] =
      .ok ⟨[(0, [16384]), (1, [])], [10], 0, 1, -1, -1, -1, -1, -1, -1, -1⟩ ∧
    (find [(0, [16384]), (1, [])] 1).map List.length = some 0 ∧
    List.length [(10 : Int)] = 1 := by
  decide

/-! ## The matcher -/

theorem mem_eps (b : Nat) (s : Str) (c : Caps) (x : MState) :
    x ∈ Re.eps.ms b s c ↔ x = (s, c) := by
  simp [Re.ms]

theorem mem_chr (k : Cls) (b : Nat) (s : Str) (c : Caps) (x : MState) :
    x ∈ (Re.chr k).ms b s c ↔ ∃ ch, s = ch :: x.1 ∧ k.test ch = true ∧ x.2 = c := by
  cases s with
  | nil => simp [Re.ms]
  | cons a as =>
    simp only [Re.ms]
    by_cases h : k.test a = true
    · simp only [h, if_true, List.mem_singleton]
      constructor
      · rintro rfl; exact ⟨a, rfl, h, rfl⟩
      · rintro ⟨ch, h1, _, h3⟩
        simp only [List.cons.injEq] at h1
        exact Prod.ext h1.2.symm h3
    · simp only [h]
      constructor
      · intro hx; cases hx
      · rintro ⟨ch, h1, h2, _⟩
        simp only [List.cons.injEq] at h1
        rw [← h1.1] at h2
        exact absurd h2 h

theorem mem_seq (a b' : Re) (b : Nat) (s : Str) (c : Caps) (x : MState) :
    x ∈ (Re.seq a b').ms b s c ↔
      ∃ y ∈ a.ms b s c, x ∈ b'.ms (b + a.ngroups) y.1 y.2 := by
  simp [Re.ms, List.mem_flatMap]

theorem mem_alt (a b' : Re) (b : Nat) (s : Str) (c : Caps) (x : MState) :
    x ∈ (Re.alt a b').ms b s c ↔ x ∈ a.ms b s c ∨ x ∈ b'.ms (b + a.ngroups) s c := by
  simp [Re.ms]

theorem mem_opt (a : Re) (b : Nat) (s : Str) (c : Caps) (x : MState) :
    x ∈ (Re.opt a).ms b s c ↔ x ∈ a.ms b s c ∨ x = (s, c) := by
  simp [Re.ms]

theorem mem_group (a : Re) (b : Nat) (s : Str) (c : Caps) (x : MState) :
    x ∈ (Re.group a).ms b s c ↔
      ∃ y ∈ a.ms (b + 1) s c, x = (y.1, (b, s.take (s.length - y.1.length)) :: y.2) := by
  simp only [Re.ms, List.mem_map]
  constructor
  · rintro ⟨y, hy, rfl⟩; exact ⟨y, hy, rfl⟩
  · rintro ⟨y, hy, rfl⟩; exact ⟨y, hy, rfl⟩

theorem mem_starLoop_succ (f : Str → Caps → List MState) (n : Nat) (s : Str) (c : Caps)
    (x : MState) :
    x ∈ starLoop f (n + 1) s c ↔
      (∃ y ∈ f s c, y.1.length < s.length ∧ x ∈ starLoop f n y.1 y.2) ∨ x = (s, c) := by
  simp only [starLoop, List.mem_append, List.mem_flatMap, List.mem_filter, List.mem_singleton,
    decide_eq_true_eq]
  constructor
  · rintro (⟨y, ⟨h1, h2⟩, h3⟩ | h)
    · exact Or.inl ⟨y, h1, h2, h3⟩
    · exact Or.inr h
  · rintro (⟨y, h1, h2, h3⟩ | h)
    · exact Or.inl ⟨y, ⟨h1, h2⟩, h3⟩
    · exact Or.inr h

theorem Step.refl (lo hi : Nat) (s : Str) (c : Caps) : Step lo hi s c (s, c) :=
  ⟨⟨[], rfl⟩, [], rfl, fun _ h => by cases h⟩

theorem Step.trans {lo hi : Nat} {s : Str} {c : Caps} {y x : MState}
    (h1 : Step lo hi s c y) (h2 : Step lo hi y.1 y.2 x) : Step lo hi s c x := by
  obtain ⟨⟨p, hp⟩, l, hl, hb⟩ := h1
  obtain ⟨⟨q, hq⟩, m, hm, hc⟩ := h2
  refine ⟨⟨p ++ q, by rw [hp, hq, List.append_assoc]⟩, m ++ l, by rw [hm, hl, List.append_assoc], ?_⟩
  intro e he
  rcases List.mem_append.1 he with h | h
  · exact hc e h
  · exact hb e h

theorem Step.mono {lo hi lo' hi' : Nat} {s : Str} {c : Caps} {x : MState}
    (h : Step lo hi s c x) (h1 : lo' ≤ lo) (h2 : hi ≤ hi') : Step lo' hi' s c x := by
  obtain ⟨hp, l, hl, hb⟩ := h
  exact ⟨hp, l, hl, fun e he => ⟨le_trans h1 (hb e he).1, lt_of_lt_of_le (hb e he).2 h2⟩⟩

theorem starLoop_step (f : Str → Caps → List MState) (lo hi : Nat)
    (hf : ∀ s c x, x ∈ f s c → Step lo hi s c x) :
    ∀ n s c x, x ∈ starLoop f n s c → Step lo hi s c x := by
  intro n
  induction n with
  | zero =>
    intro s c x hx
    simp only [starLoop, List.mem_singleton] at hx
    subst hx; exact Step.refl _ _ _ _
  | succ n ih =>
    intro s c x hx
    rcases (mem_starLoop_succ f n s c x).1 hx with ⟨y, hy, _, hxy⟩ | h
    · exact (hf s c y hy).trans (ih _ _ _ hxy)
    · subst h; exact Step.refl _ _ _ _

theorem ms_step (r : Re) :
    ∀ (b : Nat) (s : Str) (c : Caps) (x : MState),
      x ∈ r.ms b s c → Step b (b + r.ngroups) s c x := by
  induction r with
  | eps =>
    intro b s c x hx
    rw [mem_eps] at hx; subst hx; exact Step.refl _ _ _ _
  | chr k =>
    intro b s c x hx
    obtain ⟨ch, h1, _, h3⟩ := (mem_chr k b s c x).1 hx
    exact ⟨⟨[ch], by rw [h1]; rfl⟩, [], by simpa using h3, fun _ h => by cases h⟩
  | seq a b' iha ihb =>
    intro b s c x hx
    obtain ⟨y, hy, hxy⟩ := (mem_seq a b' b s c x).1 hx
    have h1 := (iha b s c y hy).mono (le_refl b) (by simp [Re.ngroups] : b + a.ngroups ≤ b + (Re.seq a b').ngroups)
    have h2 := (ihb _ _ _ x hxy).mono (by omega : b ≤ b + a.ngroups)
      (by simp [Re.ngroups]; omega : b + a.ngroups + b'.ngroups ≤ b + (Re.seq a b').ngroups)
    exact h1.trans h2
  | alt a b' iha ihb =>
    intro b s c x hx
    rcases (mem_alt a b' b s c x).1 hx with h | h
    · exact (iha b s c x h).mono (le_refl b) (by simp [Re.ngroups])
    · exact (ihb _ s c x h).mono (by omega) (by simp [Re.ngroups]; omega)
  | opt a iha =>
    intro b s c x hx
    rcases (mem_opt a b s c x).1 hx with h | h
    · exact iha b s c x h
    · subst h; exact Step.refl _ _ _ _
  | star a iha =>
    intro b s c x hx
    exact starLoop_step (a.ms b) b (b + a.ngroups) (iha b) _ s c x hx
  | plus a iha =>
    intro b s c x hx
    simp only [Re.ms, List.mem_flatMap] at hx
    obtain ⟨y, hy, hxy⟩ := hx
    exact (iha b s c y hy).trans (starLoop_step (a.ms b) b (b + a.ngroups) (iha b) _ _ _ x hxy)
  | group a iha =>
    intro b s c x hx
    obtain ⟨y, hy, rfl⟩ := (mem_group a b s c x).1 hx
    obtain ⟨hp, l, hl, hb⟩ := iha (b + 1) s c y hy
    refine ⟨hp, (b, s.take (s.length - y.1.length)) :: l, by simp [hl], ?_⟩
    intro e he
    rcases List.mem_cons.1 he with h | h
    · subst h; simp [Re.ngroups]
    · have := hb e h
      simp only [Re.ngroups]
      omega

theorem lookup_append_of_lt (l c : Caps) (i lo : Nat) (h : ∀ e ∈ l, lo ≤ e.1) (hi : i < lo) :
    (l ++ c).lookup i = c.lookup i := by
  induction l with
  | nil => rfl
  | cons e es ih =>
    obtain ⟨a, b⟩ := e
    have ha : lo ≤ a := h (a, b) (List.mem_cons_self _ _)
    have : (i == a) = false := by
      simp only [beq_eq_false_iff_ne, ne_eq]; omega
    simp only [List.cons_append, List.lookup_cons, this]
    exact ih (fun e he => h e (List.mem_cons_of_mem _ he))

theorem Step.lookup {lo hi : Nat} {s : Str} {c : Caps} {x : MState}
    (h : Step lo hi s c x) (i : Nat) (hi' : i < lo) : x.2.lookup i = c.lookup i := by
  obtain ⟨_, l, hl, hb⟩ := h
  rw [hl]
  exact lookup_append_of_lt l c i lo (fun e he => (hb e he).1) hi'

theorem Step.caps_eq {lo : Nat} {s : Str} {c : Caps} {x : MState}
    (h : Step lo lo s c x) : x.2 = c := by
  obtain ⟨_, l, hl, hb⟩ := h
  cases l with
  | nil => simpa using hl
  | cons e es =>
    have := hb e (List.mem_cons_self _ _)
    omega

/-- A pattern `(a)T` matched from group number 1: group 1 holds the prefix
that `a` consumed, and `T` ran on the rest. -/
theorem group_seq_inv (a T : Re) (s : Str) (x : MState)
    (hx : x ∈ (Re.seq (.group a) T).ms 1 s []) :
    ∃ p q l, s = p ++ q ∧ (∀ e ∈ l, 2 ≤ e.1 ∧ e.1 < 2 + a.ngroups) ∧
      x ∈ T.ms (2 + a.ngroups) q ((1, p) :: l) ∧ x.2.lookup 1 = some p := by
  obtain ⟨y, hy, hxy⟩ := (mem_seq _ _ _ _ _ _).1 hx
  obtain ⟨z, hz, rfl⟩ := (mem_group _ _ _ _ _).1 hy
  obtain ⟨⟨p, hp⟩, l, hl, hb⟩ := ms_step a _ _ _ _ hz
  have htake : s.take (s.length - z.1.length) = p := by
    rw [hp]; simp
  simp only [htake, Re.ngroups] at hxy
  rw [List.append_nil] at hl
  rw [hl] at hxy
  have e2 : 1 + (a.ngroups + 1) = 2 + a.ngroups := by omega
  rw [e2] at hxy
  refine ⟨p, z.1, l, hp, fun e he => ?_, hxy, ?_⟩
  · have := hb e he; omega
  · have := (ms_step T _ _ _ _ hxy).lookup 1 (by omega)
    rw [this]; simp [List.lookup_cons]

theorem regex_match_some (s : Str) (r : Re) (c : Caps) (h : regex_match s r = some c) :
    ∃ x ∈ r.ms 1 s [], x.1 = [] ∧ x.2 = c := by
  unfold regex_match at h
  cases hf : (r.ms 1 s []).find? (fun x => x.1.isEmpty) with
  | none => simp [hf] at h
  | some x =>
    simp only [hf, Option.map_some', Option.some.injEq] at h
    have h1 := List.find?_some hf
    have h2 := List.mem_of_find?_eq_some hf
    exact ⟨x, h2, by simpa using h1, h⟩

theorem regex_match_isSome (s : Str) (r : Re) (x : MState) (hx : x ∈ r.ms 1 s [])
    (he : x.1 = []) : (regex_match s r).isSome := by
  unfold regex_match
  rw [Option.isSome_map', List.find?_isSome]
  exact ⟨x, hx, by simp [he]⟩

theorem mem_starLoop_chr (k : Cls) (b : Nat) :
    ∀ (n : Nat) (s : Str) (c : Caps) (x : MState),
      x ∈ starLoop ((Re.chr k).ms b) n s c →
      x.2 = c ∧ ∃ p, s = p ++ x.1 ∧ ∀ ch ∈ p, k.test ch = true := by
  intro n
  induction n with
  | zero =>
    intro s c x hx
    simp only [starLoop, List.mem_singleton] at hx
    subst hx; exact ⟨rfl, [], rfl, fun _ h => by cases h⟩
  | succ n ih =>
    intro s c x hx
    rcases (mem_starLoop_succ _ n s c x).1 hx with ⟨y, hy, _, hxy⟩ | h
    · obtain ⟨ch, h1, h2, h3⟩ := (mem_chr k b s c y).1 hy
      obtain ⟨h4, p, h5, h6⟩ := ih _ _ _ hxy
      refine ⟨by rw [h4, h3], ch :: p, by rw [h1, h5]; rfl, ?_⟩
      intro d hd
      rcases List.mem_cons.1 hd with h | h
      · rw [h]; exact h2
      · exact h6 d h
    · subst h; exact ⟨rfl, [], rfl, fun _ h => by cases h⟩

theorem starLoop_chr_mem (k : Cls) (b : Nat) (c : Caps) (q : Str) :
    ∀ (p : Str) (n : Nat), p.length ≤ n → (∀ ch ∈ p, k.test ch = true) →
      (q, c) ∈ starLoop ((Re.chr k).ms b) n (p ++ q) c := by
  intro p
  induction p with
  | nil =>
    intro n _ _
    cases n with
    | zero => simp [starLoop]
    | succ n => exact (mem_starLoop_succ _ _ _ _ _).2 (Or.inr rfl)
  | cons a as ih =>
    intro n hn hp
    cases n with
    | zero => simp at hn
    | succ n =>
      refine (mem_starLoop_succ _ _ _ _ _).2 (Or.inl ⟨(as ++ q, c), ?_, ?_, ?_⟩)
      · exact (mem_chr _ _ _ _ _).2 ⟨a, rfl, hp a (List.mem_cons_self _ _), rfl⟩
      · simp
      · exact ih n (by simpa using hn) (fun ch h => hp ch (List.mem_cons_of_mem _ h))

theorem mem_star_chr (k : Cls) (b : Nat) (s : Str) (c : Caps) (x : MState) :
    x ∈ (Re.star (.chr k)).ms b s c ↔
      x.2 = c ∧ ∃ p, s = p ++ x.1 ∧ ∀ ch ∈ p, k.test ch = true := by
  constructor
  · intro hx
    exact mem_starLoop_chr k b _ s c x hx
  · rintro ⟨h1, p, h2, h3⟩
    obtain ⟨x1, x2⟩ := x
    simp only at h1 h2
    subst h1
    simp only [Re.ms]
    rw [h2]
    exact starLoop_chr_mem k b x2 x1 p _ (by simp) h3

theorem mem_plus (a : Re) (b : Nat) (s : Str) (c : Caps) (x : MState) :
    x ∈ (Re.plus a).ms b s c ↔
      ∃ y ∈ a.ms b s c, x ∈ starLoop (a.ms b) y.1.length y.1 y.2 := by
  simp only [Re.ms, List.mem_flatMap]

theorem mem_plus_chr (k : Cls) (b : Nat) (s : Str) (c : Caps) (x : MState) :
    x ∈ (Re.plus (.chr k)).ms b s c ↔
      x.2 = c ∧ ∃ p, p ≠ [] ∧ s = p ++ x.1 ∧ ∀ ch ∈ p, k.test ch = true := by
  rw [mem_plus]
  constructor
  · rintro ⟨y, hy, hxy⟩
    obtain ⟨ch, h1, h2, h3⟩ := (mem_chr k b s c y).1 hy
    obtain ⟨h4, p, h5, h6⟩ := mem_starLoop_chr k b _ _ _ x hxy
    refine ⟨by rw [h4, h3], ch :: p, by simp, by rw [h1, h5]; rfl, ?_⟩
    intro d hd
    rcases List.mem_cons.1 hd with h | h
    · rw [h]; exact h2
    · exact h6 d h
  · rintro ⟨h1, p, h2, h3, h4⟩
    obtain ⟨x1, x2⟩ := x
    simp only at h1 h3
    subst h1
    cases p with
    | nil => exact absurd rfl h2
    | cons a as =>
      refine ⟨(as ++ x1, x2), ?_, ?_⟩
      · rw [h3]
        exact (mem_chr k b _ _ _).2 ⟨a, rfl, h4 a (List.mem_cons_self _ _), rfl⟩
      · exact starLoop_chr_mem k b x2 x1 as _ (by simp)
          (fun ch h => h4 ch (List.mem_cons_of_mem _ h))

/-! ## Discovery -/

theorem initLoop_eq (regex : Re) (lines : List Str) :
    ∀ (start : Int) (acc : List meminfo_t),
      initLoop regex lines start acc =
        (acc ++ lineIds regex lines start, start + lines.length) := by
  induction lines with
  | nil => intro start acc; simp [initLoop, lineIds]
  | cons l rest ih =>
    intro start acc
    simp only [initLoop, lineIds]
    cases matchLine regex l with
    | none =>
      simp only [ih, List.nil_append, List.length_cons, Nat.cast_add, Nat.cast_one]
      congr 1; omega
    | some c =>
      simp only [ih, List.length_cons, Nat.cast_add, Nat.cast_one, List.append_assoc]
      congr 1; omega

theorem mem_lineIds (regex : Re) (lines : List Str) :
    ∀ (start : Int) (id : meminfo_t),
      id ∈ lineIds regex lines start ↔
        ∃ (i : Nat) (line : Str) (c : Caps), lines[i]? = some line ∧
          matchLine regex line = some c ∧
          id = ⟨start + i, sub (some c) 1, sub (some c) 3⟩ := by
  induction lines with
  | nil => intro start id; simp [lineIds]
  | cons l rest ih =>
    intro start id
    simp only [lineIds, List.mem_append, ih]
    constructor
    · rintro (h | ⟨i, line, c, h1, h2, h3⟩)
      · cases hm : matchLine regex l with
        | none => simp [hm] at h
        | some c =>
          simp only [hm, List.mem_singleton] at h
          exact ⟨0, l, c, by simp, hm, by simpa using h⟩
      · refine ⟨i + 1, line, c, by simpa using h1, h2, ?_⟩
        rw [h3]; congr 1; push_cast; omega
    · rintro ⟨i, line, c, h1, h2, h3⟩
      cases i with
      | zero =>
        simp only [List.getElem?_cons_zero, Option.some.injEq] at h1
        subst h1
        left
        simp [h2, h3]
      | succ i =>
        right
        refine ⟨i, line, c, by simpa using h1, h2, ?_⟩
        rw [h3]; congr 1; push_cast; omega

theorem lineIds_bounds (regex : Re) (lines : List Str) (start : Int) (id : meminfo_t)
    (h : id ∈ lineIds regex lines start) :
    start ≤ id.line_nr ∧ id.line_nr < start + lines.length := by
  obtain ⟨i, line, c, h1, _, h3⟩ := (mem_lineIds regex lines start id).1 h
  have hi : i < lines.length := by
    by_contra hcon
    rw [List.getElem?_eq_none (by omega)] at h1
    cases h1
  rw [h3]
  simp only
  omega

theorem lineIds_sorted (regex : Re) (lines : List Str) :
    ∀ start : Int, ((lineIds regex lines start).map meminfo_t.line_nr).Pairwise (· < ·) := by
  induction lines with
  | nil => intro start; simp [lineIds]
  | cons l rest ih =>
    intro start
    simp only [lineIds, List.map_append]
    rw [List.pairwise_append]
    refine ⟨?_, ih _, ?_⟩
    · cases matchLine regex l <;> simp
    · intro a ha b hb
      obtain ⟨id, hid, rfl⟩ := List.mem_map.1 hb
      have hb2 := (lineIds_bounds regex rest (start + 1) id hid).1
      cases hm : matchLine regex l with
      | none => simp [hm] at ha
      | some c =>
        simp only [hm, List.map_cons, List.map_nil, List.mem_singleton] at ha
        rw [ha]; omega

theorem pairwise_append_above (xs ys : List Int) (n : Int)
    (h1 : xs.Pairwise (· < ·)) (h2 : ∀ a ∈ xs, a < n)
    (h3 : ys.Pairwise (· < ·)) (h4 : ∀ b ∈ ys, n ≤ b) :
    (xs ++ ys).Pairwise (· < ·) := by
  rw [List.pairwise_append]
  exact ⟨h1, h3, fun a ha b hb => lt_of_lt_of_le (h2 a ha) (h4 b hb)⟩

/-- Membership in the result of `init`: the identities of the matched lines,
then `MemUsed` and `SwapUsed` when the filter matches their names. -/
theorem mem_init (search : List Re) (lines : List Str) (id : meminfo_t) :
    id ∈ init search lines ↔
      (∃ (i : Nat) (line : Str) (c : Caps), lines[i]? = some line ∧
        matchLine (regex_str search) line = some c ∧
        id = ⟨(i : Int), sub (some c) 1, sub (some c) 3⟩) ∨
      ((regex_match "MemUsed".toList (regex_custom search)).isSome ∧
        id = ⟨(lines.length : Int), "MemUsed".toList, "B".toList⟩) ∨
      ((regex_match "SwapUsed".toList (regex_custom search)).isSome ∧
        id = ⟨(lines.length : Int) + 1, "SwapUsed".toList, "B".toList⟩) := by
  have hline : id ∈ lineIds (regex_str search) lines 0 ↔
      ∃ (i : Nat) (line : Str) (c : Caps), lines[i]? = some line ∧
        matchLine (regex_str search) line = some c ∧
        id = ⟨(i : Int), sub (some c) 1, sub (some c) 3⟩ := by
    rw [mem_lineIds]
    simp only [zero_add]
  rw [← hline]
  simp only [init, initLoop_eq, List.nil_append, zero_add]
  split <;> split <;> simp_all

/-- C7: positions assigned by discovery. An identity for a real line
carries the 0-based index of that line; `MemUsed`, when the filter matches
its name, is at position `n` with unit `B`; `SwapUsed`, when matched, is at
position `n + 1` with unit `B`, whether or not `MemUsed` matched; and the
returned positions are strictly increasing. -/
theorem init_positions (search : List Re) (lines : List Str) :
    (∀ id ∈ init search lines,
      (∃ (i : Nat) (line : Str) (c : Caps), lines[i]? = some line ∧
        matchLine (regex_str search) line = some c ∧
        id = ⟨(i : Int), sub (some c) 1, sub (some c) 3⟩) ∨
      ((regex_match "MemUsed".toList (regex_custom search)).isSome ∧
        id = ⟨(lines.length : Int), "MemUsed".toList, "B".toList⟩) ∨
      ((regex_match "SwapUsed".toList (regex_custom search)).isSome ∧
        id = ⟨(lines.length : Int) + 1, "SwapUsed".toList, "B".toList⟩)) ∧
    (∀ (i : Nat) (line : Str) (c : Caps), lines[i]? = some line →
      matchLine (regex_str search) line = some c →
      (⟨(i : Int), sub (some c) 1, sub (some c) 3⟩ : meminfo_t) ∈ init search lines) ∧
    ((regex_match "MemUsed".toList (regex_custom search)).isSome →
      (⟨(lines.length : Int), "MemUsed".toList, "B".toList⟩ : meminfo_t) ∈
        init search lines) ∧
    ((regex_match "SwapUsed".toList (regex_custom search)).isSome →
      (⟨(lines.length : Int) + 1, "SwapUsed".toList, "B".toList⟩ : meminfo_t) ∈
        init search lines) ∧
    ((init search lines).map meminfo_t.line_nr).Pairwise (· < ·) := by
  refine ⟨?_, ?_, ?_, ?_, ?_⟩
  · intro id hid
    exact (mem_init search lines id).1 hid
  · intro i line c h1 h2
    exact (mem_init search lines _).2 (Or.inl ⟨i, line, c, h1, h2, rfl⟩)
  · intro h
    exact (mem_init search lines _).2 (Or.inr (Or.inl ⟨h, rfl⟩))
  · intro h
    exact (mem_init search lines _).2 (Or.inr (Or.inr ⟨h, rfl⟩))
  · have hs := lineIds_sorted (regex_str search) lines 0
    have hb : ∀ a ∈ (lineIds (regex_str search) lines 0).map meminfo_t.line_nr,
        a < (lines.length : Int) := by
      intro a ha
      obtain ⟨id, hid, rfl⟩ := List.mem_map.1 ha
      have := (lineIds_bounds (regex_str search) lines 0 id hid).2
      omega
    simp only [init, initLoop_eq, List.nil_append, zero_add]
    split <;> split <;>
      (try simp only [List.map_append, List.map_cons, List.map_nil, List.append_assoc,
        List.singleton_append]) <;>
      first
        | exact hs
        | (apply pairwise_append_above _ _ (lines.length : Int) hs hb
           · simp
           · intro b hb'; simp at hb'; omega)

theorem colon_test (ch : Char) (h : (Cls.pos [(':', ':')]).test ch = true) : ch = ':' := by
  simp only [Cls.test, inRanges, List.any_cons, List.any_nil, Bool.or_false,
    Bool.and_eq_true, decide_eq_true_eq] at h
  exact le_antisymm h.2 h.1

theorem colon_split (p q name rest : Str) (h : p ++ ':' :: q = name ++ ':' :: rest)
    (hn : ':' ∉ name) (hr : ':' ∉ rest) : p = name ∧ q = rest := by
  rcases List.append_eq_append_iff.1 h with ⟨a', h1, h2⟩ | ⟨c', h1, h2⟩
  · cases a' with
    | nil =>
      simp only [List.append_nil] at h1
      simp only [List.nil_append, List.cons.injEq, true_and] at h2
      exact ⟨h1.symm, h2⟩
    | cons x xs =>
      simp only [List.cons_append, List.cons.injEq] at h2
      exfalso; apply hn
      rw [h1, ← h2.1]; simp
  · cases c' with
    | nil =>
      simp only [List.append_nil] at h1
      simp only [List.nil_append, List.cons.injEq, true_and] at h2
      exact ⟨h1, h2.symm⟩
    | cons x xs =>
      simp only [List.cons_append, List.cons.injEq] at h2
      exfalso; apply hr
      rw [h2.2]; simp

/-- The name captured by a pattern `(a):T'` on a line with a single colon
is the text before the colon. -/
theorem name_of_match (a T' : Re) (line name rest : Str) (c : Caps)
    (hm : regex_match line (.seq (.group a) (.seq (.chr (.pos [(':', ':')])) T')) = some c)
    (hl : line = name ++ ':' :: rest) (hn : ':' ∉ name) (hr : ':' ∉ rest) :
    sub (some c) 1 = name ∧
      ∃ l x, (∀ e ∈ l, 2 ≤ e.1 ∧ e.1 < 2 + a.ngroups) ∧
        x ∈ T'.ms (2 + a.ngroups) rest ((1, name) :: l) ∧ x.1 = [] ∧ x.2 = c := by
  obtain ⟨x, hx, hx1, hx2⟩ := regex_match_some _ _ _ hm
  obtain ⟨p, q, l, hpq, hl2, hT, hlook⟩ := group_seq_inv a _ line x hx
  obtain ⟨y, hy, hxy⟩ := (mem_seq _ _ _ _ _ _).1 hT
  obtain ⟨ch, h1, h2, h3⟩ := (mem_chr _ _ _ _ _).1 hy
  have hch := colon_test ch h2
  subst hch
  rw [h1, hl] at hpq
  obtain ⟨e1, e2⟩ := colon_split p y.1 name rest hpq.symm hn hr
  subst e1
  refine ⟨?_, l, x, hl2, ?_, hx1, hx2⟩
  · simp only [sub, ← hx2, hlook, Option.getD_some]
  · rw [e2, h3] at hxy
    simpa [Re.ngroups] using hxy

theorem isspace_cases (ch : Char) (h : isspace ch = true) :
    ch = ' ' ∨ ch = '\t' ∨ ch = '\n' ∨ ch = '\x0b' ∨ ch = '\x0c' ∨ ch = '\r' := by
  simpa [isspace, or_assoc] using h

theorem isspace_notAlnum (ch : Char) (h : isspace ch = true) : notAlnum.test ch = true := by
  rcases isspace_cases ch h with h | h | h | h | h | h <;> subst h <;> decide

theorem isspace_not_digit (ch : Char) (h : isspace ch = true) : digit.test ch = false := by
  rcases isspace_cases ch h with h | h | h | h | h | h <;> subst h <;> decide

theorem isspace_ne_colon (ch : Char) (h : isspace ch = true) : ch ≠ ':' := by
  rcases isspace_cases ch h with h | h | h | h | h | h <;> subst h <;> decide

theorem isdigit_digit (ch : Char) : digit.test ch = isdigit ch := by
  simp [digit, Cls.test, inRanges, isdigit]

theorem isdigit_not_notAlnum (ch : Char) (h : isdigit ch = true) :
    notAlnum.test ch = false := by
  simp only [isdigit, Bool.and_eq_true, decide_eq_true_eq] at h
  simp [notAlnum, Cls.test, inRanges, h.1, h.2]

theorem isdigit_ne_colon (ch : Char) (h : isdigit ch = true) : ch ≠ ':' := by
  simp only [isdigit, Bool.and_eq_true, decide_eq_true_eq] at h
  intro e
  subst e
  exact absurd h.2 (by decide)

theorem str_mem (w : Str) : ∀ (b : Nat) (q : Str) (c : Caps),
    (q, c) ∈ (Re.str w).ms b (w ++ q) c := by
  induction w with
  | nil => intro b q c; simp [Re.str, Re.ms]
  | cons a as ih =>
    intro b q c
    simp only [Re.str]
    refine (mem_seq _ _ _ _ _ _).2 ⟨(as ++ q, c), ?_, ih _ _ _⟩
    refine (mem_chr _ b _ _ _).2 ⟨a, rfl, ?_, rfl⟩
    simp [Cls.test, inRanges]

theorem alts_str_mem (ws : List Str) : ∀ (w0 w : Str) (b : Nat) (q : Str) (c : Caps),
    w ∈ w0 :: ws → (q, c) ∈ (Re.alts (Re.str w0) (ws.map Re.str)).ms b (w ++ q) c := by
  induction ws with
  | nil =>
    intro w0 w b q c hw
    simp only [List.mem_singleton] at hw
    subst hw
    exact str_mem _ _ _ _
  | cons v vs ih =>
    intro w0 w b q c hw
    simp only [List.map_cons, Re.alts]
    rcases List.mem_cons.1 hw with h | h
    · subst h
      exact (mem_alt _ _ _ _ _ _).2 (Or.inl (str_mem _ _ _ _))
    · exact (mem_alt _ _ _ _ _ _).2 (Or.inr (ih v w _ q c h))

theorem seq_accepts (a b' : Re) (b : Nat) (s : Str) (c : Caps) (y : MState)
    (hy : y ∈ a.ms b s c) (h : ∃ x ∈ b'.ms (b + a.ngroups) y.1 y.2, x.1 = []) :
    ∃ x ∈ (Re.seq a b').ms b s c, x.1 = [] := by
  obtain ⟨x, hx, he⟩ := h
  exact ⟨x, (mem_seq _ _ _ _ _ _).2 ⟨y, hy, hx⟩, he⟩

/-- The tail of the fallback pattern accepts `:`, white space, digits and an
optional ` kB`. -/
theorem fallbackTail_accepts (b : Nat) (c : Caps) (ws digits tail : Str)
    (hws : ∀ ch ∈ ws, isspace ch = true)
    (hd : digits ≠ [] ∧ ∀ ch ∈ digits, isdigit ch = true)
    (htail : tail = [] ∨ tail = " kB".toList) :
    ∃ x ∈ fallbackTail.ms b (':' :: (ws ++ (digits ++ tail))) c, x.1 = [] := by
  have h1 : (ws ++ (digits ++ tail), c) ∈
      (Re.chr (.pos [(':', ':')])).ms b (':' :: (ws ++ (digits ++ tail))) c :=
    (mem_chr _ b _ _ _).2 ⟨':', rfl, by decide, rfl⟩
  have h2 : ∀ b', (digits ++ tail, c) ∈
      (Re.star (.chr notAlnum)).ms b' (ws ++ (digits ++ tail)) c := fun b' =>
    (mem_star_chr _ _ _ _ _).2 ⟨rfl, ws, rfl, fun ch h => isspace_notAlnum ch (hws ch h)⟩
  have h3 : ∀ b', (tail, (b', digits) :: c) ∈
      (Re.group (.plus (.chr digit))).ms b' (digits ++ tail) c := fun b' => by
    refine (mem_group _ _ _ _ _).2 ⟨(tail, c), ?_, ?_⟩
    · exact (mem_plus_chr _ _ _ _ _).2
        ⟨rfl, digits, hd.1, rfl, fun ch h => by rw [isdigit_digit]; exact hd.2 ch h⟩
    · simp
  have hend : ∀ b' c', (([] : Str), c') ∈ (Re.star (.chr notAlnum)).ms b' [] c' := fun b' c' =>
    (mem_star_chr _ _ _ _ _).2 ⟨rfl, [], rfl, fun _ h => by cases h⟩
  have hfin : ∀ b' c', ∃ x ∈ (Re.star (.chr notAlnum)).ms b' [] c', x.1 = [] :=
    fun b' c' => ⟨([], c'), hend b' c', rfl⟩
  unfold fallbackTail
  refine seq_accepts _ _ _ _ _ _ h1 ?_
  refine seq_accepts _ _ _ _ _ _ (h2 _) ?_
  refine seq_accepts _ _ _ _ _ _ (h3 _) ?_
  rcases htail with ht | ht
  · subst ht
    refine seq_accepts _ _ _ _ _ _ ((mem_opt _ _ _ _ _).2 (Or.inr rfl)) ?_
    refine seq_accepts _ _ _ _ _ _ ((mem_opt _ _ _ _ _).2 (Or.inr rfl)) ?_
    refine seq_accepts _ _ _ _ _ _ ((mem_opt _ _ _ _ _).2 (Or.inr rfl)) ?_
    exact hfin _ _
  · subst ht
    refine seq_accepts _ _ _ _ _ (['k', 'B'], _)
      ((mem_opt _ _ _ _ _).2 (Or.inl ((mem_chr _ _ _ _ _).2 ⟨' ', rfl, by decide, rfl⟩))) ?_
    refine seq_accepts _ _ _ _ _ (['B'], _)
      ((mem_opt _ _ _ _ _).2 (Or.inl ((mem_chr _ _ _ _ _).2 ⟨'k', rfl, by decide, rfl⟩))) ?_
    refine seq_accepts _ _ _ _ _ ([], _)
      ((mem_opt _ _ _ _ _).2 (Or.inl ((mem_group _ _ _ _ _).2
        ⟨([], _), (mem_chr _ _ _ _ _).2 ⟨'B', rfl, by decide, rfl⟩, rfl⟩))) ?_
    exact hfin _ _

theorem wellKnown_no_colon (name : Str) (h : name ∈ wellKnownNames) : ':' ∉ name := by
  simp only [wellKnownNames, List.mem_cons, List.mem_singleton, List.not_mem_nil,
    or_false] at h
  rcases h with h | h | h | h | h | h | h <;> subst h <;> decide

theorem value_no_colon (ws digits tail : Str)
    (hws : ∀ ch ∈ ws, isspace ch = true)
    (hd : ∀ ch ∈ digits, isdigit ch = true)
    (htail : ':' ∉ tail) :
    ':' ∉ ws ++ (digits ++ tail) := by
  intro h
  rcases List.mem_append.1 h with h | h
  · exact isspace_ne_colon _ (hws _ h) rfl
  · rcases List.mem_append.1 h with h | h
    · exact isdigit_ne_colon _ (hd _ h) rfl
    · exact htail h

theorem regex_custom_group (search : List Re) : ∃ a, regex_custom search = .group a ∧
    (( ∀ s ∈ search, s.ngroups = 0) → a.ngroups = 0) := by
  cases search with
  | nil => exact ⟨_, rfl, fun _ => rfl⟩
  | cons s ss =>
    refine ⟨_, rfl, ?_⟩
    intro h
    induction ss generalizing s with
    | nil => exact h s (List.mem_cons_self _ _)
    | cons t ts ih =>
      simp only [Re.alts, Re.ngroups]
      rw [h s (List.mem_cons_self _ _), ih t (fun u hu => h u (List.mem_cons_of_mem _ hu))]

theorem fallback_matches (name ws digits tail : Str)
    (hname : name ∈ wellKnownNames)
    (hws : ∀ ch ∈ ws, isspace ch = true)
    (hd : digits ≠ [] ∧ ∀ ch ∈ digits, isdigit ch = true)
    (htail : tail = [] ∨ tail = " kB".toList) :
    (regex_match (name ++ ':' :: (ws ++ (digits ++ tail))) regex_fallback).isSome := by
  have hg : ((':' :: (ws ++ (digits ++ tail)), [(1, name)]) : MState) ∈
      (Re.group (Re.alts (Re.str "MemTotal".toList)
        ([ "MemFree".toList, "SwapTotal".toList, "SwapFree".toList,
          "SwapCached".toList, "Cached".toList, "Buffers".toList].map Re.str))).ms 1
        (name ++ ':' :: (ws ++ (digits ++ tail))) [] := by
    refine (mem_group _ _ _ _ _).2 ⟨(':' :: (ws ++ (digits ++ tail)), []), ?_, ?_⟩
    · exact alts_str_mem _ _ name _ _ _ hname
    · simp
  obtain ⟨x, hx, he⟩ := seq_accepts _ fallbackTail 1 _ _ _ hg
    (fallbackTail_accepts _ _ ws digits tail hws hd htail)
  exact regex_match_isSome _ _ x hx he

/-- C8: a line `<Name>:` + white space + digits + optional ` kB` whose name
is one of the seven well-known names yields, for every search filter, an
identity with exactly that name at the position of the line. -/
theorem init_well_known (search : List Re) (lines : List Str) (i : Nat)
    (name ws digits tail : Str)
    (hname : name ∈ wellKnownNames)
    (hws : ∀ ch ∈ ws, isspace ch = true)
    (hd : digits ≠ [] ∧ ∀ ch ∈ digits, isdigit ch = true)
    (htail : tail = [] ∨ tail = " kB".toList)
    (hline : lines[i]? = some (name ++ ':' :: (ws ++ (digits ++ tail)))) :
    ∃ id ∈ init search lines, id.line_nr = (i : Int) ∧ id.name = name := by
  have hn := wellKnown_no_colon name hname
  have hr : ':' ∉ ws ++ (digits ++ tail) :=
    value_no_colon ws digits tail hws hd.2 (by rcases htail with h | h <;> subst h <;> decide)
  obtain ⟨a, ha, _⟩ := regex_custom_group search
  have key : ∃ c, matchLine (regex_str search) (name ++ ':' :: (ws ++ (digits ++ tail))) = some c ∧
      sub (some c) 1 = name := by
    unfold matchLine
    cases hm : regex_match (name ++ ':' :: (ws ++ (digits ++ tail))) (regex_str search) with
    | some c =>
      refine ⟨c, rfl, ?_⟩
      simp only [regex_str, ha, customTail] at hm
      exact (name_of_match a _ _ name _ c hm rfl hn hr).1
    | none =>
      have hf := fallback_matches name ws digits tail hname hws hd htail
      cases hm2 : regex_match (name ++ ':' :: (ws ++ (digits ++ tail))) regex_fallback with
      | none => simp [hm2] at hf
      | some c =>
        refine ⟨c, rfl, ?_⟩
        simp only [regex_fallback, fallbackTail] at hm2
        exact (name_of_match _ _ _ name _ c hm2 rfl hn hr).1
  obtain ⟨c, hc, hname2⟩ := key
  refine ⟨⟨(i : Int), sub (some c) 1, sub (some c) 3⟩, ?_, rfl, hname2⟩
  exact (mem_init search lines _).2 (Or.inl ⟨i, _, c, hline, hc, rfl⟩)

theorem init_well_known_witness :
    ∃ id ∈ init [Re.str "Active".toList]
        ["Active: 7 kB".toList, "SwapCached:    0 kB".toList],
      id.line_nr = ((1 : Nat) : Int) ∧ id.name = "SwapCached".toList :=
  init_well_known [Re.str "Active".toList]
    ["Active: 7 kB".toList, "SwapCached:    0 kB".toList] 1
    "SwapCached".toList "    ".toList "0".toList " kB".toList
    (by decide) (by decide) (by decide) (by decide) (by decide)

theorem scale_cases (a : Char) (h : scaleLetter.test a = true) :
    a = 'k' ∨ a = 'K' ∨ a = 'm' ∨ a = 'M' ∨ a = 'g' ∨ a = 'G' ∨ a = 't' ∨ a = 'T' := by
  simp only [scaleLetter, Cls.test, inRanges, List.any_cons, List.any_nil, Bool.or_false,
    Bool.or_eq_true, Bool.and_eq_true, decide_eq_true_eq] at h
  rcases h with h | h | h | h | h | h | h | h
  · exact Or.inl (le_antisymm h.2 h.1)
  · exact Or.inr (Or.inl (le_antisymm h.2 h.1))
  · exact Or.inr (Or.inr (Or.inl (le_antisymm h.2 h.1)))
  · exact Or.inr (Or.inr (Or.inr (Or.inl (le_antisymm h.2 h.1))))
  · exact Or.inr (Or.inr (Or.inr (Or.inr (Or.inl (le_antisymm h.2 h.1)))))
  · exact Or.inr (Or.inr (Or.inr (Or.inr (Or.inr (Or.inl (le_antisymm h.2 h.1))))))
  · exact Or.inr (Or.inr (Or.inr (Or.inr (Or.inr (Or.inr (Or.inl (le_antisymm h.2 h.1)))))))
  · exact Or.inr (Or.inr (Or.inr (Or.inr (Or.inr (Or.inr (Or.inr (le_antisymm h.2 h.1)))))))

theorem byte_cases (b : Char) (h : byteLetter.test b = true) : b = 'b' ∨ b = 'B' := by
  simp only [byteLetter, Cls.test, inRanges, List.any_cons, List.any_nil, Bool.or_false,
    Bool.or_eq_true, Bool.and_eq_true, decide_eq_true_eq] at h
  rcases h with h | h
  · exact Or.inl (le_antisymm h.2 h.1)
  · exact Or.inr (le_antisymm h.2 h.1)

theorem scale_facts (a : Char) (h : scaleLetter.test a = true) :
    notAlnum.test a = false ∧ isdigit a = false := by
  rcases scale_cases a h with h | h | h | h | h | h | h | h <;> subst h <;> decide

theorem byte_facts (b : Char) (h : byteLetter.test b = true) :
    notAlnum.test b = false ∧ isdigit b = false := by
  rcases byte_cases b h with h | h <;> subst h <;> decide

/-- Splitting `white space ++ digits ++ tail` as `w ++ d ++ R` with `w` free
of letters and digits and `d` a non-empty run of digits: `w` is the white
space and `d` a prefix of the digits. -/
theorem split_value (digits tail d R : Str)
    (hd : digits ≠ [] ∧ ∀ ch ∈ digits, isdigit ch = true)
    (htail : ∀ ch, tail.head? = some ch → isdigit ch = false)
    (hd2 : d ≠ [] ∧ ∀ ch ∈ d, digit.test ch = true) :
    ∀ (ws w : Str), (∀ ch ∈ ws, isspace ch = true) → (∀ ch ∈ w, notAlnum.test ch = true) →
      ws ++ (digits ++ tail) = w ++ (d ++ R) →
      ∃ d', digits = d ++ d' ∧ R = d' ++ tail := by
  intro ws
  induction ws with
  | nil =>
    intro w _ hw he
    cases w with
    | cons x xs =>
      exfalso
      cases digits with
      | nil => exact hd.1 rfl
      | cons g gs =>
        simp only [List.nil_append, List.cons_append, List.cons.injEq] at he
        have h1 := hw x (List.mem_cons_self _ _)
        have h2 := isdigit_not_notAlnum g (hd.2 g (List.mem_cons_self _ _))
        rw [he.1] at h2
        rw [h1] at h2
        cases h2
    | nil =>
      simp only [List.nil_append] at he
      rcases List.append_eq_append_iff.1 he with ⟨a', h1, h2⟩ | ⟨c', h1, h2⟩
      · cases a' with
        | nil =>
          simp only [List.append_nil] at h1
          simp only [List.nil_append] at h2
          exact ⟨[], by simp [h1], by simp [h2]⟩
        | cons y ys =>
          exfalso
          have hy : isdigit y = true := by
            rw [← isdigit_digit]
            exact hd2.2 y (by rw [h1]; simp)
          have := htail y (by rw [h2]; rfl)
          rw [hy] at this
          cases this
      · exact ⟨c', h1, h2⟩
  | cons s ws' ih =>
    intro w hws hw he
    cases w with
    | nil =>
      exfalso
      cases d with
      | nil => exact hd2.1 rfl
      | cons g gs =>
        simp only [List.nil_append, List.cons_append, List.cons.injEq] at he
        have h1 := hd2.2 g (List.mem_cons_self _ _)
        have h2 := isspace_not_digit s (hws s (List.mem_cons_self _ _))
        rw [he.1, h1] at h2
        cases h2
    | cons x xs =>
      simp only [List.cons_append, List.cons.injEq] at he
      exact ih xs (fun ch h => hws ch (List.mem_cons_of_mem _ h))
        (fun ch h => hw ch (List.mem_cons_of_mem _ h)) he.2

/-- A suffix free of letters and digits after text that ends in a letter is
empty. -/
theorem trailing_empty (pre t : Str) (l : Str) (b : Char)
    (ht : ∀ ch ∈ t, notAlnum.test ch = true) (hb : notAlnum.test b = false)
    (he : l ++ [b] = pre ++ t) : t = [] := by
  have hr := congrArg List.reverse he
  simp only [List.reverse_append, List.reverse_cons, List.reverse_nil, List.nil_append,
    List.singleton_append] at hr
  cases htr : t.reverse with
  | nil => simpa using htr
  | cons y ys =>
    rw [htr] at hr
    simp only [List.cons_append, List.cons.injEq] at hr
    have hy : y ∈ t := by
      rw [← List.mem_reverse, htr]; exact List.mem_cons_self _ _
    have := ht y hy
    rw [← hr.1, hb] at this
    cases this

/-- The common head `[^a-zA-Z0-9]*([0-9]+).?` of the value patterns, run on
`white space ++ digits ++ tail`: the white space is skipped, group `base`
captures a non-empty prefix `d` of the digits, and `.?` takes at most one
character of what follows. -/
theorem value_head_inv (R : Re) (base : Nat) (c0 : Caps) (ws digits tail : Str) (x : MState)
    (hws : ∀ ch ∈ ws, isspace ch = true)
    (hd : digits ≠ [] ∧ ∀ ch ∈ digits, isdigit ch = true)
    (htail : ∀ ch, tail.head? = some ch → isdigit ch = false)
    (hx : x ∈ (Re.seq (.star (.chr notAlnum)) (.seq (.group (.plus (.chr digit)))
      (.seq (.opt (.chr .any)) R))).ms base (ws ++ (digits ++ tail)) c0) :
    ∃ d d' o rest, digits = d ++ d' ∧ d' ++ tail = o ++ rest ∧ o.length ≤ 1 ∧
      x ∈ R.ms (base + 1) rest ((base, d) :: c0) := by
  obtain ⟨y1, hy1, h⟩ := (mem_seq _ _ _ _ _ _).1 hx
  obtain ⟨y2, hy2, h⟩ := (mem_seq _ _ _ _ _ _).1 h
  obtain ⟨y3, hy3, h⟩ := (mem_seq _ _ _ _ _ _).1 h
  obtain ⟨e1, w, hw1, hw2⟩ := (mem_star_chr _ _ _ _ _).1 hy1
  obtain ⟨z, hz, e2⟩ := (mem_group _ _ _ _ _).1 hy2
  obtain ⟨e3, d, hd1, hd2, hd3⟩ := (mem_plus_chr _ _ _ _ _).1 hz
  rw [hd2] at hw1
  obtain ⟨d', hdd, hz1⟩ := split_value digits tail d z.1 hd htail ⟨hd1, hd3⟩ ws w hws hw2 hw1
  have htake : y1.1.take (y1.1.length - z.1.length) = d := by rw [hd2]; simp
  rw [htake, e3, e1] at e2
  simp only [Re.ngroups, Nat.add_zero] at e2 h
  have hy2' : y2.1 = d' ++ tail ∧ y2.2 = (base, d) :: c0 := by
    rw [e2]; exact ⟨hz1, rfl⟩
  rcases (mem_opt _ _ _ _ _).1 hy3 with hc | hc
  · obtain ⟨ch, h1, _, h3⟩ := (mem_chr _ _ _ _ _).1 hc
    refine ⟨d, d', [ch], y3.1, hdd, ?_, by simp, ?_⟩
    · rw [← hy2'.1, h1]; rfl
    · rw [h3, hy2'.2] at h; exact h
  · refine ⟨d, d', [], y3.1, hdd, ?_, by simp, ?_⟩
    · rw [hc]; simp [hy2'.1]
    · rw [hc] at h; simp only [hy2'.2] at h; rw [hc]; exact h

theorem lookup_cons_ne (c : Caps) (i j : Nat) (t : Str) (h : i ≠ j) :
    List.lookup i ((j, t) :: c) = List.lookup i c := by
  have : (i == j) = false := by simpa using h
  simp [List.lookup_cons, this]

theorem lookup_cons_self (c : Caps) (i : Nat) (t : Str) :
    List.lookup i ((i, t) :: c) = some t := by
  simp [List.lookup_cons]

/-- The caller's value pattern on `white space ++ digits`: group 3 stays
unset. -/
theorem custom_unit_none (c0 : Caps) (ws digits : Str) (x : MState)
    (hws : ∀ ch ∈ ws, isspace ch = true)
    (hd : digits ≠ [] ∧ ∀ ch ∈ digits, isdigit ch = true)
    (hx : x ∈ (Re.seq (.star (.chr notAlnum)) (.seq (.group (.plus (.chr digit)))
      (.seq (.opt (.chr .any))
        (.seq (.opt (.group (.seq (.chr scaleLetter) (.chr byteLetter))))
          (.star (.chr notAlnum)))))).ms 2 (ws ++ (digits ++ [])) c0) :
    x.2.lookup 3 = c0.lookup 3 := by
  obtain ⟨d, d', o, rest, hdd, hrest, _, hR⟩ :=
    value_head_inv _ 2 c0 ws digits [] x hws hd (by simp) hx
  obtain ⟨y4, hy4, hE⟩ := (mem_seq _ _ _ _ _ _).1 hR
  obtain ⟨e5, _, _, _⟩ := (mem_star_chr _ _ _ _ _).1 hE
  rcases (mem_opt _ _ _ _ _).1 hy4 with hg | hs
  · exfalso
    obtain ⟨z, hz, _⟩ := (mem_group _ _ _ _ _).1 hg
    obtain ⟨z1, hz1, _⟩ := (mem_seq _ _ _ _ _ _).1 hz
    obtain ⟨a', h1, h2, _⟩ := (mem_chr _ _ _ _ _).1 hz1
    have ha : a' ∈ digits := by
      rw [hdd]
      apply List.mem_append_right
      have : a' ∈ d' ++ [] := by rw [hrest, h1]; simp
      simpa using this
    have := (scale_facts a' h2).2
    rw [hd.2 a' ha] at this
    cases this
  · rw [e5, hs]
    exact lookup_cons_ne _ _ _ _ (by decide)

/-- The caller's value pattern on `white space ++ digits ++ " ab"` with a
scale letter `a` and a byte letter `b`: group 3 captures `ab`. -/
theorem custom_unit_some (c0 : Caps) (ws digits : Str) (a b : Char) (x : MState)
    (hws : ∀ ch ∈ ws, isspace ch = true)
    (hd : digits ≠ [] ∧ ∀ ch ∈ digits, isdigit ch = true)
    (_ha : scaleLetter.test a = true) (hb : byteLetter.test b = true)
    (hx : x ∈ (Re.seq (.star (.chr notAlnum)) (.seq (.group (.plus (.chr digit)))
      (.seq (.opt (.chr .any))
        (.seq (.opt (.group (.seq (.chr scaleLetter) (.chr byteLetter))))
          (.star (.chr notAlnum)))))).ms 2 (ws ++ (digits ++ [' ', a, b])) c0)
    (hx1 : x.1 = []) :
    x.2.lookup 3 = some [a, b] := by
  obtain ⟨d, d', o, rest, hdd, hrest, ho, hR⟩ :=
    value_head_inv _ 2 c0 ws digits [' ', a, b] x hws hd
      (by intro ch h; simp only [List.head?_cons, Option.some.injEq] at h; subst h; decide) hx
  obtain ⟨y4, hy4, hE⟩ := (mem_seq _ _ _ _ _ _).1 hR
  obtain ⟨e5, t, ht1, ht2⟩ := (mem_star_chr _ _ _ _ _).1 hE
  rw [hx1, List.append_nil] at ht1
  have hbn := (byte_facts b hb).1
  rcases (mem_opt _ _ _ _ _).1 hy4 with hg | hs
  · obtain ⟨z, hz, ez⟩ := (mem_group _ _ _ _ _).1 hg
    obtain ⟨z1, hz1, hz2⟩ := (mem_seq _ _ _ _ _ _).1 hz
    obtain ⟨a', h1, _, h3⟩ := (mem_chr _ _ _ _ _).1 hz1
    obtain ⟨b', h4, _, h6⟩ := (mem_chr _ _ _ _ _).1 hz2
    have hy41 : y4.1 = z.1 := by rw [ez]
    have hrest2 : rest = [a', b'] ++ t := by rw [h1, h4, ← hy41, ht1]; rfl
    have hE2 : (d' ++ [' ', a]) ++ [b] = (o ++ [a', b']) ++ t := by
      rw [List.append_assoc, List.append_assoc, ← hrest2, ← hrest]; simp
    have htn := trailing_empty _ t _ b ht2 hbn hE2
    subst htn
    have hlen := congrArg List.length hE2
    simp only [List.length_append, List.length_cons, List.length_nil] at hlen
    have hd0 : d' = [] := List.eq_nil_of_length_eq_zero (by omega)
    subst hd0
    cases o with
    | nil => simp at hlen
    | cons ch o' =>
      cases o' with
      | cons _ _ => simp at ho
      | nil =>
        simp only [List.nil_append, List.append_nil, List.cons_append, List.cons.injEq,
          and_true] at hE2
        obtain ⟨_, e1, e2⟩ := hE2
        rw [e5, ez]
        have htake : rest.take (rest.length - z.1.length) = [a', b'] := by
          rw [hrest2, ← hy41, ht1]; simp
        rw [htake, e1, e2]
        exact lookup_cons_self _ _ _
  · exfalso
    have hrest2 : rest = t := by rw [← ht1, hs]
    have hE2 : (d' ++ [' ', a]) ++ [b] = o ++ t := by
      rw [← hrest2, ← hrest]; simp
    have htn := trailing_empty _ t _ b ht2 hbn hE2
    subst htn
    have hlen := congrArg List.length hE2
    simp only [List.length_append, List.length_cons, List.length_nil] at hlen
    omega

/-- The fallback value pattern on `white space ++ digits`: group 3 stays
unset. -/
theorem fallback_unit_none (c0 : Caps) (ws digits : Str) (x : MState)
    (hws : ∀ ch ∈ ws, isspace ch = true)
    (hd : digits ≠ [] ∧ ∀ ch ∈ digits, isdigit ch = true)
    (hx : x ∈ (Re.seq (.star (.chr notAlnum)) (.seq (.group (.plus (.chr digit)))
      (.seq (.opt (.chr .any)) (.seq (.opt (.chr scaleLetter))
        (.seq (.opt (.group (.chr byteLetter)))
          (.star (.chr notAlnum))))))).ms 2 (ws ++ (digits ++ [])) c0) :
    x.2.lookup 3 = c0.lookup 3 := by
  obtain ⟨d, d', o, rest, hdd, hrest, _, hR⟩ :=
    value_head_inv _ 2 c0 ws digits [] x hws hd (by simp) hx
  obtain ⟨y4, hy4, hR2⟩ := (mem_seq _ _ _ _ _ _).1 hR
  obtain ⟨y5, hy5, hE⟩ := (mem_seq _ _ _ _ _ _).1 hR2
  obtain ⟨e5, _, _, _⟩ := (mem_star_chr _ _ _ _ _).1 hE
  have hy4' : y4.2 = (2, d) :: c0 ∧ ∃ u, rest = u ++ y4.1 := by
    rcases (mem_opt _ _ _ _ _).1 hy4 with hg | hs
    · obtain ⟨a', h1, _, h3⟩ := (mem_chr _ _ _ _ _).1 hg
      exact ⟨h3, [a'], by rw [h1]; rfl⟩
    · rw [hs]; exact ⟨rfl, [], rfl⟩
  obtain ⟨e4, u, hu⟩ := hy4'
  rcases (mem_opt _ _ _ _ _).1 hy5 with hg | hs
  · exfalso
    obtain ⟨z, hz, _⟩ := (mem_group _ _ _ _ _).1 hg
    obtain ⟨b', h1, h2, _⟩ := (mem_chr _ _ _ _ _).1 hz
    have hbd : b' ∈ digits := by
      rw [hdd]
      apply List.mem_append_right
      have : b' ∈ d' ++ [] := by rw [hrest, hu, h1]; simp
      simpa using this
    have := (byte_facts b' h2).2
    rw [hd.2 b' hbd] at this
    cases this
  · rw [e5, hs, e4]
    exact lookup_cons_ne _ _ _ _ (by decide)

/-- The fallback value pattern on `white space ++ digits ++ " ab"` with a
scale letter `a` and a byte letter `b`: group 3 captures `b` alone. -/
theorem fallback_unit_some (c0 : Caps) (ws digits : Str) (a b : Char) (x : MState)
    (hws : ∀ ch ∈ ws, isspace ch = true)
    (hd : digits ≠ [] ∧ ∀ ch ∈ digits, isdigit ch = true)
    (_ha : scaleLetter.test a = true) (hb : byteLetter.test b = true)
    (hx : x ∈ (Re.seq (.star (.chr notAlnum)) (.seq (.group (.plus (.chr digit)))
      (.seq (.opt (.chr .any)) (.seq (.opt (.chr scaleLetter))
        (.seq (.opt (.group (.chr byteLetter)))
          (.star (.chr notAlnum))))))).ms 2 (ws ++ (digits ++ [' ', a, b])) c0)
    (hx1 : x.1 = []) :
    x.2.lookup 3 = some [b] := by
  obtain ⟨d, d', o, rest, hdd, hrest, ho, hR⟩ :=
    value_head_inv _ 2 c0 ws digits [' ', a, b] x hws hd
      (by intro ch h; simp only [List.head?_cons, Option.some.injEq] at h; subst h; decide) hx
  obtain ⟨y4, hy4, hR2⟩ := (mem_seq _ _ _ _ _ _).1 hR
  obtain ⟨y5, hy5, hE⟩ := (mem_seq _ _ _ _ _ _).1 hR2
  obtain ⟨e5, t, ht1, ht2⟩ := (mem_star_chr _ _ _ _ _).1 hE
  rw [hx1, List.append_nil] at ht1
  have hbn := (byte_facts b hb).1
  have hy4' : y4.2 = (2, d) :: c0 ∧ ∃ u, rest = u ++ y4.1 ∧ u.length ≤ 1 := by
    rcases (mem_opt _ _ _ _ _).1 hy4 with hg | hs
    · obtain ⟨a', h1, _, h3⟩ := (mem_chr _ _ _ _ _).1 hg
      exact ⟨h3, [a'], by rw [h1]; rfl, by simp⟩
    · rw [hs]; exact ⟨rfl, [], rfl, by simp⟩
  obtain ⟨e4, u, hu, hul⟩ := hy4'
  rcases (mem_opt _ _ _ _ _).1 hy5 with hg | hs
  · obtain ⟨z, hz, ez⟩ := (mem_group _ _ _ _ _).1 hg
    obtain ⟨b', h1, _, h3⟩ := (mem_chr _ _ _ _ _).1 hz
    have hy51 : y5.1 = z.1 := by rw [ez]
    have hy4e : y4.1 = [b'] ++ t := by rw [h1, ← hy51, ht1]; rfl
    have hE2 : (d' ++ [' ', a]) ++ [b] = (o ++ u ++ [b']) ++ t := by
      rw [List.append_assoc, List.append_assoc, List.append_assoc o, ← hy4e, ← hu, ← hrest]
      simp
    have htn := trailing_empty _ t _ b ht2 hbn hE2
    subst htn
    have hr := congrArg List.reverse hE2
    simp only [List.reverse_append, List.reverse_cons, List.reverse_nil, List.nil_append,
      List.append_nil, List.singleton_append, List.cons_append, List.cons.injEq] at hr
    rw [e5, ez]
    have htake : y4.1.take (y4.1.length - z.1.length) = [b'] := by
      rw [hy4e, ← hy51, ht1]; simp
    rw [htake, ← hr.1]
    exact lookup_cons_self _ _ _
  · exfalso
    have hy4e : y4.1 = t := by rw [← ht1, hs]
    have hE2 : (d' ++ [' ', a]) ++ [b] = (o ++ u) ++ t := by
      have e0 : (d' ++ [' ', a]) ++ [b] = d' ++ [' ', a, b] := by simp
      rw [e0, hrest, hu, hy4e, List.append_assoc]
    have htn := trailing_empty _ t _ b ht2 hbn hE2
    subst htn
    have hlen := congrArg List.length hE2
    simp only [List.length_append, List.length_cons, List.length_nil] at hlen
    omega

theorem caps_nil_of_bounds (l : Caps) (n : Nat) (h : ∀ e ∈ l, n ≤ e.1 ∧ e.1 < n + 0) :
    l = [] := by
  cases l with
  | nil => rfl
  | cons e es =>
    have := h e (List.mem_cons_self _ _)
    omega

theorem sub_of_lookup (c : Caps) (i : Nat) (t : Str) (h : c.lookup i = some t) :
    sub (some c) i = t := by
  simp [sub, h]

theorem sub_of_lookup_none (c : Caps) (i : Nat) (h : c.lookup i = none) :
    sub (some c) i = [] := by
  simp [sub, h]

/-- Every descriptor `get_metric_properties` returns repeats the name and the
unit of an identity of `init`. -/
theorem descriptor_of_init (ids : List meminfo_t) :
    ∀ (acc : List metric_property × meminfo_plugin),
      (∀ p ∈ acc.1, ∃ id ∈ ids, p.name = id.name ∧ p.unit = id.unit) →
      ∀ (ms : List meminfo_t), (∀ m ∈ ms, m ∈ ids) →
      ∀ p ∈ (ms.foldl
        (fun (acc : List metric_property × meminfo_plugin) (m : meminfo_t) =>
          match find acc.2.values_by_id_ m.line_nr with
          | none =>
            (acc.1 ++ [⟨m.name, [], m.unit⟩],
              { acc.2 with values_by_id_ := emplace acc.2.values_by_id_ m.line_nr })
          | some _ => acc) acc).1,
        ∃ id ∈ ids, p.name = id.name ∧ p.unit = id.unit := by
  intro acc hacc ms
  induction ms generalizing acc with
  | nil => intro _ p hp; exact hacc p hp
  | cons m rest ih =>
    intro hms p hp
    simp only [List.foldl_cons] at hp
    refine ih _ ?_ (fun m' h => hms m' (List.mem_cons_of_mem _ h)) p hp
    intro q hq
    split at hq
    · rcases List.mem_append.1 hq with h | h
      · exact hacc q h
      · simp only [List.mem_singleton] at h
        subst h
        exact ⟨m, hms m (List.mem_cons_self _ _), rfl, rfl⟩
    · exact hacc q hq

/-- C9 (as amended): the unit discovery stores for a line `<name>:` + white
space + digits + optional ` ` and a two-letter unit. When the caller's
filter (without capturing groups of its own) matches the line, the unit is
the two-letter suffix; when only the fallback pattern matches, it is the
last letter of the suffix alone; it is empty when the line has no suffix.
The descriptors of `get_metric_properties` repeat the stored unit. -/
theorem init_unit (search : List Re) (lines : List Str) (id : meminfo_t) (i : Nat)
    (name ws digits tail : Str)
    (hsearch : ∀ s ∈ search, s.ngroups = 0)
    (hid : id ∈ init search lines) (hi : id.line_nr = (i : Int))
    (hname : ':' ∉ name)
    (hws : ∀ ch ∈ ws, isspace ch = true)
    (hd : digits ≠ [] ∧ ∀ ch ∈ digits, isdigit ch = true)
    (htail : tail = [] ∨ ∃ a b, tail = [' ', a, b] ∧ scaleLetter.test a = true ∧
      byteLetter.test b = true)
    (hline : lines[i]? = some (name ++ ':' :: (ws ++ (digits ++ tail)))) :
    id.name = name ∧
    (tail = [] → id.unit = []) ∧
    (∀ a b, tail = [' ', a, b] →
      ((regex_match (name ++ ':' :: (ws ++ (digits ++ tail))) (regex_str search)).isSome →
        id.unit = [a, b]) ∧
      (regex_match (name ++ ':' :: (ws ++ (digits ++ tail))) (regex_str search) = none →
        id.unit = [b])) ∧
    (∀ st pattern, search = [pattern] →
      ∀ p ∈ (get_metric_properties st pattern lines).1,
        ∃ id' ∈ init search lines, p.name = id'.name ∧ p.unit = id'.unit) := by
  have hlt : i < lines.length := by
    by_contra hcon
    rw [List.getElem?_eq_none (by omega)] at hline
    cases hline
  have hr : ':' ∉ ws ++ (digits ++ tail) := by
    apply value_no_colon ws digits tail hws hd.2
    rcases htail with h | ⟨a, b, h, ha, hb⟩
    · subst h; simp
    · subst h
      have h1 := scale_cases a ha
      have h2 := byte_cases b hb
      intro hmem
      simp only [List.mem_cons, List.mem_singleton, List.not_mem_nil, or_false] at hmem
      rcases hmem with h | h | h
      · exact absurd h (by decide)
      · subst h; revert h1; decide
      · subst h; revert h2; decide
  obtain ⟨a0, ha0, hng⟩ := regex_custom_group search
  have hng0 := hng hsearch
  -- the identity comes from line `i`
  have hreal : ∃ c, matchLine (regex_str search) (name ++ ':' :: (ws ++ (digits ++ tail))) = some c ∧
      id = ⟨(i : Int), sub (some c) 1, sub (some c) 3⟩ := by
    rcases (mem_init search lines id).1 hid with ⟨i', line', c, h1, h2, h3⟩ | ⟨_, h⟩ | ⟨_, h⟩
    · have hii : i' = i := by
        rw [h3] at hi
        simp only at hi
        exact_mod_cast hi
      subst hii
      rw [hline] at h1
      simp only [Option.some.injEq] at h1
      subst h1
      exact ⟨c, h2, h3⟩
    · rw [h] at hi; simp only at hi; omega
    · rw [h] at hi; simp only at hi; omega
  obtain ⟨c, hc, hidc⟩ := hreal
  refine ⟨?_, ?_, ?_, ?_⟩
  · -- the name
    rw [hidc]
    simp only
    unfold matchLine at hc
    cases hm : regex_match (name ++ ':' :: (ws ++ (digits ++ tail))) (regex_str search) with
    | some c' =>
      simp only [hm, Option.some.injEq] at hc
      subst hc
      simp only [regex_str, ha0, customTail] at hm
      exact (name_of_match a0 _ _ name _ _ hm rfl hname hr).1
    | none =>
      simp only [hm] at hc
      simp only [regex_fallback, fallbackTail] at hc
      exact (name_of_match _ _ _ name _ _ hc rfl hname hr).1
  · -- no suffix
    intro ht
    subst ht
    rw [hidc]
    simp only
    unfold matchLine at hc
    cases hm : regex_match (name ++ ':' :: (ws ++ (digits ++ []))) (regex_str search) with
    | some c' =>
      simp only [hm, Option.some.injEq] at hc
      subst hc
      simp only [regex_str, ha0, customTail] at hm
      obtain ⟨_, l, x, hl, hx, hx1, hx2⟩ := name_of_match a0 _ _ name _ _ hm rfl hname hr
      rw [hng0] at hl hx
      have := caps_nil_of_bounds l 2 hl
      subst this
      have := custom_unit_none _ ws digits x hws hd hx
      rw [hx2] at this
      exact sub_of_lookup_none _ _ (by rw [this]; rfl)
    | none =>
      simp only [hm] at hc
      simp only [regex_fallback, fallbackTail] at hc
      obtain ⟨_, l, x, hl, hx, hx1, hx2⟩ := name_of_match _ _ _ name _ _ hc rfl hname hr
      have hz : (Re.alts (Re.str "MemTotal".toList)
        [Re.str "MemFree".toList, Re.str "SwapTotal".toList, Re.str "SwapFree".toList,
         Re.str "SwapCached".toList, Re.str "Cached".toList,
         Re.str "Buffers".toList]).ngroups = 0 := by decide
      rw [hz] at hl hx
      have := caps_nil_of_bounds l 2 hl
      subst this
      have := fallback_unit_none _ ws digits x hws hd hx
      rw [hx2] at this
      exact sub_of_lookup_none _ _ (by rw [this]; rfl)
  · -- a two-letter suffix
    intro a b ht
    have hab : scaleLetter.test a = true ∧ byteLetter.test b = true := by
      rcases htail with h | ⟨a', b', h, ha, hb⟩
      · rw [h] at ht; cases ht
      · rw [h] at ht
        simp only [List.cons.injEq, and_true, true_and] at ht
        rw [← ht.1, ← ht.2]; exact ⟨ha, hb⟩
    subst ht
    rw [hidc]
    simp only
    unfold matchLine at hc
    cases hm : regex_match (name ++ ':' :: (ws ++ (digits ++ [' ', a, b]))) (regex_str search) with
    | some c' =>
      refine ⟨fun _ => ?_, fun h => by cases h⟩
      simp only [hm, Option.some.injEq] at hc
      subst hc
      simp only [regex_str, ha0, customTail] at hm
      obtain ⟨_, l, x, hl, hx, hx1, hx2⟩ := name_of_match a0 _ _ name _ _ hm rfl hname hr
      rw [hng0] at hl hx
      have := caps_nil_of_bounds l 2 hl
      subst this
      have := custom_unit_some _ ws digits a b x hws hd hab.1 hab.2 hx hx1
      rw [hx2] at this
      exact sub_of_lookup _ _ _ this
    | none =>
      refine ⟨fun h => by simp at h, fun _ => ?_⟩
      simp only [hm] at hc
      simp only [regex_fallback, fallbackTail] at hc
      obtain ⟨_, l, x, hl, hx, hx1, hx2⟩ := name_of_match _ _ _ name _ _ hc rfl hname hr
      have hz : (Re.alts (Re.str "MemTotal".toList)
        [Re.str "MemFree".toList, Re.str "SwapTotal".toList, Re.str "SwapFree".toList,
         Re.str "SwapCached".toList, Re.str "Cached".toList,
         Re.str "Buffers".toList]).ngroups = 0 := by decide
      rw [hz] at hl hx
      have := caps_nil_of_bounds l 2 hl
      subst this
      have := fallback_unit_some _ ws digits a b x hws hd hab.1 hab.2 hx hx1
      rw [hx2] at this
      exact sub_of_lookup _ _ _ this
  · intro st pattern hs p hp
    subst hs
    exact descriptor_of_init (init [pattern] lines) ([], st) (fun _ h => by cases h)
      (init [pattern] lines) (fun _ h => h) p hp

/-! ## Unparseable lines -/

theorem scan_ok_inv (st : meminfo_plugin) (L : List Str) :
    ∀ (s : Int) (d : Data) (r : Regs) (d' : Data) (r' : Regs),
      scanLines st L s d r = .ok (d', r') →
      ∀ j line, (find d j).isSome → lineAt L (j - s) = some line →
        ∃ v, lineValue line = .ok v := by
  induction L with
  | nil =>
    intro s d r d' r' _ j line _ hl
    rw [lineAt_nil] at hl
    cases hl
  | cons l rest ih =>
    intro s d r d' r' h j line hj hl
    unfold scanLines at h
    by_cases hjs : j = s
    · subst hjs
      rw [sub_self, lineAt_cons_zero] at hl
      simp only [Option.some.injEq] at hl
      subst hl
      cases hf : find d j with
      | none => simp [hf] at hj
      | some xs =>
        simp only [hf] at h
        cases hv : lineValue l with
        | error e => simp [hv] at h
        | ok v => exact ⟨v, rfl⟩
    · have hgt : s < j := by
        by_contra hcon
        rw [lineAt_neg _ _ (by omega)] at hl
        cases hl
      rw [lineAt_cons_pos l rest (j - s) (by omega)] at hl
      have hl' : lineAt rest (j - (s + 1)) = some line := by
        rw [← hl]; congr 1; omega
      cases hf : find d s with
      | none =>
        simp only [hf] at h
        exact ih _ _ _ _ _ h j line hj hl'
      | some xs =>
        simp only [hf] at h
        cases hv : lineValue l with
        | error e => simp [hv] at h
        | ok v =>
          simp only [hv] at h
          refine ih _ _ _ _ _ h j line ?_ hl'
          rw [find_push_back]
          split
          · cases hfj : find d j with
            | none => simp [hfj] at hj
            | some ys => rfl
          · exact hj

/-- Every tick with a tracked position whose line does not match
`regex_parse` ends in an exception: `parse` never returns a store. -/
theorem parse_raises_of_unmatched (st : meminfo_plugin) (lines : List Str) (data : Data)
    (p : Int) (line : Str)
    (hkey : (find data p).isSome) (hline : lineAt lines p = some line)
    (hno : regex_match line regex_parse = none) :
    ∃ e, parse st lines data = .error e := by
  cases hp : parse st lines data with
  | error e => exact ⟨e, rfl⟩
  | ok data' =>
    exfalso
    obtain ⟨d, r, hs, _⟩ := parse_inv st lines data data' hp
    obtain ⟨v, hv⟩ := scan_ok_inv st lines 0 data Regs.init d r hs p line hkey
      (by rw [sub_zero]; exact hline)
    simp [lineValue, hno, sub, stoll, List.takeWhile, List.dropWhile] at hv

/-! ## Concrete runs -/

theorem parse_mem_used_witness :
    ∃ d r, scanLines ⟨[], [], 0, 1, 2, 3, -1, -1, -1, 4, 5⟩
        ["MemTotal: 1000".toList, "MemFree: 200".toList, "Buffers: 100".toList,
          "Cached: 150".toList] 0
        [(0, []), (1, []), (2, []), (3, []), (4, []), (5, [])] Regs.init = .ok (d, r) ∧
      memUsedBlock ⟨[], [], 0, 1, 2, 3, -1, -1, -1, 4, 5⟩ r d =
        push_back d 4 (1000 - 200 - 100 - 150) ∧
      find (memUsedBlock ⟨[], [], 0, 1, 2, 3, -1, -1, -1, 4, 5⟩ r d) 4 =
        (find d 4).map (fun xs => xs ++ [1000 - 200 - 100 - 150]) ∧
      [(0, [1000]), (1, [200]), (2, [100]), (3, [150]), (4, [550]), (5, [0])] =
        swapUsedBlock ⟨[], [], 0, 1, 2, 3, -1, -1, -1, 4, 5⟩ r
          (memUsedBlock ⟨[], [], 0, 1, 2, 3, -1, -1, -1, 4, 5⟩ r d) :=
  parse_mem_used ⟨[], [], 0, 1, 2, 3, -1, -1, -1, 4, 5⟩
    ["MemTotal: 1000".toList, "MemFree: 200".toList, "Buffers: 100".toList,
      "Cached: 150".toList]
    [(0, []), (1, []), (2, []), (3, []), (4, []), (5, [])]
    [(0, [1000]), (1, [200]), (2, [100]), (3, [150]), (4, [550]), (5, [0])]
    1000 200 100 150 (by decide) (by decide) (by decide) (by decide) (by decide) (by decide)
    (by decide) (by decide)

theorem parse_mem_used_fallback_witness :
    ∃ d r, scanLines ⟨[], [], 0, 1, 2, -1, -1, -1, -1, 4, 5⟩
        ["MemTotal: 1000".toList, "MemFree: 200".toList, "Buffers: 100".toList,
          "Cached: 150".toList] 0
        [(0, []), (1, []), (2, []), (3, []), (4, [7])] Regs.init = .ok (d, r) ∧
      memUsedBlock ⟨[], [], 0, 1, 2, -1, -1, -1, -1, 4, 5⟩ r d = push_back d 4 0 ∧
      find (memUsedBlock ⟨[], [], 0, 1, 2, -1, -1, -1, -1, 4, 5⟩ r d) 4 =
        (find d 4).map (fun xs => xs ++ [0]) ∧
      [(0, [1000]), (1, [200]), (2, [100]), (3, [150]), (4, [7, 0])] =
        swapUsedBlock ⟨[], [], 0, 1, 2, -1, -1, -1, -1, 4, 5⟩ r
          (memUsedBlock ⟨[], [], 0, 1, 2, -1, -1, -1, -1, 4, 5⟩ r d) :=
  parse_mem_used_fallback ⟨[], [], 0, 1, 2, -1, -1, -1, -1, 4, 5⟩
    ["MemTotal: 1000".toList, "MemFree: 200".toList, "Buffers: 100".toList,
      "Cached: 150".toList]
    [(0, []), (1, []), (2, []), (3, []), (4, [7])]
    [(0, [1000]), (1, [200]), (2, [100]), (3, [150]), (4, [7, 0])]
    (by decide) (by decide) (Or.inr (Or.inr (Or.inr (Or.inl rfl))))

theorem parse_swap_used_witness :
    ∃ d r v, scanLines ⟨[], [], -1, -1, -1, -1, 0, 1, 2, -1, 4⟩
        ["SwapTotal: 900".toList, "SwapFree: 1 kB".toList, "SwapCached: 30".toList] 0
        [(0, []), (1, []), (2, []), (4, [])] Regs.init = .ok (d, r) ∧
      [(0, [900]), (1, [1024]), (2, [30]), (4, [-154])] =
        push_back (memUsedBlock ⟨[], [], -1, -1, -1, -1, 0, 1, 2, -1, 4⟩ r d) 4 v ∧
      find [(0, [900]), (1, [1024]), (2, [30]), (4, [-154])] 4 =
        (find (memUsedBlock ⟨[], [], -1, -1, -1, -1, 0, 1, 2, -1, 4⟩ r d) 4).map
          (fun xs => xs ++ [v]) ∧
      (∀ t f c,
        readAt [(0, []), (1, []), (2, []), (4, [])]
          ["SwapTotal: 900".toList, "SwapFree: 1 kB".toList, "SwapCached: 30".toList] 0 =
            some t →
        readAt [(0, []), (1, []), (2, []), (4, [])]
          ["SwapTotal: 900".toList, "SwapFree: 1 kB".toList, "SwapCached: 30".toList] 1 =
            some f →
        readAt [(0, []), (1, []), (2, []), (4, [])]
          ["SwapTotal: 900".toList, "SwapFree: 1 kB".toList, "SwapCached: 30".toList] 2 =
            some c →
        0 ≤ t ∧ 0 ≤ f ∧ 0 ≤ c → -(2 ^ 63) ≤ t - f - c → v = t - f - c) ∧
      ((¬ ∃ t f c,
        readAt [(0, []), (1, []), (2, []), (4, [])]
          ["SwapTotal: 900".toList, "SwapFree: 1 kB".toList, "SwapCached: 30".toList] 0 =
            some t ∧
        readAt [(0, []), (1, []), (2, []), (4, [])]
          ["SwapTotal: 900".toList, "SwapFree: 1 kB".toList, "SwapCached: 30".toList] 1 =
            some f ∧
        readAt [(0, []), (1, []), (2, []), (4, [])]
          ["SwapTotal: 900".toList, "SwapFree: 1 kB".toList, "SwapCached: 30".toList] 2 =
            some c ∧
        0 ≤ t ∧ 0 ≤ f ∧ 0 ≤ c) → v = 0) :=
  parse_swap_used ⟨[], [], -1, -1, -1, -1, 0, 1, 2, -1, 4⟩
    ["SwapTotal: 900".toList, "SwapFree: 1 kB".toList, "SwapCached: 30".toList]
    [(0, []), (1, []), (2, []), (4, [])]
    [(0, [900]), (1, [1024]), (2, [30]), (4, [-154])]
    (by decide) (by decide)

theorem parse_position_witness :
    ∃ d r, scanLines ⟨[], [], 0, 3, -1, -1, -1, -1, -1, 4, 5⟩
        ["MemTotal: 16 kB".toList, "Zzz: 1".toList, "Yyy: 2".toList,
          "MemFree: 3 MB".toList] 0
        [(0, []), (3, [9])] Regs.init = .ok (d, r) ∧
      find d 3 = some ([9] ++ [3145728]) ∧
      [(0, [16384]), (3, [9, 3145728])] =
        swapUsedBlock ⟨[], [], 0, 3, -1, -1, -1, -1, -1, 4, 5⟩ r
          (memUsedBlock ⟨[], [], 0, 3, -1, -1, -1, -1, -1, 4, 5⟩ r d) ∧
      ((3 : Int) ≠ 4 → (3 : Int) ≠ 5 →
        find [(0, [16384]), (3, [9, 3145728])] 3 = some ([9] ++ [3145728])) :=
  parse_position ⟨[], [], 0, 3, -1, -1, -1, -1, -1, 4, 5⟩
    ["MemTotal: 16 kB".toList, "Zzz: 1".toList, "Yyy: 2".toList, "MemFree: 3 MB".toList]
    [(0, []), (3, [9])] [(0, [16384]), (3, [9, 3145728])] 3 [9] "MemFree: 3 MB".toList 3145728
    (by decide) (by decide) (by decide) (by decide)

/-- C10: `parse` raises where a recording gap is specified. Positions
0 and 1 are tracked and line 0 of the source has no `:` followed by digits:
`parse` ends in `std::invalid_argument` (from `std::stoll` on the empty
capture) and no series, the one of position 1 included, gets a value. -/
theorem parse_unparseable_raises :
    parse ⟨[(0, []), (1, [])], [], 0, 1, -1, -1, -1, -1, -1, -1, -1⟩
        ["no number here".toList, "MemFree: 4 kB".toList] [(0, []), (1, [])] =
      .error .invalid_argument := by
  decide

/-- C9 (as stated) fails: the filter `Active` does not match the line
`MemTotal:  16384 kB`, the fallback pattern does, and the unit stored and
reported is `B`, not the suffix `kB` of the line. -/
theorem init_unit_counterexample :
    init [Re.str "Active".toList] ["MemTotal:  16384 kB".toList] =
      [⟨0, "MemTotal".toList, "B".toList⟩] ∧
    (get_metric_properties ⟨[], [], -1, -1, -1, -1, -1, -1, -1, -1, -1⟩
      (Re.str "Active".toList) ["MemTotal:  16384 kB".toList]).1 =
      [⟨"MemTotal".toList, [], "B".toList⟩] := by
  decide

theorem init_unit_witness :
    (⟨1, "MemFree".toList, "kB".toList⟩ : meminfo_t).name = "MemFree".toList ∧
    (" kB".toList = [] → (⟨1, "MemFree".toList, "kB".toList⟩ : meminfo_t).unit = []) ∧
    (∀ a b, " kB".toList = [' ', a, b] →
      ((regex_match ("MemFree".toList ++ ':' :: (" ".toList ++ ("4".toList ++ " kB".toList)))
          (regex_str [Re.str "MemFree".toList])).isSome →
        (⟨1, "MemFree".toList, "kB".toList⟩ : meminfo_t).unit = [a, b]) ∧
      (regex_match ("MemFree".toList ++ ':' :: (" ".toList ++ ("4".toList ++ " kB".toList)))
          (regex_str [Re.str "MemFree".toList]) = none →
        (⟨1, "MemFree".toList, "kB".toList⟩ : meminfo_t).unit = [b])) ∧
    (∀ st pattern, [Re.str "MemFree".toList] = [pattern] →
      ∀ p ∈ (get_metric_properties st pattern
          ["MemTotal: 16 kB".toList, "MemFree: 4 kB".toList]).1,
        ∃ id' ∈ init [Re.str "MemFree".toList]
            ["MemTotal: 16 kB".toList, "MemFree: 4 kB".toList],
          p.name = id'.name ∧ p.unit = id'.unit) :=
  init_unit [Re.str "MemFree".toList] ["MemTotal: 16 kB".toList, "MemFree: 4 kB".toList]
    ⟨1, "MemFree".toList, "kB".toList⟩ 1 "MemFree".toList " ".toList "4".toList " kB".toList
    (by decide) (by decide) rfl (by decide) (by decide) (by decide)
    (Or.inr ⟨'k', 'B', rfl, by decide, by decide⟩) (by decide)

/-! ## Registration of roles -/

theorem wrap32_id (x : Int) (h : inInt32 x) : wrap32 x = x := by
  unfold inInt32 at h
  unfold wrap32
  omega

/-- C13: `add_metric` on the role table. When the name is exactly one of
the nine role names, the position of that role becomes the `line_nr` of the
identity (a `line_nr` within `int`) and nothing else changes; for every other
name, `memtotal` among them, the state is unchanged. -/
theorem add_metric_roles (st : meminfo_plugin) (id_obj : meminfo_t)
    (hrange : inInt32 id_obj.line_nr) :
    (id_obj.name = "MemTotal".toList →
      add_metric st id_obj = { st with mem_total_pos := id_obj.line_nr }) ∧
    (id_obj.name = "MemFree".toList →
      add_metric st id_obj = { st with mem_free_pos := id_obj.line_nr }) ∧
    (id_obj.name = "Buffers".toList →
      add_metric st id_obj = { st with buffers_pos := id_obj.line_nr }) ∧
    (id_obj.name = "Cached".toList →
      add_metric st id_obj = { st with cached_pos := id_obj.line_nr }) ∧
    (id_obj.name = "SwapTotal".toList →
      add_metric st id_obj = { st with swap_total_pos := id_obj.line_nr }) ∧
    (id_obj.name = "SwapFree".toList →
      add_metric st id_obj = { st with swap_free_pos := id_obj.line_nr }) ∧
    (id_obj.name = "SwapCached".toList →
      add_metric st id_obj = { st with swap_cached_pos := id_obj.line_nr }) ∧
    (id_obj.name = "MemUsed".toList →
      add_metric st id_obj = { st with mem_used_pos := id_obj.line_nr }) ∧
    (id_obj.name = "SwapUsed".toList →
      add_metric st id_obj = { st with swap_used_pos := id_obj.line_nr }) ∧
    (id_obj.name ∉ roleNames → add_metric st id_obj = st) ∧
    (id_obj.name = "memtotal".toList → add_metric st id_obj = st) := by
  have hw := wrap32_id _ hrange
  have hnot : id_obj.name ∉ roleNames → add_metric st id_obj = st := by
    intro h
    simp only [roleNames, List.mem_cons, List.mem_singleton, List.not_mem_nil, or_false,
      not_or] at h
    obtain ⟨h1, h2, h3, h4, h5, h6, h7, h8, h9⟩ := h
    simp only [add_metric, h1, h2, h3, h4, h5, h6, h7, h8, h9, if_false]
  refine ⟨?_, ?_, ?_, ?_, ?_, ?_, ?_, ?_, ?_, hnot, ?_⟩
  · intro h; simp only [add_metric, h, hw]; rfl
  · intro h; simp only [add_metric, h, hw]; rfl
  · intro h; simp only [add_metric, h, hw]; rfl
  · intro h; simp only [add_metric, h, hw]; rfl
  · intro h; simp only [add_metric, h, hw]; rfl
  · intro h; simp only [add_metric, h, hw]; rfl
  · intro h; simp only [add_metric, h, hw]; rfl
  · intro h; simp only [add_metric, h, hw]; rfl
  · intro h; simp only [add_metric, h, hw]; rfl
  · intro h
    apply hnot
    rw [h]
    decide

/-! ## Lifecycle -/

theorem start_running (now : Int) (l : Lifecycle) (h : l.running = true) : start now l = l := by
  simp [start, h]

theorem stop_not_running (l : Lifecycle) (h : l.running = false) : stop l = l := by
  simp [stop, h]

theorem start_sets_running (now : Int) (l : Lifecycle) : (start now l).running = true := by
  unfold start
  split
  · assumption
  · rfl

theorem stop_clears_running (l : Lifecycle) : (stop l).running = false := by
  unfold stop
  split
  · rename_i h; simpa using h
  · rfl

/-- The number of background threads is `1` while running and `0`
otherwise; every lifecycle call keeps it so. -/
theorem run_threads (calls : List Call) :
    ∀ l : Lifecycle, l.threads = (if l.running then 1 else 0) →
      (l.run calls).threads = (if (l.run calls).running then 1 else 0) := by
  induction calls with
  | nil => intro l h; exact h
  | cons c rest ih =>
    intro l h
    cases c with
    | start now =>
      simp only [Lifecycle.run]
      apply ih
      cases hr : l.running with
      | true => rw [start_running now l hr, hr]; rw [hr] at h; exact h
      | false =>
        rw [hr] at h
        simp only [Bool.false_eq_true, if_false] at h
        simp [start, hr, h]
    | stop =>
      simp only [Lifecycle.run]
      apply ih
      cases hr : l.running with
      | false => rw [stop_not_running l hr, hr]; rw [hr] at h; exact h
      | true =>
        rw [hr] at h
        simp only [if_true] at h
        simp [stop, hr, h]

/-- C15: `start` and `stop` are idempotent on the lifecycle state. `start`
in a running state and `stop` in a state that is not running change nothing
(the deadline is not reset, no second thread is launched); so two `start`s
are one `start`, two `stop`s are one `stop`; and in every state reachable
from construction there is at most one background thread. -/
theorem lifecycle_idempotent :
    (∀ (now : Int) (l : Lifecycle), l.running = true → start now l = l) ∧
    (∀ l : Lifecycle, l.running = false → stop l = l) ∧
    (∀ (now1 now2 : Int) (l : Lifecycle), start now2 (start now1 l) = start now1 l) ∧
    (∀ l : Lifecycle, stop (stop l) = stop l) ∧
    (∀ (t0 : Int) (calls : List Call), ((Lifecycle.initial t0).run calls).threads ≤ 1) := by
  refine ⟨start_running, stop_not_running, ?_, ?_, ?_⟩
  · intro now1 now2 l
    exact start_running now2 _ (start_sets_running now1 l)
  · intro l
    exact stop_not_running _ (stop_clears_running l)
  · intro t0 calls
    have := run_threads calls (Lifecycle.initial t0) rfl
    rw [this]
    split <;> omega

theorem lifecycle_idempotent_witness :
    start 20 (start 10 (Lifecycle.initial 0)) = ⟨true, 10, 1⟩ ∧
    stop (stop (start 10 (Lifecycle.initial 0))) = ⟨false, 10, 0⟩ ∧
    ((Lifecycle.initial 0).run [.start 10, .start 20, .stop, .stop, .start 30]).threads ≤ 1 :=
  ⟨(lifecycle_idempotent.2.2.1 10 20 (Lifecycle.initial 0)).trans (by decide),
   (lifecycle_idempotent.2.2.2.1 (start 10 (Lifecycle.initial 0))).trans (by decide),
   lifecycle_idempotent.2.2.2.2 0 _⟩

/-! ## Bulk read -/

/-- The write loop when there are at least as many timestamps as values:
it pairs the rest of the values with the timestamps of the same index. -/
theorem writeLoop_zip (times values : List Int) (h : values.length ≤ times.length) :
    ∀ (fuel i : Nat) (out : List (Int × Int)), values.length < i + fuel →
      writeLoop times values fuel i out = .ok (out ++ (times.zip values).drop i) := by
  intro fuel
  induction fuel with
  | zero =>
    intro i out hf
    simp only [writeLoop]
    have : (times.zip values).drop i = [] := by
      apply List.drop_eq_nil_of_le
      simp only [List.length_zip]
      omega
    rw [this, List.append_nil]
  | succ n ih =>
    intro i out hf
    simp only [writeLoop]
    by_cases hi : i < values.length
    · have hit : i < times.length := by omega
      rw [List.getElem?_eq_getElem hi, List.getElem?_eq_getElem hit]
      simp only
      rw [ih (i + 1) _ (by omega)]
      have hz : i < (times.zip values).length := by
        simp only [List.length_zip]; omega
      rw [List.drop_eq_getElem_cons hz]
      simp [List.getElem_zip]
    · rw [List.getElem?_eq_none (by omega)]
      simp only
      have : (times.zip values).drop i = [] := by
        apply List.drop_eq_nil_of_le
        simp only [List.length_zip]
        omega
      rw [this, List.append_nil]

/-- With at least as many timestamps as values, the bulk read writes the
pairs `(T[i], V[i])` in increasing `i`, one per value. -/
theorem get_all_values_zip (st : meminfo_plugin) (id_obj : meminfo_t) (values : List Int)
    (hv : find st.values_by_id_ id_obj.line_nr = some values)
    (h : values.length ≤ st.times_.length) :
    get_all_values st id_obj = .ok (st.times_.zip values) ∧
      (st.times_.zip values).length = min st.times_.length values.length := by
  constructor
  · simp only [get_all_values, hv]
    rw [writeLoop_zip _ _ h _ _ _ (by omega)]
    simp
  · simp

/-- C12: the bulk read runs past the end of `times_` when a series is longer
than the timestamps. Discovery on a one-line source with the filter `MemUsed`
registers positions 0 and 1; one tick on a source that has got a second line
gives position 1 the value of that line and the derived value; the bulk read
of position 1 then evaluates `times_[1]` with one timestamp stored. -/
theorem get_all_values_out_of_range :
    (get_metric_properties ⟨[], [], -1, -1, -1, -1, -1, -1, -1, -1, -1⟩
        (Re.str "MemUsed".toList) ["MemTotal: 16 kB".toList]).2 =
      ⟨[(0, []), (1, [])], [], -1, -1, -1, -1, -1, -1, -1, -1, -1⟩ ∧
    add_metric (add_metric ⟨[(0, []), (1, [])], [], -1, -1, -1, -1, -1, -1, -1, -1, -1⟩
        ⟨0, "MemTotal".toList, "B".toList⟩) ⟨1, "MemUsed".toList, "B".toList⟩ =
      ⟨[(0, []), (1, [])], [], 0, -1, -1, -1, -1, -1, -1, 1, -1⟩ ∧
    tick ⟨[(0, []), (1, [])], [], 0, -1, -1, -1, -1, -1, -1, 1, -1⟩
        ["MemTotal: 16 kB".toList, "MemFree: 4 kB".toList] 10 =
      .ok ⟨[(0, [16384]), (1, [4096, 0])], [10], 0, -1, -1, -1, -1, -1, -1, 1, -1⟩ ∧
    get_all_values ⟨[(0, [16384]), (1, [4096, 0])], [10], 0, -1, -1, -1, -1, -1, -1, 1, -1⟩
        ⟨1, "MemUsed".toList, "B".toList⟩ = .error .index_out_of_range := by
  decide

/-! ## Configuration -/

theorem single_test (c ch : Char) (h : (Cls.pos [(c, c)]).test ch = true) : ch = c := by
  simp only [Cls.test, inRanges, List.any_cons, List.any_nil, Bool.or_false,
    Bool.and_eq_true, decide_eq_true_eq] at h
  exact le_antisymm h.2 h.1

theorem mun_test (ch : Char)
    (h : (Cls.pos [('m', 'm'), ('u', 'u'), ('n', 'n')]).test ch = true) :
    ch = 'm' ∨ ch = 'u' ∨ ch = 'n' := by
  simp only [Cls.test, inRanges, List.any_cons, List.any_nil, Bool.or_false,
    Bool.or_eq_true, Bool.and_eq_true, decide_eq_true_eq] at h
  rcases h with h | h | h
  · exact Or.inl (le_antisymm h.2 h.1)
  · exact Or.inr (Or.inl (le_antisymm h.2 h.1))
  · exact Or.inr (Or.inr (le_antisymm h.2 h.1))

/-- Every complete match of the interval pattern splits the string into a
non-empty run of digits, captured by group 1, and one of `s`, `ms`, `us`,
`ns`, captured by group 2. -/
theorem interval_inv (s : Str) (x : MState) (hx : x ∈ regex_interval.ms 1 s [])
    (he : x.1 = []) :
    ∃ d u, s = d ++ u ∧ d ≠ [] ∧ (∀ ch ∈ d, isdigit ch = true) ∧
      (u = ['s'] ∨ u = ['m', 's'] ∨ u = ['u', 's'] ∨ u = ['n', 's']) ∧
      x.2 = [(2, u), (1, d)] := by
  obtain ⟨y, hy, hxy⟩ := (mem_seq _ _ _ _ _ _).1 hx
  obtain ⟨z, hz, ey⟩ := (mem_group _ _ _ _ _).1 hy
  obtain ⟨ez, d, hd1, hd2, hd3⟩ := (mem_plus_chr _ _ _ _ _).1 hz
  obtain ⟨w, hw, ex⟩ := (mem_group _ _ _ _ _).1 hxy
  obtain ⟨v, hv, hwv⟩ := (mem_seq _ _ _ _ _ _).1 hw
  obtain ⟨ch, h1, h2, h3⟩ := (mem_chr _ _ _ _ _).1 hwv
  have hch := single_test 's' ch h2
  subst hch
  have hw1 : w.1 = [] := by rw [ex] at he; exact he
  rw [hw1] at h1
  have hy1 : y.1 = z.1 := by rw [ey]
  have hy2 : y.2 = [(1, d)] := by
    rw [ey, ez]
    simp only [List.cons.injEq, Prod.mk.injEq, true_and, and_true]
    rw [hd2]; simp
  have hu : y.1 = ['s'] ∨ y.1 = ['m', 's'] ∨ y.1 = ['u', 's'] ∨ y.1 = ['n', 's'] := by
    rcases (mem_opt _ _ _ _ _).1 hv with hc | hc
    · obtain ⟨c, g1, g2, _⟩ := (mem_chr _ _ _ _ _).1 hc
      rw [h1] at g1
      rcases mun_test c g2 with e | e | e <;> subst e
      · exact Or.inr (Or.inl g1)
      · exact Or.inr (Or.inr (Or.inl g1))
      · exact Or.inr (Or.inr (Or.inr g1))
    · left
      rw [hc] at h1
      exact h1
  have hv2 : v.2 = y.2 := by
    rcases (mem_opt _ _ _ _ _).1 hv with hc | hc
    · exact ((mem_chr _ _ _ _ _).1 hc).choose_spec.2.2
    · rw [hc]
  refine ⟨d, y.1, by rw [hy1]; exact hd2, hd1,
    fun c hc => by rw [← isdigit_digit]; exact hd3 c hc, hu, ?_⟩
  rw [ex, hw1, h3, hv2, hy2]
  simp [Re.ngroups]

theorem unit_head_not_digit (u : Str)
    (hu : u = ['s'] ∨ u = ['m', 's'] ∨ u = ['u', 's'] ∨ u = ['n', 's']) :
    ∃ c t, u = c :: t ∧ isdigit c = false := by
  rcases hu with h | h | h | h <;> subst h <;> exact ⟨_, _, rfl, by decide⟩

/-- Two splits of a string into digits and a rest that starts with another
character are the same split. -/
theorem digits_split_unique (d1 d2 u1 u2 : Str) (c1 c2 : Char) (t1 t2 : Str)
    (h : d1 ++ u1 = d2 ++ u2)
    (hd1 : ∀ ch ∈ d1, isdigit ch = true) (hd2 : ∀ ch ∈ d2, isdigit ch = true)
    (hu1 : u1 = c1 :: t1) (hc1 : isdigit c1 = false)
    (hu2 : u2 = c2 :: t2) (hc2 : isdigit c2 = false) :
    d1 = d2 ∧ u1 = u2 := by
  rcases List.append_eq_append_iff.1 h with ⟨a', e1, e2⟩ | ⟨c', e1, e2⟩
  · cases a' with
    | nil => simp only [List.append_nil] at e1; simp only [List.nil_append] at e2
             exact ⟨e1.symm, e2⟩
    | cons y ys =>
      exfalso
      rw [hu1] at e2
      simp only [List.cons_append, List.cons.injEq] at e2
      have := hd2 y (by rw [e1]; simp)
      rw [← e2.1, hc1] at this
      cases this
  · cases c' with
    | nil => simp only [List.append_nil] at e1; simp only [List.nil_append] at e2
             exact ⟨e1, e2.symm⟩
    | cons y ys =>
      exfalso
      rw [hu2] at e2
      simp only [List.cons_append, List.cons.injEq] at e2
      have := hd1 y (by rw [e1]; simp)
      rw [← e2.1, hc2] at this
      cases this

theorem unit_group_accepts (b : Nat) (c : Caps) (u : Str)
    (hu : u = ['s'] ∨ u = ['m', 's'] ∨ u = ['u', 's'] ∨ u = ['n', 's']) :
    ∃ x ∈ (Re.group (.seq (.opt (.chr (.pos [('m', 'm'), ('u', 'u'), ('n', 'n')])))
      (.chr (.pos [('s', 's')])))).ms b u c, x.1 = [] := by
  have hs : ∀ (b' : Nat), (([], c) : MState) ∈
      (Re.chr (.pos [('s', 's')])).ms b' ['s'] c := fun b' =>
    (mem_chr _ b' _ _ _).2 ⟨'s', rfl, by decide, rfl⟩
  have key : (([], c) : MState) ∈ (Re.seq (.opt (.chr (.pos [('m', 'm'), ('u', 'u'), ('n', 'n')])))
      (.chr (.pos [('s', 's')]))).ms (b + 1) u c := by
    rcases hu with h | h | h | h <;> subst h
    · exact (mem_seq _ _ _ _ _ _).2 ⟨(['s'], c), (mem_opt _ _ _ _ _).2 (Or.inr rfl), hs _⟩
    · exact (mem_seq _ _ _ _ _ _).2 ⟨(['s'], c), (mem_opt _ _ _ _ _).2
        (Or.inl ((mem_chr _ _ _ _ _).2 ⟨'m', rfl, by decide, rfl⟩)), hs _⟩
    · exact (mem_seq _ _ _ _ _ _).2 ⟨(['s'], c), (mem_opt _ _ _ _ _).2
        (Or.inl ((mem_chr _ _ _ _ _).2 ⟨'u', rfl, by decide, rfl⟩)), hs _⟩
    · exact (mem_seq _ _ _ _ _ _).2 ⟨(['s'], c), (mem_opt _ _ _ _ _).2
        (Or.inl ((mem_chr _ _ _ _ _).2 ⟨'n', rfl, by decide, rfl⟩)), hs _⟩
  exact ⟨_, (mem_group _ _ _ _ _).2 ⟨([], c), key, rfl⟩, rfl⟩

/-- The interval pattern accepts digits followed by a unit. -/
theorem interval_accepts (d u : Str) (hd : d ≠ [] ∧ ∀ ch ∈ d, isdigit ch = true)
    (hu : u = ['s'] ∨ u = ['m', 's'] ∨ u = ['u', 's'] ∨ u = ['n', 's']) :
    ∃ x ∈ regex_interval.ms 1 (d ++ u) [], x.1 = [] := by
  have h1 : ((u, [(1, d)]) : MState) ∈ (Re.group (.plus (.chr digit))).ms 1 (d ++ u) [] := by
    refine (mem_group _ _ _ _ _).2 ⟨(u, []), ?_, ?_⟩
    · exact (mem_plus_chr _ _ _ _ _).2
        ⟨rfl, d, hd.1, rfl, fun ch h => by rw [isdigit_digit]; exact hd.2 ch h⟩
    · simp
  unfold regex_interval
  exact seq_accepts _ _ _ _ _ _ h1 (unit_group_accepts _ _ u hu)

/-- The match of the interval pattern on digits followed by a unit: group 1
is the digits, group 2 the unit. -/
theorem interval_match (d u : Str) (hd : d ≠ [] ∧ ∀ ch ∈ d, isdigit ch = true)
    (hu : u = ['s'] ∨ u = ['m', 's'] ∨ u = ['u', 's'] ∨ u = ['n', 's']) :
    regex_match (d ++ u) regex_interval = some [(2, u), (1, d)] := by
  obtain ⟨x, hx, he⟩ := interval_accepts d u hd hu
  have hsome := regex_match_isSome _ _ x hx he
  cases hm : regex_match (d ++ u) regex_interval with
  | none => simp [hm] at hsome
  | some c =>
    obtain ⟨y, hy, hy1, hy2⟩ := regex_match_some _ _ _ hm
    obtain ⟨d', u', hs, _, hd', hu', hc⟩ := interval_inv _ y hy hy1
    obtain ⟨c1, t1, e1, n1⟩ := unit_head_not_digit u hu
    obtain ⟨c2, t2, e2, n2⟩ := unit_head_not_digit u' hu'
    obtain ⟨ed, eu⟩ := digits_split_unique d d' u u' c1 c2 t1 t2 hs hd.2 hd' e1 n1 e2 n2
    rw [← hy2, hc, ed, eu]

/-- The call `std::stoll` on a non-empty run of digits. -/
theorem stoll_digits (d : Str) (hd : d ≠ [] ∧ ∀ ch ∈ d, isdigit ch = true) :
    stoll d = if (2 : Int) ^ 63 - 1 < decimal d then .error .out_of_range
      else .ok (decimal d : Int) := by
  cases d with
  | nil => exact absurd rfl hd.1
  | cons g gs =>
    have hg := hd.2 g (List.mem_cons_self _ _)
    have hg' := hg
    simp only [isdigit, Bool.and_eq_true, decide_eq_true_eq] at hg'
    have hsp : isspace g = false := by
      cases hs : isspace g with
      | false => rfl
      | true =>
        exfalso
        rcases isspace_cases g hs with h | h | h | h | h | h <;> subst h <;>
          exact absurd hg (by decide)
    have hm : g ≠ '-' := by
      intro e; subst e; exact absurd hg (by decide)
    have hp : g ≠ '+' := by
      intro e; subst e; exact absurd hg (by decide)
    have htw : List.takeWhile isdigit (g :: gs) = g :: gs := by
      rw [List.takeWhile_eq_self_iff]
      exact hd.2
    have hdw : List.dropWhile isspace (g :: gs) = g :: gs := by
      simp [List.dropWhile, hsp]
    have hsigned : (match g :: gs with
        | '-' :: t => (true, t)
        | '+' :: t => (false, t)
        | _ => (false, g :: gs)) = (false, g :: gs) := by
      split
      · rename_i t h; simp only [List.cons.injEq] at h; exact absurd h.1 hm
      · rename_i t h; simp only [List.cons.injEq] at h; exact absurd h.1 hp
      · rfl
    unfold stoll
    simp only [hdw, hsigned, htw, List.isEmpty_cons, Bool.false_eq_true, if_false]
    have hnn : ¬ ((decimal (g :: gs) : Int) < -(2 ^ 63)) := by
      have : (0 : Int) ≤ decimal (g :: gs) := Int.natCast_nonneg _
      omega
    by_cases hbig : (2 : Int) ^ 63 - 1 < decimal (g :: gs)
    · rw [if_pos (Or.inr hbig), if_pos hbig]
    · rw [if_neg (not_or.2 ⟨hnn, hbig⟩), if_neg hbig]

/-- The constructor on a well-formed string whose number fits `long`: the
interval is the number of seconds, milliseconds, microseconds or nanoseconds,
converted to nanoseconds in `std::int64_t`. -/
theorem ctor_valid (uninit : Int) (d : Str) (hd : d ≠ [] ∧ ∀ ch ∈ d, isdigit ch = true)
    (hn : (decimal d : Int) ≤ 2 ^ 63 - 1) :
    ctor uninit (d ++ ['s']) = .ok (wrap64 ((decimal d : Int) * 1000000000)) ∧
    ctor uninit (d ++ ['m', 's']) = .ok (wrap64 ((decimal d : Int) * 1000000)) ∧
    ctor uninit (d ++ ['u', 's']) = .ok (wrap64 ((decimal d : Int) * 1000)) ∧
    ctor uninit (d ++ ['n', 's']) = .ok (decimal d : Int) := by
  have hst : stol d = .ok (decimal d : Int) := by
    unfold stol
    rw [stoll_digits d hd, if_neg (by omega)]
  refine ⟨?_, ?_, ?_, ?_⟩
  · simp [ctor, interval_match d _ hd (Or.inl rfl), sub, List.lookup_cons, hst]
  · simp [ctor, interval_match d _ hd (Or.inr (Or.inl rfl)), sub, List.lookup_cons, hst]
  · simp [ctor, interval_match d _ hd (Or.inr (Or.inr (Or.inl rfl))), sub, List.lookup_cons, hst]
  · simp [ctor, interval_match d _ hd (Or.inr (Or.inr (Or.inr rfl))), sub, List.lookup_cons, hst]

/-- The constructor on every other string: the interval is 10 ms. -/
theorem ctor_malformed (uninit : Int) (s : Str)
    (h : ¬ ∃ d u, s = d ++ u ∧ d ≠ [] ∧ (∀ ch ∈ d, isdigit ch = true) ∧
      (u = ['s'] ∨ u = ['m', 's'] ∨ u = ['u', 's'] ∨ u = ['n', 's'])) :
    ctor uninit s = .ok 10000000 := by
  cases hm : regex_match s regex_interval with
  | none => simp [ctor, hm]
  | some c =>
    exfalso
    obtain ⟨y, hy, hy1, _⟩ := regex_match_some _ _ _ hm
    obtain ⟨d, u, hs, hd1, hd2, hu, _⟩ := interval_inv _ y hy hy1
    exact h ⟨d, u, hs, hd1, hd2, hu⟩

/-- The constructor on a well-formed string whose number does not fit
`long`: `std::stol` raises `std::out_of_range`. -/
theorem ctor_out_of_range (uninit : Int) (d u : Str)
    (hd : d ≠ [] ∧ ∀ ch ∈ d, isdigit ch = true)
    (hu : u = ['s'] ∨ u = ['m', 's'] ∨ u = ['u', 's'] ∨ u = ['n', 's'])
    (hn : (2 : Int) ^ 63 - 1 < decimal d) :
    ctor uninit (d ++ u) = .error .out_of_range := by
  have hst : stol d = .error .out_of_range := by
    unfold stol
    rw [stoll_digits d hd, if_pos hn]
  rcases hu with h | h | h | h <;> subst h
  · simp [ctor, interval_match d _ hd (Or.inl rfl), sub, List.lookup_cons, hst]
  · simp [ctor, interval_match d _ hd (Or.inr (Or.inl rfl)), sub, List.lookup_cons, hst]
  · simp [ctor, interval_match d _ hd (Or.inr (Or.inr (Or.inl rfl))), sub, List.lookup_cons, hst]
  · simp [ctor, interval_match d _ hd (Or.inr (Or.inr (Or.inr rfl))), sub, List.lookup_cons, hst]

/-! ## Scheduling -/

theorem wrap64_id' (x : Int) (h1 : -(2 ^ 63) ≤ x) (h2 : x < 2 ^ 63) : wrap64 x = x := by
  unfold wrap64
  omega

/-- The advance loop under a clock that reads `t` throughout: by induction
on the distance of the deadline from `t`. -/
theorem advance_const (intervall_ t : Int) (hpos : 0 < intervall_)
    (ht : t + intervall_ < 2 ^ 63) :
    ∀ (m : Nat) (d : Int), t - d ≤ m → -(2 ^ 63) ≤ d →
      ∃ k : Nat,
        (∀ fuel i, k < fuel →
          advance intervall_ (fun _ => t) fuel i d = some (d + k * intervall_, i + k + 1)) ∧
        t ≤ d + k * intervall_ ∧ (k = 0 ∨ d + k * intervall_ - intervall_ < t) := by
  intro m
  induction m with
  | zero =>
    intro d hm _
    refine ⟨0, ?_, by simp at hm ⊢; omega, Or.inl rfl⟩
    intro fuel i hf
    cases fuel with
    | zero => omega
    | succ n =>
      have : ¬ d < t := by simp at hm; omega
      simp [advance, this]
  | succ m ih =>
    intro d hm hd
    by_cases hlt : d < t
    · obtain ⟨k, hk1, hk2, hk3⟩ := ih (d + intervall_) (by push_cast at hm; omega) (by omega)
      refine ⟨k + 1, ?_, ?_, Or.inr ?_⟩
      · intro fuel i hf
        cases fuel with
        | zero => omega
        | succ n =>
          simp only [advance, hlt, if_true]
          rw [wrap64_id' (d + intervall_) (by omega) (by omega), hk1 n (i + 1) (by omega)]
          congr 2
          · push_cast; ring
          · omega
      · push_cast; linarith
      · rcases hk3 with h0 | h1
        · subst h0
          push_cast
          simp only [zero_add, one_mul]
          omega
        · push_cast
          linarith
    · refine ⟨0, ?_, by simp; omega, Or.inl rfl⟩
      intro fuel i hf
      cases fuel with
      | zero => omega
      | succ n => simp [advance, hlt]

/-- C11: drift correction. For a positive interval, a deadline `d` and a
clock that reads `t` (with `d` and `t + intervall_` within `std::int64_t`),
the advance loop of `exec` ends and leaves the deadline `d + k * intervall_`
for the least natural `k` that brings it to `t` or later; it stays a multiple
of the interval away from the start; and the iteration of `exec` has run
`parse` once, whatever `k` is. -/
theorem exec_drift_correction (intervall_ d t : Int)
    (hpos : 0 < intervall_) (hd : -(2 ^ 63) ≤ d) (ht : t + intervall_ < 2 ^ 63) :
    ∃ k : Nat,
      (∀ fuel i, k < fuel →
        advance intervall_ (fun _ => t) fuel i d = some (d + k * intervall_, i + k + 1)) ∧
      t ≤ d + k * intervall_ ∧
      (k = 0 ∨ d + k * intervall_ - intervall_ < t) ∧
      (∀ start m : Int, d = start + m * intervall_ →
        d + k * intervall_ = start + (m + k) * intervall_) ∧
      (∀ (st st1 : meminfo_plugin) (lines : List Str) (stamp : Int) (fuel : Nat),
        tick st lines stamp = .ok st1 → k < fuel →
        exec_iteration st intervall_ d lines stamp (fun _ => t) fuel =
          .ok (some (st1, d + k * intervall_))) := by
  obtain ⟨k, h1, h2, h3⟩ := advance_const intervall_ t hpos ht (t - d).toNat d (by omega) hd
  refine ⟨k, h1, h2, h3, ?_, ?_⟩
  · intro start m hs
    rw [hs]; ring
  · intro st st1 lines stamp fuel htick hf
    simp only [exec_iteration, htick, h1 fuel 0 hf, Option.map_some']

theorem exec_drift_correction_witness :
    ∃ k : Nat,
      (∀ fuel i, k < fuel →
        advance 10 (fun _ => 35) fuel i 0 = some ((0 : Int) + k * 10, i + k + 1)) ∧
      (35 : Int) ≤ 0 + k * 10 ∧
      (k = 0 ∨ (0 : Int) + k * 10 - 10 < 35) ∧
      (∀ start m : Int, 0 = start + m * 10 → (0 : Int) + k * 10 = start + (m + k) * 10) ∧
      (∀ (st st1 : meminfo_plugin) (lines : List Str) (stamp : Int) (fuel : Nat),
        tick st lines stamp = .ok st1 → k < fuel →
        exec_iteration st 10 0 lines stamp (fun _ => 35) fuel =
          .ok (some (st1, (0 : Int) + k * 10))) :=
  exec_drift_correction 10 0 35 (by decide) (by decide) (by decide)

/-- With interval `0` the advance loop never ends while the deadline is
behind the clock. -/
theorem advance_zero_diverges (clock : Nat → Int) (last : Int)
    (h1 : -(2 ^ 63) ≤ last) (h2 : last < 2 ^ 63) (hb : ∀ i, last < clock i) :
    ∀ fuel i, advance 0 clock fuel i last = none := by
  intro fuel
  induction fuel with
  | zero => intro i; rfl
  | succ n ih =>
    intro i
    simp only [advance, hb i, if_true, add_zero]
    rw [wrap64_id' last h1 h2]
    exact ih (i + 1)

/-- C17: the advance loop does not end for the interval of the
configuration string `0s`. The constructor accepts the string and sets the
interval `0`; with the deadline `0` behind a clock that reads `1`, the loop
is still running after any number of tests. -/
theorem advance_zero_interval :
    ctor 0 "0s".toList = .ok 0 ∧
    ∀ fuel i, advance 0 (fun _ => 1) fuel i 0 = none :=
  ⟨by decide, advance_zero_diverges (fun _ => 1) 0 (by decide) (by decide) (by intro i; show (0 : Int) < 1; decide)⟩

/-- C14: the constructor raises on a well-formed configuration string. The
string `99999999999999999999s` matches the pattern and `std::stol` raises
`std::out_of_range` on its digits; for `9223372037s` the conversion to
nanoseconds overflows and the interval is not 9223372037 seconds. -/
theorem ctor_raises :
    ctor 0 "99999999999999999999s".toList = .error .out_of_range ∧
    ctor 0 "9223372037s".toList = .ok (-9223372036709551616) := by
  decide

/-! ## Registration of positions -/

theorem get_metric_properties_eq (st : meminfo_plugin) (pattern : Re) (lines : List Str) :
    get_metric_properties st pattern lines =
      (init [pattern] lines).foldl registerStep ([], st) := rfl

theorem find_append_some (d e : Data) (k : Int) (xs : List Int) (h : find d k = some xs) :
    find (d ++ e) k = some xs := by
  induction d with
  | nil => simp [find] at h
  | cons a as ih =>
    obtain ⟨a1, a2⟩ := a
    simp only [find, List.cons_append, List.lookup_cons] at h ih ⊢
    cases hka : (k == a1) with
    | true => simpa [hka] using h
    | false =>
      simp only [hka] at h ⊢
      exact ih h

theorem find_append_none (d : Data) (k j : Int) (xs : List Int) (h : find d k = none) :
    find (d ++ [(j, xs)]) k = if k = j then some xs else none := by
  induction d with
  | nil =>
    simp only [find, List.nil_append, List.lookup_cons, List.lookup_nil]
    by_cases hkj : k = j
    · simp [hkj]
    · have : (k == j) = false := by simpa using hkj
      simp [this, hkj]
  | cons a as ih =>
    obtain ⟨a1, a2⟩ := a
    simp only [find, List.cons_append, List.lookup_cons] at h ih ⊢
    cases hka : (k == a1) with
    | true => simp [hka] at h
    | false =>
      simp only [hka] at h ⊢
      exact ih h

theorem find_emplace (d : Data) (j k : Int) :
    find (emplace d j) k =
      match find d k with
      | some xs => some xs
      | none => if k = j then some [] else none := by
  unfold emplace
  cases hj : find d j with
  | some ys =>
    simp only
    cases hk : find d k with
    | some xs => rfl
    | none =>
      simp only
      split
      · rename_i e; subst e; rw [hj] at hk; cases hk
      · rfl
  | none =>
    simp only
    cases hk : find d k with
    | some xs => exact find_append_some d _ k xs hk
    | none => exact find_append_none d k j [] hk

theorem registerStep_find (acc : List metric_property × meminfo_plugin) (m : meminfo_t)
    (k : Int) :
    find (registerStep acc m).2.values_by_id_ k =
      match find acc.2.values_by_id_ k with
      | some xs => some xs
      | none => if k = m.line_nr then some [] else none := by
  unfold registerStep
  cases hm : find acc.2.values_by_id_ m.line_nr with
  | some ys =>
    simp only
    cases hk : find acc.2.values_by_id_ k with
    | some xs => rfl
    | none =>
      simp only
      split
      · rename_i e; subst e; rw [hm] at hk; cases hk
      · rfl
  | none =>
    simp only
    exact find_emplace _ _ _

/-- The loop of `get_metric_properties` keeps every series it finds. -/
theorem register_keeps (ms : List meminfo_t) :
    ∀ (acc : List metric_property × meminfo_plugin) (k : Int) (xs : List Int),
      find acc.2.values_by_id_ k = some xs →
      find (ms.foldl registerStep acc).2.values_by_id_ k = some xs := by
  induction ms with
  | nil => intro acc k xs h; exact h
  | cons m rest ih =>
    intro acc k xs h
    simp only [List.foldl_cons]
    apply ih
    rw [registerStep_find, h]

/-- After the loop every identity it went through has a series. -/
theorem register_all (ms : List meminfo_t) :
    ∀ (acc : List metric_property × meminfo_plugin),
      ∀ m ∈ ms, (find (ms.foldl registerStep acc).2.values_by_id_ m.line_nr).isSome := by
  induction ms with
  | nil => intro acc m hm; cases hm
  | cons m0 rest ih =>
    intro acc m hm
    simp only [List.foldl_cons]
    rcases List.mem_cons.1 hm with h | h
    · subst h
      have hs : ∃ xs, find (registerStep acc m).2.values_by_id_ m.line_nr = some xs := by
        rw [registerStep_find]
        cases find acc.2.values_by_id_ m.line_nr with
        | some xs => exact ⟨xs, rfl⟩
        | none => exact ⟨[], by simp⟩
      obtain ⟨xs, hxs⟩ := hs
      rw [register_keeps rest _ _ xs hxs]
      rfl
    · exact ih _ m h

/-- What the loop reports: every new descriptor belongs to an identity whose
position had no series before, and has the empty series afterwards. -/
theorem register_reports (ms : List meminfo_t) :
    ∀ (acc : List metric_property × meminfo_plugin),
      ∀ p ∈ (ms.foldl registerStep acc).1, p ∈ acc.1 ∨
        ∃ m ∈ ms, p = ⟨m.name, [], m.unit⟩ ∧ find acc.2.values_by_id_ m.line_nr = none ∧
          find (ms.foldl registerStep acc).2.values_by_id_ m.line_nr = some [] := by
  induction ms with
  | nil => intro acc p hp; exact Or.inl hp
  | cons m0 rest ih =>
    intro acc p hp
    simp only [List.foldl_cons] at hp ⊢
    rcases ih _ p hp with h | ⟨m, hm, hpm, hnone, hempty⟩
    · -- reported by the step for `m0`, or before
      cases hf : find acc.2.values_by_id_ m0.line_nr with
      | some ys =>
        have : registerStep acc m0 = acc := by simp [registerStep, hf]
        rw [this] at h
        exact Or.inl h
      | none =>
        have h1 : (registerStep acc m0).1 = acc.1 ++ [⟨m0.name, [], m0.unit⟩] := by
          simp [registerStep, hf]
        rw [h1] at h
        rcases List.mem_append.1 h with h | h
        · exact Or.inl h
        · simp only [List.mem_singleton] at h
          refine Or.inr ⟨m0, List.mem_cons_self _ _, h, hf, ?_⟩
          apply register_keeps
          rw [registerStep_find, hf]
          simp
    · refine Or.inr ⟨m, List.mem_cons_of_mem _ hm, hpm, ?_, hempty⟩
      rw [registerStep_find] at hnone
      cases hk : find acc.2.values_by_id_ m.line_nr with
      | some xs => simp [hk] at hnone
      | none => rfl

/-- When every identity has a series already, the loop reports nothing and
changes nothing. -/
theorem register_nothing (ms : List meminfo_t) :
    ∀ (acc : List metric_property × meminfo_plugin),
      (∀ m ∈ ms, (find acc.2.values_by_id_ m.line_nr).isSome) →
      ms.foldl registerStep acc = acc := by
  induction ms with
  | nil => intro acc _; rfl
  | cons m0 rest ih =>
    intro acc h
    simp only [List.foldl_cons]
    have h0 := h m0 (List.mem_cons_self _ _)
    have : registerStep acc m0 = acc := by
      unfold registerStep
      cases hf : find acc.2.values_by_id_ m0.line_nr with
      | some ys => rfl
      | none => simp [hf] at h0
    rw [this]
    exact ih acc (fun m hm => h m (List.mem_cons_of_mem _ hm))

/-- C19: `get_metric_properties` registers a position at most once. Each
descriptor it returns belongs to an identity of `init` whose position was no
key before the call and has the empty series after it; every series that
existed before the call is kept as it is; and a later call with the same
pattern on the same source, in any state that still has the keys, returns no
descriptor, whatever calls were made in between. A later call with any
pattern reports no position that the first call went through. -/
theorem get_metric_properties_once (st : meminfo_plugin) (pattern : Re) (lines : List Str) :
    (∀ p ∈ (get_metric_properties st pattern lines).1,
      ∃ id ∈ init [pattern] lines, p = ⟨id.name, [], id.unit⟩ ∧
        find st.values_by_id_ id.line_nr = none ∧
        find (get_metric_properties st pattern lines).2.values_by_id_ id.line_nr = some []) ∧
    (∀ k xs, find st.values_by_id_ k = some xs →
      find (get_metric_properties st pattern lines).2.values_by_id_ k = some xs) ∧
    (get_metric_properties (get_metric_properties st pattern lines).2 pattern lines).1 = [] ∧
    (∀ st' : meminfo_plugin,
      (∀ k, (find (get_metric_properties st pattern lines).2.values_by_id_ k).isSome →
        (find st'.values_by_id_ k).isSome) →
      (get_metric_properties st' pattern lines).1 = [] ∧
      ∀ (pattern' : Re), ∀ p ∈ (get_metric_properties st' pattern' lines).1,
        ∃ id ∈ init [pattern'] lines, p = ⟨id.name, [], id.unit⟩ ∧
          ∀ id0 ∈ init [pattern] lines, id.line_nr ≠ id0.line_nr) := by
  have hall := register_all (init [pattern] lines) ([], st)
  have hlater : ∀ st' : meminfo_plugin,
      (∀ k, (find (get_metric_properties st pattern lines).2.values_by_id_ k).isSome →
        (find st'.values_by_id_ k).isSome) →
      (get_metric_properties st' pattern lines).1 = [] := by
    intro st' hk
    rw [get_metric_properties_eq, register_nothing]
    intro m hm
    exact hk _ (hall m hm)
  refine ⟨?_, ?_, ?_, ?_⟩
  · intro p hp
    rcases register_reports (init [pattern] lines) ([], st) p hp with h | ⟨m, hm, h1, h2, h3⟩
    · cases h
    · exact ⟨m, hm, h1, h2, h3⟩
  · intro k xs h
    exact register_keeps (init [pattern] lines) ([], st) k xs h
  · exact hlater _ (fun _ h => h)
  · intro st' hk
    refine ⟨hlater st' hk, ?_⟩
    intro pattern' p hp
    rcases register_reports (init [pattern'] lines) ([], st') p hp with h | ⟨m, hm, h1, h2, _⟩
    · cases h
    · refine ⟨m, hm, h1, ?_⟩
      intro id0 hid0 heq
      have := hk _ (hall id0 hid0)
      rw [← heq, h2] at this
      cases this

/-! ## One value per tracked series -/

theorem push_back_keys (d : Data) (k v : Int) :
    (push_back d k v).map Prod.fst = d.map Prod.fst := by
  induction d with
  | nil => rfl
  | cons e es ih =>
    simp only [push_back, List.map_cons] at ih ⊢
    rw [ih]
    split <;> rfl

theorem scanLines_keys (st : meminfo_plugin) (L : List Str) :
    ∀ (s : Int) (d : Data) (r : Regs) (d' : Data) (r' : Regs),
      scanLines st L s d r = .ok (d', r') → d'.map Prod.fst = d.map Prod.fst := by
  induction L with
  | nil =>
    intro s d r d' r' h
    simp only [scanLines, Except.ok.injEq, Prod.mk.injEq] at h
    rw [← h.1]
  | cons l rest ih =>
    intro s d r d' r' h
    unfold scanLines at h
    cases hf : find d s with
    | none =>
      simp only [hf] at h
      exact ih _ _ _ _ _ h
    | some xs =>
      simp only [hf] at h
      cases hv : lineValue l with
      | error e => simp [hv] at h
      | ok v =>
        simp only [hv] at h
        rw [ih _ _ _ _ _ h, push_back_keys]

/-- The keys of the store, in order, are the same after a completed
`parse`. -/
theorem parse_keys (st : meminfo_plugin) (lines : List Str) (data data' : Data)
    (h : parse st lines data = .ok data') : data'.map Prod.fst = data.map Prod.fst := by
  obtain ⟨d, r, hs, hd⟩ := parse_inv st lines data data' h
  rw [hd, ← scanLines_keys st lines 0 data Regs.init d r hs]
  unfold swapUsedBlock memUsedBlock
  split <;> split <;> simp only [push_back_keys]

/-- C18: one `parse` on a source with `n` lines, when every tracked key is a
line that parses, or the position `n` registered as used-memory position, or
the position `n + 1` registered as used-swap position (the two roles being
unassigned otherwise): `parse` completes, every tracked series gets exactly
one new last element, its earlier elements stay, and the keys are the
same. -/
theorem parse_appends_one (st : meminfo_plugin) (lines : List Str)
    (hm : st.mem_used_pos = -1 ∨ st.mem_used_pos = (lines.length : Int))
    (hs : st.swap_used_pos = -1 ∨ st.swap_used_pos = (lines.length : Int) + 1)
    (hkeys : ∀ e ∈ st.values_by_id_,
      (∃ line, lineAt lines e.1 = some line ∧ parses line = true) ∨
      (e.1 = (lines.length : Int) ∧ st.mem_used_pos = (lines.length : Int)) ∨
      (e.1 = (lines.length : Int) + 1 ∧ st.swap_used_pos = (lines.length : Int) + 1)) :
    ∃ data', parse st lines st.values_by_id_ = .ok data' ∧
      (∀ k xs, find st.values_by_id_ k = some xs → ∃ v, find data' k = some (xs ++ [v])) ∧
      (∀ k, find st.values_by_id_ k = none → find data' k = none) ∧
      data'.map Prod.fst = st.values_by_id_.map Prod.fst := by
  have hline : ∀ (k : Int) (line : Str), lineAt lines k = some line →
      0 ≤ k ∧ k < (lines.length : Int) := by
    intro k line hl
    unfold lineAt at hl
    split at hl
    · rename_i h0
      refine ⟨h0, ?_⟩
      by_contra hcon
      rw [List.getElem?_eq_none (by omega)] at hl
      cases hl
    · cases hl
  have hnone : ∀ k : Int, (lines.length : Int) ≤ k → lineAt lines k = none := by
    intro k hk
    cases hl : lineAt lines k with
    | none => rfl
    | some line => have := (hline k line hl).2; omega
  have hcov : coveredOnce st lines := by
    intro e he
    unfold coveredAt
    rcases hkeys e he with ⟨line, hl, hp⟩ | ⟨h1, h2⟩ | ⟨h1, h2⟩
    · have hb := hline _ _ hl
      rw [hl]
      refine ⟨hp, ?_, ?_⟩
      · rcases hm with h | h <;> omega
      · rcases hs with h | h <;> omega
    · rw [hnone _ (by omega)]
      simp only
      left
      exact ⟨by omega, by rcases hs with h | h <;> omega⟩
    · rw [hnone _ (by omega)]
      simp only
      right
      exact ⟨by rcases hm with h | h <;> omega, by omega⟩
  obtain ⟨st1, ht, _, _, _, hf⟩ := tick_step st lines 0 hcov
  unfold tick at ht
  cases hp : parse st lines st.values_by_id_ with
  | error e => simp [hp] at ht
  | ok data' =>
    simp only [hp, Except.ok.injEq] at ht
    subst ht
    simp only at hf
    refine ⟨data', rfl, ?_, ?_, parse_keys _ _ _ _ hp⟩
    · intro k xs hk
      rcases hf k with ⟨h1, _⟩ | ⟨ys, v, h1, h2⟩
      · rw [hk] at h1; cases h1
      · rw [hk] at h1
        simp only [Option.some.injEq] at h1
        subst h1
        exact ⟨v, h2⟩
    · intro k hk
      rcases hf k with ⟨_, h2⟩ | ⟨ys, v, h1, _⟩
      · exact h2
      · rw [hk] at h1; cases h1

theorem parse_appends_one_witness :
    ∃ data', parse ⟨[(0, [5]), (1, [6]), (2, [7]), (3, [8])], [9], 0, 1, -1, -1, -1, -1, -1, 2, 3⟩
        ["MemTotal: 16 kB".toList, "MemFree: 4 kB".toList]
        [(0, [5]), (1, [6]), (2, [7]), (3, [8])] = .ok data' ∧
      (∀ k xs, find [(0, [5]), (1, [6]), (2, [7]), (3, [8])] k = some xs →
        ∃ v, find data' k = some (xs ++ [v])) ∧
      (∀ k, find [(0, [5]), (1, [6]), (2, [7]), (3, [8])] k = none → find data' k = none) ∧
      data'.map Prod.fst = [(0, [5]), (1, [6]), (2, [7]), (3, [(8 : Int)])].map Prod.fst :=
  parse_appends_one ⟨[(0, [5]), (1, [6]), (2, [7]), (3, [8])], [9], 0, 1, -1, -1, -1, -1, -1, 2, 3⟩
    ["MemTotal: 16 kB".toList, "MemFree: 4 kB".toList]
    (by decide) (by decide) (by decide)

theorem get_metric_properties_once_witness :
    (get_metric_properties ⟨[], [], -1, -1, -1, -1, -1, -1, -1, -1, -1⟩
        (Re.str "Active".toList) ["MemTotal: 16 kB".toList, "Active: 3 kB".toList]) =
      ([⟨"MemTotal".toList, [], "B".toList⟩, ⟨"Active".toList, [], "kB".toList⟩],
        ⟨[(0, []), (1, [])], [], -1, -1, -1, -1, -1, -1, -1, -1, -1⟩) ∧
    (get_metric_properties ⟨[(0, [16384]), (1, [3072])], [10], -1, -1, -1, -1, -1, -1, -1, -1, -1⟩
        (Re.str "Inactive".toList) ["MemTotal: 16 kB".toList, "Active: 3 kB".toList]) =
      ([], ⟨[(0, [16384]), (1, [3072])], [10], -1, -1, -1, -1, -1, -1, -1, -1, -1⟩) ∧
    (get_metric_properties
      (get_metric_properties ⟨[], [], -1, -1, -1, -1, -1, -1, -1, -1, -1⟩
        (Re.str "Active".toList) ["MemTotal: 16 kB".toList, "Active: 3 kB".toList]).2
      (Re.str "Active".toList) ["MemTotal: 16 kB".toList, "Active: 3 kB".toList]).1 = [] :=
  ⟨by decide, by decide,
    (get_metric_properties_once ⟨[], [], -1, -1, -1, -1, -1, -1, -1, -1, -1⟩
      (Re.str "Active".toList) ["MemTotal: 16 kB".toList, "Active: 3 kB".toList]).2.2.1⟩

theorem add_metric_roles_witness :
    (add_metric ⟨[], [], -1, -1, -1, -1, -1, -1, -1, -1, -1⟩ ⟨7, "MemUsed".toList, "B".toList⟩ =
      ⟨[], [], -1, -1, -1, -1, -1, -1, -1, 7, -1⟩) ∧
    (add_metric ⟨[], [], -1, -1, -1, -1, -1, -1, -1, -1, -1⟩ ⟨3, "memtotal".toList, "kB".toList⟩ =
      ⟨[], [], -1, -1, -1, -1, -1, -1, -1, -1, -1⟩) :=
  ⟨(add_metric_roles ⟨[], [], -1, -1, -1, -1, -1, -1, -1, -1, -1⟩
      ⟨7, "MemUsed".toList, "B".toList⟩ (by decide)).2.2.2.2.2.2.2.1 rfl,
   (add_metric_roles ⟨[], [], -1, -1, -1, -1, -1, -1, -1, -1, -1⟩
      ⟨3, "memtotal".toList, "kB".toList⟩ (by decide)).2.2.2.2.2.2.2.2.2.2 rfl⟩

end MemInfo
